import Mathlib

/-! Workflow engine core (`workflow.go`): a shallow embedding.

The Go package keeps every node of a graph behind a pointer stored in the map
`FlowGraph.Flow`; the derived structures (`Inputs`, `Outputs`, `Nodes`) and the
`ComputedInputs` of a node alias those same nodes.  The embedding is an arena:
all node state lives in `Flow`, an association list from node key to node, and
every pointer to a node (or to the `ComputedValue` field of a node) is the key
of that node.  An entry of the Go map whose pointer is nil, which is what decoding
a JSON `null` stores, has no node: its key is listed apart, in `NilKeys`.

What the Go code takes from outside the repository is a parameter of the
embedding (`Env`): the arithmetic of `float64`, `strconv.ParseFloat`,
`strconv.Quote`, `url.Parse` and `uuid.FromString`.

The order in which `range` visits a Go map is not specified; every map loop of
`Build` therefore takes the order of its visit as an argument (`Sched`), and the
payload of `SendInput` is the list of its fields in the order they are visited.
-/

namespace Workflow

/-! ## Values, time, operators -/

/-- Dynamic content of a Go `Value` (an empty interface).  `slice` and `dict`
stand for a decoded JSON array and object, identified by reference; Go cannot
compare two of them. -/
inductive Value (F : Type) where
  | nil
  | bool (b : Bool)
  | float (x : F)
  | str (s : String)
  | int (n : Int)
  | slice (ref : Nat)
  | dict (ref : Nat)
  deriving DecidableEq, Repr

/-- A Go `time.Time` without monotonic reading: the instant (nanoseconds counted
from the zero time) and the location pointer (`0` is the nil pointer, UTC).
`Before` looks at the instant only, `==` at the whole struct. -/
structure Time where
  instant : Int
  loc : Nat
  deriving DecidableEq, Repr

/-- Zero value of `time.Time`. -/
def Time.zero : Time := ⟨0, 0⟩

/-- Method `Time.Before`. -/
def Time.Before (t u : Time) : Bool := decide (t.instant < u.instant)

/-- What `workflow.go` uses from the Go language and from other packages. -/
structure Env (F : Type) where
  /-- The constant `0.0`. -/
  zero : F
  /-- The constant `math.MaxFloat64`. -/
  maxFloat : F
  /-- The constant `-math.MaxFloat64`. -/
  negMaxFloat : F
  /-- The constant `1.0e-9`. -/
  eps : F
  lt : F → F → Bool
  le : F → F → Bool
  gt : F → F → Bool
  ge : F → F → Bool
  /-- Go `==` on `float64`. -/
  feq : F → F → Bool
  add : F → F → F
  sub : F → F → F
  div : F → F → F
  abs : F → F
  /-- Conversion `float64(v)` of an `int`. -/
  ofInt : Int → F
  /-- The call `strconv.ParseFloat(s, 64)`; the error carries its text. -/
  parseFloat : String → Except String F
  /-- The call `strconv.Quote`. -/
  quote : String → String
  /-- The call `url.Parse(s)` followed by `u.String()`; the error carries its text. -/
  urlParse : String → Except String String
  /-- The call `uuid.FromString`, of which only the error is used. -/
  uuidFromString : String → Option String

/-- The compute functions of the registry, by operator. -/
inductive OpCode where
  | const | input | output
  | lt | le | gt | ge | eq | ne
  | and | or | not
  | add | div | min | max
  | select
  | contains_exactly
  | match_str
  | send
  deriving DecidableEq, Repr

/-- Go struct `Operation`; the nil `Fn` of the zero value is `none`. -/
structure Operation where
  Name : String
  Fn : Option OpCode
  MinLenInput : Int
  MaxLenInput : Int
  deriving DecidableEq, Repr

/-- Zero value of `Operation`. -/
def Operation.zero : Operation := ⟨"", none, 0, 0⟩

/-- Registry `Operations`, a Go map from operator name to `Operation`. -/
def Operations (name : String) : Option Operation :=
  if name = "const" then some ⟨"const", some .const, 0, 0⟩
  else if name = "input" then some ⟨"input", some .input, 0, 0⟩
  else if name = "output" then some ⟨"output", some .output, 1, 1⟩
  else if name = "lt" then some ⟨"lt", some .lt, 2, 2⟩
  else if name = "le" then some ⟨"le", some .le, 2, 2⟩
  else if name = "gt" then some ⟨"gt", some .gt, 2, 2⟩
  else if name = "ge" then some ⟨"ge", some .ge, 2, 2⟩
  else if name = "eq" then some ⟨"eq", some .eq, 2, 2⟩
  else if name = "ne" then some ⟨"ne", some .ne, 2, 2⟩
  else if name = "and" then some ⟨"and", some .and, 1, -1⟩
  else if name = "or" then some ⟨"or", some .or, 1, -1⟩
  else if name = "not" then some ⟨"not", some .not, 1, 1⟩
  else if name = "add" then some ⟨"add", some .add, 1, -1⟩
  else if name = "div" then some ⟨"div", some .div, 2, 2⟩
  else if name = "min" then some ⟨"min", some .min, 1, -1⟩
  else if name = "max" then some ⟨"max", some .max, 1, -1⟩
  else if name = "select" then some ⟨"select", some .select, 1, -1⟩
  else if name = "contains_exactly" then some ⟨"contains_exactly", some .contains_exactly, 2, 2⟩
  else if name = "match_str" then some ⟨"match_str", some .match_str, 3, 3⟩
  else if name = "send" then some ⟨"send", some .send, 0, 0⟩
  else none

/-! ## Nodes and graphs -/

/-- Go struct `FlowNode`.  `ComputedInputs` holds, for every pointer of the Go
slice, the key of the node whose `ComputedValue` it points to. -/
structure FlowNode (F : Type) where
  ID : String
  Name : String
  Typ : String
  Operator : String
  Inputs : List String
  Values : List String
  Condition : List String
  rev : Nat
  changed : Bool
  lastChanged : Time
  ComputedValue : Value F
  ComputedInputs : List String
  Operation : Operation
  deriving DecidableEq, Repr

/-- Go struct `FlowGraph`.  The Go map `Flow` holds pointers: `Flow` lists its
entries whose pointer is not nil, and `NilKeys` the keys of its entries whose pointer
is nil, which is what `json.Unmarshal` stores for a member `null`.  `Inputs` is
`none` for the nil map; its entries, and those of `Outputs` and `Nodes`, are keys of
`Flow`.  A pointer to a node that is not in `Flow`, which only the decoding of a
member `Outputs` can leave, is written as a key of no node. -/
structure FlowGraph (F : Type) where
  ID : String
  AID : String
  Name : String
  Flow : List (String × FlowNode F)
  NilKeys : List String := []
  Inputs : Option (List (String × List (String × String)))
  Outputs : List String
  Nodes : List String
  Hooks : List (String × String)
  rev : Nat
  deriving DecidableEq, Repr

/-- Outcome of a Go call that reports an error value: it returns nil, or returns
an error (leaving a state behind), or panics. -/
inductive Result (α : Type) where
  | ok (a : α)
  | error (msg : String) (a : α)
  | panic
  deriving DecidableEq, Repr

/-- Go map read `m[k]` with the comma-ok form. -/
def mapGet {β : Type} (m : List (String × β)) (k : String) : Option β :=
  match m with
  | [] => none
  | (a, b) :: rest => if a = k then some b else mapGet rest k

/-- Replace the value stored under `k`, when there is one. -/
def mapReplace {β : Type} (m : List (String × β)) (k : String) (v : β) : List (String × β) :=
  match m with
  | [] => []
  | (a, b) :: rest => if a = k then (a, v) :: rest else (a, b) :: mapReplace rest k v

/-- Go map write `m[k] = v`. -/
def mapSet {β : Type} (m : List (String × β)) (k : String) (v : β) : List (String × β) :=
  match mapGet m k with
  | some _ => mapReplace m k v
  | none => m ++ [(k, v)]

/-- Keys of a map. -/
def mapKeys {β : Type} (m : List (String × β)) : List String := m.map Prod.fst

variable {F : Type}

/-- The node behind the pointer `g.Flow[k]`. -/
def FlowGraph.getNode (g : FlowGraph F) (k : String) : Option (FlowNode F) := mapGet g.Flow k

/-- Write through the pointer `g.Flow[k]`. -/
def FlowGraph.setNode (g : FlowGraph F) (k : String) (n : FlowNode F) : FlowGraph F :=
  { g with Flow := mapReplace g.Flow k n }

/-- Go `strings.ToLower` (the letters of the type names tested in `Build` are
ASCII letters other than `i` and `k`, so only ASCII letters lower to them, or the
result is a string that lowers to the default case as well). -/
def toLower (s : String) : String := String.mk (s.data.map Char.toLower)

/-- The order in which each map loop of `Build` visits the keys of `Flow`:
the loop of line 424, the loop of line 468, and the `i`-th scan of line 494. -/
structure Sched where
  first : List String
  second : List String
  pass : Nat → List String

/-- The keys of the Go map `Flow`: those of the nodes and those of the nil
pointers. -/
def FlowGraph.keys (g : FlowGraph F) : List String := mapKeys g.Flow ++ g.NilKeys

/-- A `range` over a map visits every entry once, the entries whose pointer is nil
included. -/
def Sched.Valid (s : Sched) (g : FlowGraph F) : Prop :=
  s.first.Perm g.keys ∧ s.second.Perm g.keys ∧ ∀ i, (s.pass i).Perm g.keys

/-! ## Build -/

/-- Seed of the `ComputedValue` of an input node, by its declared type
(the `switch` of line 439). -/
def seedValue (E : Env F) (typ : String) : Value F :=
  if toLower typ = "enume" then .str ""
  else if toLower typ = "string" then .str ""
  else if toLower typ = "bool" then .bool false
  else if toLower typ = "float" then .float E.zero
  else .str ""

/-- Body of the loop of line 424 at the entry `nodeKey, node`: the graph it
leaves, and the error it returns when it returns. -/
def buildFirst (E : Env F) (g : FlowGraph F) (nodeKey : String) (node : FlowNode F) :
    FlowGraph F × Option String :=
  if (node.Operator = "input" ∨ node.Operator = "output" ∨ node.Operator = "webhook")
      ∧ node.ID = "" then
    (g, some ("missing id in node '" ++ nodeKey ++ "'"))
  else
    let g1 := if node.Operator = "output" then { g with Outputs := g.Outputs ++ [nodeKey] } else g
    if node.Operator = "input" then
      let inputs := g1.Inputs.getD []
      let input := mapSet ((mapGet inputs node.ID).getD []) node.Name nodeKey
      let g2 := { g1 with Inputs := some (mapSet inputs node.ID input) }
      (g2.setNode nodeKey { node with ComputedValue := seedValue E node.Typ }, none)
    else if node.Operator = "send" then
      match node.Values with
      | [] => (g1, some ("send operator '" ++ nodeKey ++ "' take 1 value an URL"))
      | v :: _ =>
        match E.urlParse v with
        | .error e => (g1, some ("error in '" ++ nodeKey ++ "' url: " ++ e))
        | .ok u =>
          match E.uuidFromString node.ID with
          | some e => (g1, some ("error in '" ++ nodeKey ++ "' sensor id: " ++ e))
          | none => ({ g1 with Hooks := mapSet g1.Hooks node.ID u }, none)
    else (g1, none)

/-- The way a loop of `Build` is left before its end: the function returns an
error, or it panics. -/
inductive Exit where
  | error (msg : String)
  | panic
  deriving DecidableEq, Repr

/-- Loop of line 424 over the keys in the order given.  At an entry whose pointer
is nil the test `node.Operator == "input"` of line 425 dereferences it and panics. -/
def scanFirst (E : Env F) : List String → FlowGraph F → FlowGraph F × Option Exit
  | [], g => (g, none)
  | k :: ks, g =>
    if k ∈ g.NilKeys then (g, some .panic)
    else
      match g.getNode k with
      | none => scanFirst E ks g
      | some node =>
        match buildFirst E g k node with
        | (g1, some e) => (g1, some (.error e))
        | (g1, none) => scanFirst E ks g1

/-- Loop of line 470: the references collected so far, and the first key that is
not in `Flow`, if any. -/
def resolveInputs (fl : List (String × FlowNode F)) :
    List String → List String → List String × Option String
  | [], acc => (acc, none)
  | key :: rest, acc =>
    match mapGet fl key with
    | none => (acc, some key)
    | some _ => resolveInputs fl rest (acc ++ [key])

/-- Body of the loop of line 468 at the entry `nodeKey, node`. -/
def buildSecond (g : FlowGraph F) (nodeKey : String) (node : FlowNode F) :
    FlowGraph F × Option String :=
  match resolveInputs g.Flow node.Inputs [] with
  | (ci, some key) =>
    (g.setNode nodeKey { node with ComputedInputs := ci },
      some ("Unkown input " ++ key ++ " in " ++ nodeKey))
  | (ci, none) =>
    match Operations node.Operator with
    | none =>
      (g.setNode nodeKey { node with ComputedInputs := ci },
        some ("In node '" ++ nodeKey ++ "': '" ++ node.Operator ++ "' is not a valid operator"))
    | some op =>
      if (node.Inputs.length : Int) < op.MinLenInput
          ∨ (op.MaxLenInput ≥ 0 ∧ (node.Inputs.length : Int) > op.MaxLenInput) then
        (g.setNode nodeKey { node with ComputedInputs := ci, Operation := op },
          some ("in '" ++ nodeKey ++ "' operator " ++ op.Name
            ++ ", expected number of inputs between " ++ toString op.MinLenInput ++ " and "
            ++ toString op.MaxLenInput ++ ", got " ++ toString node.Inputs.length))
      else
        (g.setNode nodeKey { node with ComputedInputs := ci, Operation := op }, none)

/-- Loop of line 468 over the keys in the order given.  It runs after the loop of
line 424 has visited every key without meeting a nil pointer, so it meets none
(`Build_later_nilKeys`). -/
def scanSecond : List String → FlowGraph F → FlowGraph F × Option String
  | [], g => (g, none)
  | k :: ks, g =>
    match g.getNode k with
    | none => scanSecond ks g
    | some node =>
      match buildSecond g k node with
      | (g1, some e) => (g1, some e)
      | (g1, none) => scanSecond ks g1

/-- Loop of line 500: `some true` when every input is placed, `some false` at the
first input that is not, `none` when `g.Flow[key]` is the nil pointer. -/
def childInNodes (fl : List (String × FlowNode F)) : List String → Option Bool
  | [] => some true
  | key :: rest =>
    match mapGet fl key with
    | none => none
    | some input => if input.rev = 0 then some false else childInNodes fl rest

/-- One scan of the loop of line 494 over the keys in the order given; `none`
is a panic. -/
def orderScan : List String → FlowGraph F → Option (FlowGraph F)
  | [], g => some g
  | k :: ks, g =>
    match g.getNode k with
    | none => orderScan ks g
    | some node =>
      if node.rev ≠ 0 then orderScan ks g
      else
        match childInNodes g.Flow node.Inputs with
        | none => none
        | some false => orderScan ks g
        | some true =>
          orderScan ks
            { g with Flow := mapReplace g.Flow k { node with rev := 1 }, Nodes := g.Nodes ++ [k] }

/-- Loop of line 493, with the number of scans it may still run: `none` when
the scans allowed are used up and the loop has not ended. -/
def orderLoop (pass : Nat → List String) : Nat → Nat → FlowGraph F → Option (Result (FlowGraph F))
  | 0, _, g => if g.Nodes.length < g.Flow.length then none else some (.ok g)
  | fuel + 1, i, g =>
    if g.Nodes.length < g.Flow.length then
      match orderScan (pass i) g with
      | none => some .panic
      | some g1 => orderLoop pass fuel (i + 1) g1
    else some (.ok g)

/-- Method `FlowGraph.Build`.  `fuel` bounds the number of scans of the ordering
loop; the result is `none` when the loop needs more.  The loop of line 424 visits
every key of the map, so it is the only one that can meet a nil pointer: the later
loops run only when it has met none. -/
def Build (E : Env F) (s : Sched) (fuel : Nat) (g : FlowGraph F) : Option (Result (FlowGraph F)) :=
  match scanFirst E s.first { g with Inputs := some [], Hooks := [] } with
  | (g1, some (.error e)) => some (.error e g1)
  | (_, some .panic) => some .panic
  | (g1, none) =>
    match scanSecond s.second g1 with
    | (g2, some e) => some (.error e g2)
    | (g2, none) => orderLoop s.pass fuel 0 { g2 with Nodes := [] }

/-! ## Compute -/

/-- Type assertion `v.(float64)`; `none` is the panic of a failed assertion. -/
def asFloat : Value F → Option F
  | .float x => some x
  | _ => none

/-- Type assertion `v.(bool)`. -/
def asBool : Value F → Option Bool
  | .bool b => some b
  | _ => none

/-- Type assertion `v.(string)`. -/
def asString : Value F → Option String
  | .str s => some s
  | _ => none

/-- Go `!=` on two interface values: values of different dynamic types differ,
values of one type are compared by the `==` of that type, and the comparison of
two slices or two maps panics (`none`). -/
def valueNe (E : Env F) : Value F → Value F → Option Bool
  | .nil, .nil => some false
  | .bool a, .bool b => some (a != b)
  | .float a, .float b => some (!E.feq a b)
  | .str a, .str b => some (a != b)
  | .int a, .int b => some (a != b)
  | .slice _, .slice _ => none
  | .dict _, .dict _ => none
  | _, _ => some true

/-- Loop of the operator `and`. -/
def andLoop : List (Value F) → Option Bool
  | [] => some true
  | v :: rest =>
    match asBool v with
    | none => none
    | some false => some false
    | some true => andLoop rest

/-- Loop of the operator `or`. -/
def orLoop : List (Value F) → Option Bool
  | [] => some false
  | v :: rest =>
    match asBool v with
    | none => none
    | some true => some true
    | some false => orLoop rest

/-- Loop of the operator `add`. -/
def addLoop (E : Env F) : F → List (Value F) → Option F
  | acc, [] => some acc
  | acc, v :: rest =>
    match asFloat v with
    | none => none
    | some x => addLoop E (E.add acc x) rest

/-- Loop of the operator `min`. -/
def minLoop (E : Env F) : F → List (Value F) → Option F
  | acc, [] => some acc
  | acc, v :: rest =>
    match asFloat v with
    | none => none
    | some x => minLoop E (if E.lt x acc then x else acc) rest

/-- Loop of the operator `max`. -/
def maxLoop (E : Env F) : F → List (Value F) → Option F
  | acc, [] => some acc
  | acc, v :: rest =>
    match asFloat v with
    | none => none
    | some x => maxLoop E (if E.gt x acc then x else acc) rest

/-- Pieces of a character list between occurrences of `sep`; `cur` is the piece
being read, reversed. -/
def splitChars (sep : Char) : List Char → List Char → List String
  | [], cur => [String.mk cur.reverse]
  | c :: cs, cur =>
    if c = sep then String.mk cur.reverse :: splitChars sep cs []
    else splitChars sep cs (c :: cur)

/-- Go `strings.Split(s, ":")`. -/
def splitColon (s : String) : List String := splitChars ':' s.data []

/-- Loop of the operator `select` from index `i` on: the value selected, `none`
for each of its panics. -/
def selectLoop (E : Env F) (x : F) (values : List String) : Nat → List String → Option String
  | _, [] => none
  | i, cond :: rest =>
    match splitColon cond with
    | [lo, hi] =>
      match E.parseFloat lo with
      | .error _ => none
      | .ok mn =>
        match E.parseFloat hi with
        | .error _ => none
        | .ok mx =>
          if E.le mn x && E.le x mx then values.get? i
          else selectLoop E x values (i + 1) rest
    | _ => selectLoop E x values (i + 1) rest

/-- The compute function `Fn` of each operator, run on `node` when the pointers
of `node.ComputedInputs` read `vals`; `none` is a panic. -/
def Fn (E : Env F) (code : OpCode) (node : FlowNode F) (vals : List (Value F)) :
    Option (FlowNode F) :=
  let two (f : F → F → Value F) : Option (FlowNode F) :=
    match vals with
    | a :: b :: _ =>
      match asFloat a, asFloat b with
      | some x, some y => some { node with ComputedValue := f x y }
      | _, _ => none
    | _ => none
  match code with
  | .const => some node
  | .input => some node
  | .send => some node
  | .output =>
    match vals with
    | v :: _ =>
      match valueNe E node.ComputedValue v with
      | none => none
      | some true => some { node with changed := true, ComputedValue := v }
      | some false => some { node with changed := false }
    | [] => none
  | .lt => two (fun x y => .bool (E.lt x y))
  | .le => two (fun x y => .bool (E.le x y))
  | .gt => two (fun x y => .bool (E.gt x y))
  | .ge => two (fun x y => .bool (E.ge x y))
  | .eq => two (fun x y => .bool (E.lt (E.abs (E.sub x y)) E.eps))
  | .ne => two (fun x y => .bool (E.gt (E.abs (E.sub x y)) E.eps))
  | .and => (andLoop vals).map (fun b => { node with ComputedValue := .bool b })
  | .or => (orLoop vals).map (fun b => { node with ComputedValue := .bool b })
  | .not =>
    match vals with
    | v :: _ => (asBool v).map (fun b => { node with ComputedValue := .bool (!b) })
    | [] => none
  | .add => (addLoop E E.zero vals).map (fun x => { node with ComputedValue := .float x })
  | .div => two (fun x y => .float (E.div x y))
  | .min => (minLoop E E.maxFloat vals).map (fun x => { node with ComputedValue := .float x })
  | .max => (maxLoop E E.negMaxFloat vals).map (fun x => { node with ComputedValue := .float x })
  | .select =>
    match vals with
    | v :: _ =>
      match asFloat v with
      | none => none
      | some x =>
        (selectLoop E x node.Values 0 node.Condition).map
          (fun s => { node with ComputedValue := .str s })
    | [] => none
  | .contains_exactly =>
    match vals with
    | a :: b :: _ =>
      match asString a, asString b with
      | some x, some y => some { node with ComputedValue := .bool (x == y) }
      | _, _ => none
    | _ => none
  | .match_str =>
    match vals with
    | c :: rest =>
      match asBool c with
      | none => none
      | some true => (rest.get? 0).map (fun v => { node with ComputedValue := v })
      | some false => (rest.get? 1).map (fun v => { node with ComputedValue := v })
    | [] => none

/-- The values read through a list of pointers to `ComputedValue` fields. -/
def deref (g : FlowGraph F) : List String → Option (List (Value F))
  | [] => some []
  | k :: ks =>
    match g.getNode k, deref g ks with
    | some n, some vs => some (n.ComputedValue :: vs)
    | _, _ => none

/-- Body of the loop of `Compute`: `node.Operation.Fn(node)` for the node of
key `k`. -/
def computeNode (E : Env F) (g : FlowGraph F) (k : String) : Option (FlowGraph F) :=
  match g.getNode k with
  | none => none
  | some node =>
    match node.Operation.Fn, deref g node.ComputedInputs with
    | some code, some vals => (Fn E code node vals).map (g.setNode k)
    | _, _ => none

/-- Loop of `Compute` over a list of node pointers. -/
def computeList (E : Env F) : List String → FlowGraph F → Option (FlowGraph F)
  | [], g => some g
  | k :: ks, g =>
    match computeNode E g k with
    | none => none
    | some g1 => computeList E ks g1

/-- Method `FlowGraph.Compute`; `none` when an operator panics. -/
def Compute (E : Env F) (g : FlowGraph F) : Option (FlowGraph F) := computeList E g.Nodes g

/-- Method `FlowGraph.Output`. -/
def Output (g : FlowGraph F) : List String := g.Outputs

/-- Method `FlowNode.HasChanged`. -/
def FlowNode.HasChanged (n : FlowNode F) : Bool := n.changed

/-! ## SendInput -/

/-- Verb `%T` on a value. -/
def typeName : Value F → String
  | .nil => "<nil>"
  | .bool _ => "bool"
  | .float _ => "float64"
  | .str _ => "string"
  | .int _ => "int"
  | .slice _ => "[]interface \x7b\x7d"
  | .dict _ => "map[string]interface \x7b\x7d"

/-- Go `strconv.ParseBool`. -/
def parseBool (s : String) : Option Bool :=
  if s = "1" ∨ s = "t" ∨ s = "T" ∨ s = "TRUE" ∨ s = "true" ∨ s = "True" then some true
  else if s = "0" ∨ s = "f" ∨ s = "F" ∨ s = "FALSE" ∨ s = "false" ∨ s = "False" then some false
  else none

/-- The `switch node.Type` of line 366: the value to store, or the error
returned. -/
def coerce (E : Env F) (name typ : String) (value : Value F) : Except String (Value F) :=
  if typ = "string" then
    match value with
    | .str _ => .ok value
    | _ => .error ("in node '" ++ name ++ "' input wanted string, got " ++ typeName value)
  else if typ = "enum" then
    match value with
    | .str _ => .ok value
    | _ => .error ("in node '" ++ name ++ "' input wanted enum, got " ++ typeName value)
  else if typ = "float" then
    match value with
    | .str v =>
      match E.parseFloat v with
      | .ok x => .ok (.float x)
      | .error e => .error ("in node '" ++ name ++ "' input wanted float: " ++ e)
    | .int v => .ok (.float (E.ofInt v))
    | .float _ => .ok value
    | _ => .error ("in node '" ++ name ++ "' input wanted string, got " ++ typeName value)
  else if typ = "bool" then
    match value with
    | .str v =>
      match parseBool v with
      | some b => .ok (.bool b)
      | none =>
        .error ("in node '" ++ name ++ "' input wanted float: strconv.ParseBool: parsing "
          ++ E.quote v ++ ": invalid syntax")
    | .bool _ => .ok value
    | _ => .error ("in node '" ++ name ++ "' input wanted string, got " ++ typeName value)
  else .ok value

/-- Loop of line 360 over the fields of the payload in the order given, `input`
being the map `g.Inputs[sid]` and `must` the variable `mustRecompute`. -/
def sendLoop (E : Env F) (createdAt : Time) (input : List (String × String)) :
    List (String × Value F) → FlowGraph F → Bool → Result (FlowGraph F × Bool)
  | [], g, must => .ok (g, must)
  | (name, value) :: rest, g, must =>
    match mapGet input name with
    | none => sendLoop E createdAt input rest g must
    | some key =>
      match g.getNode key with
      | none => .panic
      | some node =>
        if createdAt.Before node.lastChanged || createdAt == node.lastChanged then
          sendLoop E createdAt input rest g must
        else
          match coerce E name node.Typ value with
          | .error e => .error e (g, false)
          | .ok v =>
            sendLoop E createdAt input rest
              (g.setNode key
                { node with ComputedValue := v, lastChanged := createdAt, rev := g.rev })
              true

/-- The lazy `Build` of lines 352 and 413, whose error is dropped: `none` when
it does not end, `some none` when it panics. -/
def lazyBuild (E : Env F) (s : Sched) (fuel : Nat) (g : FlowGraph F) :
    Option (Option (FlowGraph F)) :=
  match g.Inputs with
  | some _ => some (some g)
  | none =>
    match Build E s fuel g with
    | none => none
    | some (.ok g1) => some (some g1)
    | some (.error _ g1) => some (some g1)
    | some .panic => some none

/-- Method `FlowGraph.SendInput`: the graph it leaves with `mustRecompute`, and
the error if any.  `s` and `fuel` go to the lazy `Build`. -/
def SendInput (E : Env F) (s : Sched) (fuel : Nat) (g : FlowGraph F) (_aid sid : String)
    (createdAt : Time) (data : List (String × Value F)) : Option (Result (FlowGraph F × Bool)) :=
  match lazyBuild E s fuel g with
  | none => none
  | some none => some .panic
  | some (some g1) =>
    match mapGet (g1.Inputs.getD []) sid with
    | none => some (.ok (g1, false))
    | some input =>
      some (sendLoop E createdAt input data { g1 with rev := (g1.rev + 1) % 2 ^ 64 } false)

/-- Method `FlowGraph.WantInput`, with the graph the lazy `Build` leaves. -/
def WantInput (E : Env F) (s : Sched) (fuel : Nat) (g : FlowGraph F) (id : String) :
    Option (Option (FlowGraph F × Bool)) :=
  match lazyBuild E s fuel g with
  | none => none
  | some none => some none
  | some (some g1) => some (some (g1, (mapGet (g1.Inputs.getD []) id).isSome))

/-! ## Predicates used in the statements -/

/-- The map `m` with `f` applied to every value. -/
def mapVals {β γ : Type} (f : β → γ) (m : List (String × β)) : List (String × γ) :=
  m.map (fun p => (p.1, f p.2))

/-- A node without the fields that `Build` sets before it orders the nodes. -/
def eraseBuilt (n : FlowNode F) : FlowNode F :=
  { n with ComputedValue := .nil, ComputedInputs := [], Operation := Operation.zero }

/-- A node without its `rev`. -/
def eraseRev (n : FlowNode F) : FlowNode F := { n with rev := 0 }

/-- A node without the fields that `SendInput` and `Compute` write. -/
def eraseState (n : FlowNode F) : FlowNode F :=
  { n with ComputedValue := .nil, changed := false, lastChanged := Time.zero, rev := 0 }

/-- A freshly decoded graph: `rev` is not exported, so every node has `rev` zero. -/
def Fresh (g : FlowGraph F) : Prop := ∀ p ∈ g.Flow, p.2.rev = 0

/-- The keys of `Flow` are those of a map: no key twice. -/
def WellKeyed (g : FlowGraph F) : Prop := (mapKeys g.Flow).Nodup

/-- What the ordering loop maintains: the nodes with a non-zero `rev` are those
of `Nodes`, none is listed twice, and every input of a listed node is listed at
a smaller index. -/
structure Placed (g : FlowGraph F) : Prop where
  mem_of_rev : ∀ k n, g.getNode k = some n → n.rev ≠ 0 → k ∈ g.Nodes
  rev_of_mem : ∀ k, k ∈ g.Nodes → ∃ n, g.getNode k = some n ∧ n.rev ≠ 0
  nodup : g.Nodes.Nodup
  topo : ∀ i k n, g.Nodes.get? i = some k → g.getNode k = some n →
    ∀ key, key ∈ n.Inputs → ∃ j, j < i ∧ g.Nodes.get? j = some key

/-- A node without the fields that the loop of line 468 sets. -/
def eraseWiring (n : FlowNode F) : FlowNode F :=
  { n with ComputedInputs := [], Operation := Operation.zero }

/-- The test of line 425 on a node. -/
def missingID (n : FlowNode F) : Prop :=
  (n.Operator = "input" ∨ n.Operator = "output" ∨ n.Operator = "webhook") ∧ n.ID = ""

/-- The arity test of line 486 passes for `len` inputs. -/
def arityOK (op : Operation) (len : Nat) : Prop :=
  ¬ ((len : Int) < op.MinLenInput ∨ (op.MaxLenInput ≥ 0 ∧ (len : Int) > op.MaxLenInput))

/-- What the loop of line 468 checks of a node in a graph of flow `fl`: its
inputs are keys of the flow, its operator is registered, and the number of its
inputs is in the range of the operator. -/
def Checked (fl : List (String × FlowNode F)) (n : FlowNode F) : Prop :=
  (∀ key, key ∈ n.Inputs → ∃ m, mapGet fl key = some m) ∧
    ∃ op, Operations n.Operator = some op ∧ arityOK op n.Inputs.length

/-- What the loop of line 468 sets in a node: one pointer for each input, in the
order declared, and the operation of the registry. -/
def Wired (n : FlowNode F) : Prop :=
  n.ComputedInputs = n.Inputs ∧ Operations n.Operator = some n.Operation

/-! ## Example graphs -/

/-- An environment for evaluating examples, with integers in place of
`float64`. -/
def demoEnv : Env Int where
  zero := 0
  maxFloat := 1000000
  negMaxFloat := -1000000
  eps := 0
  lt := fun a b => decide (a < b)
  le := fun a b => decide (a ≤ b)
  gt := fun a b => decide (a > b)
  ge := fun a b => decide (a ≥ b)
  feq := fun a b => decide (a = b)
  add := fun a b => a + b
  sub := fun a b => a - b
  div := fun a b => a / b
  abs := fun a => Int.natAbs a
  ofInt := fun n => n
  parseFloat := fun _ => .error "invalid syntax"
  quote := fun s => s
  urlParse := fun s => .ok s
  uuidFromString := fun s => if s = "" then some "uuid: incorrect UUID length" else none

/-- A node as JSON decoding leaves it. -/
def demoNode (op : String) (inputs : List String) (id name typ : String) : FlowNode Int :=
  { ID := id, Name := name, Typ := typ, Operator := op, Inputs := inputs, Values := [],
    Condition := [], rev := 0, changed := false, lastChanged := Time.zero,
    ComputedValue := .nil, ComputedInputs := [], Operation := Operation.zero }

/-- A graph as JSON decoding leaves it. -/
def demoGraph (fl : List (String × FlowNode Int)) : FlowGraph Int :=
  { ID := "", AID := "", Name := "", Flow := fl, Inputs := none, Outputs := [], Nodes := [],
    Hooks := [], rev := 0 }

/-- Every map loop visits the keys in the order `ks`. -/
def demoSched (ks : List String) : Sched := ⟨ks, ks, fun _ => ks⟩

/-- The graph `out = output (not in)`. -/
def notGraph : FlowGraph Int :=
  demoGraph [("out", demoNode "output" ["n"] "o1" "res" "bool"),
    ("n", demoNode "not" ["in"] "" "" ""),
    ("in", demoNode "input" [] "s1" "x" "bool")]

/-- The graph `notGraph` after `Build`. -/
def notBuilt : FlowGraph Int :=
  { ID := "", AID := "", Name := "",
    Flow := [("out", { demoNode "output" ["n"] "o1" "res" "bool" with
        rev := 1, ComputedInputs := ["n"], Operation := ⟨"output", some .output, 1, 1⟩ }),
      ("n", { demoNode "not" ["in"] "" "" "" with
        rev := 1, ComputedInputs := ["in"], Operation := ⟨"not", some .not, 1, 1⟩ }),
      ("in", { demoNode "input" [] "s1" "x" "bool" with
        rev := 1, ComputedValue := .bool false, Operation := ⟨"input", some .input, 0, 0⟩ })],
    Inputs := some [("s1", [("x", "in")])],
    Outputs := ["out"], Nodes := ["in", "n", "out"], Hooks := [], rev := 0 }

/-- A dependency cycle: a list of keys, one at least the key of a node, such that
every node with a key in the list has an input in the list. -/
def Cyclic (cyc : List String) (g : FlowGraph F) : Prop :=
  (∃ k n, k ∈ cyc ∧ g.getNode k = some n) ∧
    ∀ k, k ∈ cyc → ∀ n, g.getNode k = some n → ∃ key, key ∈ n.Inputs ∧ key ∈ cyc

/-- What the ordering loop maintains on a graph with the cycle `cyc`: the inputs of
every node are nodes, and the nodes of the cycle have `rev` zero. -/
structure Stuck (cyc : List String) (g : FlowGraph F) : Prop where
  cyclic : Cyclic cyc g
  inputs : ∀ k n, g.getNode k = some n → ∀ key, key ∈ n.Inputs → ∃ m, g.getNode key = some m
  rev_zero : ∀ k, k ∈ cyc → ∀ n, g.getNode k = some n → n.rev = 0

/-- The graph with one node, `a = not a`. -/
def selfGraph : FlowGraph Int := demoGraph [("a", demoNode "not" ["a"] "" "" "")]

/-- The graph with an output node without id and a node of operator `webhook`
without id. -/
def hookGraph : FlowGraph Int :=
  demoGraph [("w", demoNode "webhook" [] "" "" ""), ("out", demoNode "output" ["w"] "" "r" "bool")]

/-- The graph with an input node and an output node that has no input. -/
def unwiredGraph : FlowGraph Int :=
  demoGraph [("in", demoNode "input" [] "001" "" "string"),
    ("out", demoNode "output" [] "002" "" "string")]

/-- The graph with an output node that reads a key missing from the flow. -/
def danglingGraph : FlowGraph Int :=
  demoGraph [("out", demoNode "output" ["gone"] "002" "" "string")]

/-- A node without the fields that the compute functions write. -/
def eraseValue (n : FlowNode F) : FlowNode F :=
  { n with ComputedValue := .nil, changed := false }

/-- The structure that a `Build` without error leaves and that `SendInput` and
`Compute` keep: `Nodes` lists every node of the flow once, inputs first, and every
node is wired and checked. -/
structure Built (g : FlowGraph F) : Prop where
  nodup : g.Nodes.Nodup
  all : ∀ k n, g.getNode k = some n → k ∈ g.Nodes
  topo : ∀ i k n, g.Nodes.get? i = some k → g.getNode k = some n →
    ∀ key, key ∈ n.Inputs → ∃ j, j < i ∧ g.Nodes.get? j = some key
  wired : ∀ k n, g.getNode k = some n → Wired n ∧ Checked g.Flow n

/-- The graph `g1` is `g` with other values in its nodes: the same nodes under the
same keys up to `ComputedValue`, `changed`, `lastChanged` and `rev`, and the same
`Nodes`. -/
def SameShape (g g1 : FlowGraph F) : Prop :=
  mapVals eraseState g1.Flow = mapVals eraseState g.Flow ∧ g1.Nodes = g.Nodes

/-- The graph `notBuilt` after `Compute`. -/
def notComputed : FlowGraph Int := (Compute demoEnv notBuilt).getD notBuilt

/-- The graph that `SendInput` leaves when it is sent `data` for the sensor `s1` at
the time `t`. -/
def demoSend (g : FlowGraph Int) (t : Time) (data : List (String × Value Int)) : FlowGraph Int :=
  match SendInput demoEnv (demoSched []) 0 g "acc" "s1" t data with
  | some (.ok (g1, _)) => g1
  | _ => g

/-- The instant 5 read in UTC, as `time.Parse` returns it for a time that ends
in `Z`. -/
def timeUTC : Time := ⟨5, 0⟩

/-- The instant 5 read in another location, as `time.Parse` returns it for a
time that ends in a numeric offset. -/
def timeOffset : Time := ⟨5, 1⟩

/-! ## An environment of decimal fractions -/

/-- Value of a decimal digit. -/
def digitVal (c : Char) : Option Nat :=
  if 48 ≤ c.toNat ∧ c.toNat ≤ 57 then some (c.toNat - 48) else none

/-- The number written by a list of decimal digits after the number `acc`. -/
def parseDigits : List Char → Nat → Option Nat
  | [], acc => some acc
  | c :: cs, acc =>
    match digitVal c with
    | none => none
    | some d => parseDigits cs (acc * 10 + d)

/-- The number of billionths written by a plain decimal numeral with at most nine
digits after the point; `none` for any other text. -/
def parseDecimal (s : String) : Option Int :=
  match splitChars '.' s.data [] with
  | [a] =>
    if a.data = [] then none
    else (parseDigits a.data 0).map (fun n => (n : Int) * 1000000000)
  | [a, b] =>
    if (a.data = [] ∧ b.data = []) ∨ 9 < b.data.length then none
    else
      match parseDigits a.data 0, parseDigits b.data 0 with
      | some n, some m => some ((n : Int) * 1000000000 + (m : Int) * 10 ^ (9 - b.data.length))
      | _, _ => none
  | _ => none

/-- An environment for evaluating examples that need fractions or a NaN: a number
is a count of billionths or the one NaN (`none`).  The comparisons are false on NaN
as those of `float64` are, and so is `==`; sums, differences and quotients of NaN
are NaN; the quotient by zero is NaN; `parseFloat` reads plain decimal numerals and
`NaN`. -/
def decEnv : Env (Option Int) where
  zero := some 0
  maxFloat := some (10 ^ 30)
  negMaxFloat := some (-(10 ^ 30))
  eps := some 1
  lt := fun a b => match a, b with
    | some x, some y => decide (x < y)
    | _, _ => false
  le := fun a b => match a, b with
    | some x, some y => decide (x ≤ y)
    | _, _ => false
  gt := fun a b => match a, b with
    | some x, some y => decide (x > y)
    | _, _ => false
  ge := fun a b => match a, b with
    | some x, some y => decide (x ≥ y)
    | _, _ => false
  feq := fun a b => match a, b with
    | some x, some y => decide (x = y)
    | _, _ => false
  add := fun a b => match a, b with
    | some x, some y => some (x + y)
    | _, _ => none
  sub := fun a b => match a, b with
    | some x, some y => some (x - y)
    | _, _ => none
  div := fun a b => match a, b with
    | some x, some y => if y = 0 then none else some (x * 1000000000 / y)
    | _, _ => none
  abs := fun a => a.map (fun x => (Int.natAbs x : Int))
  ofInt := fun n => some (n * 1000000000)
  parseFloat := fun s =>
    if s = "NaN" then .ok none
    else
      match parseDecimal s with
      | some x => .ok (some x)
      | none => .error "strconv.ParseFloat: invalid syntax"
  quote := fun s => "\"" ++ s ++ "\""
  urlParse := fun s => .ok s
  uuidFromString := fun s => if s.data.length = 36 then none else some "uuid: incorrect UUID length"

/-- The decimal `n / 1000`, in billionths. -/
def milli (n : Int) : Option Int := some (n * 1000000)

/-- A node as JSON decoding leaves it, with numbers of `decEnv`. -/
def decNode (op : String) (inputs : List String) (id name typ : String)
    (values condition : List String) (value : Value (Option Int)) : FlowNode (Option Int) :=
  { ID := id, Name := name, Typ := typ, Operator := op, Inputs := inputs, Values := values,
    Condition := condition, rev := 0, changed := false, lastChanged := Time.zero,
    ComputedValue := value, ComputedInputs := [], Operation := Operation.zero }

/-- A graph as JSON decoding leaves it, with numbers of `decEnv`. -/
def decGraph (fl : List (String × FlowNode (Option Int))) : FlowGraph (Option Int) :=
  { ID := "", AID := "", Name := "", Flow := fl, Inputs := none, Outputs := [], Nodes := [],
    Hooks := [], rev := 0 }

/-- The graph `_rawgraph` of `workflow_test.go`. -/
def rawGraph : FlowGraph (Option Int) :=
  { decGraph [
      ("input0", decNode "input" [] "1377959e-97ce-46c1-9715-22c34bb9afbe" "ramusage" "float"
        [] [] .nil),
      ("input1", decNode "input" [] "1377959e-97ce-46c1-9715-22c34bb9afbe" "loadaverage"
        "float" [] [] .nil),
      ("input2", decNode "input" [] "1377959e-97ce-46c1-9715-22c34bb9afbe" "ram" "float"
        [] [] .nil),
      ("const0", decNode "const" [] "" "" "float" [] [] (.float (milli 800))),
      ("op_ram", decNode "div" ["input0", "input2"] "" "" "" [] [] .nil),
      ("op0", decNode "gt" ["op_ram", "const0"] "" "" "" [] [] .nil),
      ("op1", decNode "gt" ["input1", "const0"] "" "" "" [] [] .nil),
      ("op3", decNode "or" ["op0", "op1"] "" "" "" [] [] .nil),
      ("op4", decNode "max" ["op_ram", "input1"] "" "" "" [] [] .nil),
      ("op5", decNode "select" ["op4"] "" "" "" ["stop", "slow", "medium", "fast"]
        ["0:.1", ".1:.3", ".3:.6", ".6:1"] .nil),
      ("output0", decNode "output" ["op3"] "1949f63d-5e40-45bb-9d31-13ab52b5e92a"
        "windmill_onfire" "bool" [] [] .nil),
      ("output1", decNode "output" ["op5"] "1949f63d-5e40-45bb-9d31-13ab52b5e92a"
        "windmill_propeler_speed" "enum" ["stop", "slow", "medium", "fast"] [] .nil),
      ("webhook", decNode "send" [] "1949f63d-5e40-45bb-9d31-13ab52b5e92a" "" ""
        ["http://localhost:2030"] [] .nil)] with
    ID := "3e8c8cc8-7567-4594-a8d0-c38d9f64765e",
    AID := "fe8927e9-a02a-416a-8928-c3a86dae4c61",
    Name := "database server load" }

/-- The keys of `rawGraph` in the order of the JSON text. -/
def rawKeys : List String :=
  ["input0", "input1", "input2", "const0", "op_ram", "op0", "op1", "op3", "op4", "op5",
    "output0", "output1", "webhook"]

/-- The Go time `time.Unix(sec, 0)`: the zero time is 62135596800 seconds before
the Unix epoch, and the location is `Local`. -/
def unixTime (sec : Int) : Time := ⟨(62135596800 + sec) * 1000000000, 1⟩

/-- The graph that `SendInput` leaves, and `Compute` after it, when the sensor of
`rawGraph` sends `data` at the time `t`; `none` when either does not return
normally. -/
def rawStep (g : FlowGraph (Option Int)) (t : Time) (data : List (String × Value (Option Int))) :
    Option (FlowGraph (Option Int)) :=
  match SendInput decEnv (demoSched rawKeys) 0 g "fe8927e9-a02a-416a-8928-c3a86dae4c61"
      "1377959e-97ce-46c1-9715-22c34bb9afbe" t data with
  | some (.ok (g1, _)) => Compute decEnv g1
  | _ => none

/-- The value and the `changed` flag of the node of key `k`. -/
def valueAt (g : Option (FlowGraph (Option Int))) (k : String) :
    Option (Value (Option Int) × Bool) :=
  match g with
  | none => none
  | some g1 => (g1.getNode k).map (fun n => (n.ComputedValue, n.changed))

/-- The first message of `TestFormat`. -/
def rawPayload1 : List (String × Value (Option Int)) :=
  [("ramusage", .float (milli 1000)), ("loadaverage", .float (milli 200)),
    ("ram", .float (milli 4000))]

/-- The second message of `TestFormat`. -/
def rawPayload2 : List (String × Value (Option Int)) :=
  [("ramusage", .str "1.0"), ("loadaverage", .float (milli 1000)),
    ("ram", .float (milli 4000))]

/-- The scenario of `TestFormat` up to its second `Compute`, when the map loops of
`Build` visit the keys in the order `ks` and the fields of the two messages are
visited in the orders `d1` and `d2`: the values and `changed` flags of the nodes of
keys `ks1` after the first `Compute` and of keys `ks2` after the second. -/
def rawScenario (ks : List String) (d1 d2 : List (String × Value (Option Int)))
    (ks1 ks2 : List String) :
    Option (List (Option (Value (Option Int) × Bool)) × List (Option (Value (Option Int) × Bool))) :=
  match Build decEnv (demoSched ks) 13 rawGraph with
  | some (.ok g0) =>
    match rawStep g0 (unixTime 1) d1 with
    | none => none
    | some g1 =>
      match rawStep g1 (unixTime 2) d2 with
      | none => none
      | some g2 => some (ks1.map (valueAt (some g1)), ks2.map (valueAt (some g2)))
  | _ => none

/-- What `TestFormat` observes: after the first `Compute` the nodes `op_ram`, `op0`,
`op1`, `op3`, `op4`, `op5`, `output0`, `output1`, and after the second the nodes
`op3`, `op4`, `op5`, `output0`, `output1`, each with its value and `changed` flag. -/
def rawExpected :
    Option (List (Option (Value (Option Int) × Bool)) × List (Option (Value (Option Int) × Bool))) :=
  some ([some (.float (milli 250), false), some (.bool false, false), some (.bool false, false),
      some (.bool false, false), some (.float (milli 250), false), some (.str "slow", false),
      some (.bool false, true), some (.str "slow", true)],
    [some (.bool true, false), some (.float (milli 1000), false), some (.str "fast", false),
      some (.bool true, true), some (.str "fast", true)])

/-- The scenario of `TestFormat` observed at the nodes of `rawExpected`. -/
def rawObserved (ks : List String) (d1 d2 : List (String × Value (Option Int))) :
    Option (List (Option (Value (Option Int) × Bool)) × List (Option (Value (Option Int) × Bool))) :=
  rawScenario ks d1 d2 ["op_ram", "op0", "op1", "op3", "op4", "op5", "output0", "output1"]
    ["op3", "op4", "op5", "output0", "output1"]

/-- The lists obtained by putting `x` at each place of a list. -/
def insertAll {α : Type} (x : α) : List α → List (List α)
  | [] => [[x]]
  | y :: ys => (x :: y :: ys) :: (insertAll x ys).map (fun l => y :: l)

/-- The orders in which a map loop may visit the entries listed. -/
def orders {α : Type} : List α → List (List α)
  | [] => [[]]
  | x :: xs => (orders xs).flatMap (insertAll x)

/-- The scenario in every order of the fields of its two messages, for the two
orders `rawKeys` and its reverse of the map loops of `Build`. -/
def rawRuns :
    List (Option (List (Option (Value (Option Int) × Bool)) ×
      List (Option (Value (Option Int) × Bool)))) :=
  [rawKeys, rawKeys.reverse].flatMap fun ks =>
    (orders rawPayload1).flatMap fun d1 =>
      (orders rawPayload2).map fun d2 => rawObserved ks d1 d2

/-- The state `g2` holds the nodes of `g1`, an output node with another `changed`
flag at most. -/
def Settles (g1 g2 : FlowGraph F) : Prop :=
  ∀ k, g2.getNode k = g1.getNode k ∨
    ∃ n1 b, g1.getNode k = some n1 ∧ n1.Operation.Fn = some .output ∧
      g2.getNode k = some { n1 with changed := b }

/-- Every node of `g` holds what its compute function writes from the values its
inputs hold in `g`; an output node holds the value of its input, or a value that
Go `!=` does not tell from it. -/
def Stable (E : Env F) (g : FlowGraph F) : Prop :=
  ∀ k n, g.getNode k = some n →
    ∃ code vals, n.Operation.Fn = some code ∧ deref g n.ComputedInputs = some vals ∧
      (code ≠ .output → Fn E code n vals = some n) ∧
      (code = .output → ∃ v, vals.head? = some v ∧
        (n.ComputedValue = v ∨ valueNe E n.ComputedValue v = some false))

/-- The graph `x = input`, `out = output x` of a float sensor. -/
def nanGraph : FlowGraph (Option Int) :=
  decGraph [("x", decNode "input" [] "s1" "x" "float" [] [] .nil),
    ("out", decNode "output" ["x"] "o1" "r" "float" [] [] .nil)]

/-- The graph `nanGraph` after `Build`, a message `x = "NaN"` and `n` calls of
`Compute`; `none` when one of them does not return normally. -/
def nanRun : Nat → Option (FlowGraph (Option Int))
  | 0 =>
    match Build decEnv (demoSched ["x", "out"]) 2 nanGraph with
    | some (.ok g0) =>
      match SendInput decEnv (demoSched ["x", "out"]) 0 g0 "acc" "s1" (unixTime 1)
          [("x", .str "NaN")] with
      | some (.ok (g1, _)) => some g1
      | _ => none
    | _ => none
  | n + 1 =>
    match nanRun n with
    | none => none
    | some g => Compute decEnv g

/-! ## Emission (`server/rabbitmq.go`, lines 172 to 201) -/

/-- Loop of line 174 over the output nodes: the set `changed` of the ids of the
nodes that have changed. -/
def emitChanged : List (FlowNode F) → List (String × Unit) → List (String × Unit)
  | [], changed => changed
  | out :: rest, changed =>
    emitChanged rest (if out.HasChanged then mapSet changed out.ID () else changed)

/-- Loop of line 180 over the output nodes: the map `output` from id to payload. -/
def emitOutput (changed : List (String × Unit)) :
    List (FlowNode F) → List (String × List (String × Value F)) →
      List (String × List (String × Value F))
  | [], output => output
  | out :: rest, output =>
    match mapGet changed out.ID with
    | none => emitOutput changed rest output
    | some _ =>
      match mapGet output out.ID with
      | some v =>
        emitOutput changed rest (mapSet output out.ID (mapSet v out.Name out.ComputedValue))
      | none =>
        emitOutput changed rest
          (mapSet output out.ID (mapSet [("id", .str out.ID)] out.Name out.ComputedValue))

/-- Lines 172 to 194: the map `output` built from the output nodes `w.Output()`,
before line 200 adds the field `created_at` to its payloads. -/
def emission (outs : List (FlowNode F)) : List (String × List (String × Value F)) :=
  emitOutput (emitChanged outs []) outs []

/-- The value of the last node of the list that has the id `id` and the name
`name`, and `base` when there is none. -/
def lastValue (id name : String) : List (FlowNode F) → Option (Value F) → Option (Value F)
  | [], base => base
  | out :: rest, base =>
    lastValue id name rest (if out.ID = id ∧ out.Name = name then some out.ComputedValue else base)

/-- Two output nodes of the same id and the same name, the first of which has
changed. -/
def clashOutputs : List (FlowNode Int) :=
  [{ demoNode "output" ["a"] "o1" "r" "float" with changed := true, ComputedValue := .float 1 },
    { demoNode "output" ["b"] "o1" "r" "float" with ComputedValue := .float 2 }]

/-- The graph `nanGraph` after `Build`. -/
def nanBuilt : FlowGraph (Option Int) :=
  match Build decEnv (demoSched ["x", "out"]) 2 nanGraph with
  | some (.ok g) => g
  | _ => nanGraph

/-- The input node of `notBuilt`. -/
def notInput : FlowNode Int :=
  { demoNode "input" [] "s1" "x" "bool" with
    rev := 1, ComputedValue := .bool false, Operation := ⟨"input", some .input, 0, 0⟩ }

/-- The input node of `nanBuilt`. -/
def nanInput : FlowNode (Option Int) :=
  { decNode "input" [] "s1" "x" "float" [] [] (.float (some 0)) with
    rev := 1, Operation := ⟨"input", some .input, 0, 0⟩ }

/-- The instant 3 read in UTC. -/
def timeEarly : Time := ⟨3, 0⟩

/-- The entry `cond` of a `select` node is a range `lo:hi` that holds `x`: it
splits in two parts on the colon, both parse, and `lo <= x && x <= hi`. -/
def inRange (E : Env F) (x : F) (cond : String) : Prop :=
  ∃ lo hi mn mx, splitColon cond = [lo, hi] ∧ E.parseFloat lo = .ok mn ∧
    E.parseFloat hi = .ok mx ∧ (E.le mn x && E.le x mx) = true

/-- The loop of `select` passes over the entry `cond` for the input `x`: it does not
split in two parts on the colon, or both parts parse and `lo <= x && x <= hi` is
false. -/
def passedOver (E : Env F) (x : F) (cond : String) : Prop :=
  (splitColon cond).length ≠ 2 ∨
    ∃ lo hi mn mx, splitColon cond = [lo, hi] ∧ E.parseFloat lo = .ok mn ∧
      E.parseFloat hi = .ok mx ∧ (E.le mn x && E.le x mx) = false

/-- A `select` node whose first range has bounds that are not numbers. -/
def badSelect : FlowNode (Option Int) :=
  decNode "select" ["a"] "" "" "" ["u", "w"] ["a:b", "0:1"] .nil

/-- The order of `float64` as far as `eq` and `ne` need it: `<` and `>` never hold
together, and neither holds exactly when the two numbers are `==` or one of them is
NaN (a number that is not `==` to itself). -/
def FloatOrder (E : Env F) : Prop :=
  ∀ x y, ¬ (E.lt x y = true ∧ E.gt x y = true) ∧
    ((E.lt x y = false ∧ E.gt x y = false) ↔
      (E.feq x y = true ∨ E.feq x x = false ∨ E.feq y y = false))

/-- The graph with one node of operator `send` that has a URL and no id. -/
def sendGraph : FlowGraph Int :=
  demoGraph [("w", { demoNode "send" [] "" "" "" with Values := ["http://localhost:2030"] })]

/-- The node `op5` of `rawGraph`. -/
def rawSelect : FlowNode (Option Int) :=
  decNode "select" ["op4"] "" "" "" ["stop", "slow", "medium", "fast"]
    ["0:.1", ".1:.3", ".3:.6", ".6:1"] .nil

/-! ## States and frames of the calls (`SendInput`, `WantInput`, `Compute`, `Output`) -/

/-- The state that a call leaves behind when it returns, with or without an
error; `none` for a panic. -/
def Result.state {α : Type} : Result α → Option α
  | .ok a => some a
  | .error _ a => some a
  | .panic => none

/-- The derived structures of `g1` are those of `g`: the same `Inputs`, `Outputs`,
`Nodes` and `Hooks`, over the same nodes of `Flow` under the same keys in the same
order, up to the fields `ComputedValue`, `changed`, `lastChanged` and `rev`. -/
def SameDerived (g g1 : FlowGraph F) : Prop :=
  g1.Inputs = g.Inputs ∧ g1.Outputs = g.Outputs ∧ g1.Nodes = g.Nodes ∧ g1.Hooks = g.Hooks ∧
    mapVals eraseState g1.Flow = mapVals eraseState g.Flow

/-! ## What `Build` derives: `Nodes`, `Outputs`, `Inputs` and the seeds -/

/-- The key `k` is the key of a node of the flow `fl` whose operator is `output`. -/
def isOutputKey (fl : List (String × FlowNode F)) (k : String) : Bool :=
  match mapGet fl k with
  | some n => decide (n.Operator = "output")
  | none => false

/-- Every entry `inputs[id][name]` is the key of an input node of the flow `fl`
with that id and that name. -/
def InputsSound (fl : List (String × FlowNode F))
    (inputs : List (String × List (String × String))) : Prop :=
  ∀ id input name k1, mapGet inputs id = some input → mapGet input name = some k1 →
    ∃ n1, mapGet fl k1 = some n1 ∧ n1.Operator = "input" ∧ n1.ID = id ∧ n1.Name = name

/-- If `k` is the key of an input node of the flow `fl`, there is an entry
`inputs[id][name]` for the id and the name of that node. -/
def Registered (fl : List (String × FlowNode F))
    (inputs : List (String × List (String × String))) (k : String) : Prop :=
  ∀ n, mapGet fl k = some n → n.Operator = "input" →
    ∃ input k1, mapGet inputs n.ID = some input ∧ mapGet input n.Name = some k1

/-- If `k` is the key of an input node of the flow `fl`, its `ComputedValue` is the
seed of its declared type. -/
def Seeded (E : Env F) (fl : List (String × FlowNode F)) (k : String) : Prop :=
  ∀ n, mapGet fl k = some n → n.Operator = "input" → n.ComputedValue = seedValue E n.Typ

/-- The graph with one input node of declared type `Float`, with a capital. -/
def capitalGraph : FlowGraph Int := demoGraph [("in", demoNode "input" [] "s1" "x" "Float")]

/-- The graph `capitalGraph` after `Build`. -/
def capitalBuilt : FlowGraph Int :=
  { ID := "", AID := "", Name := "",
    Flow := [("in", { demoNode "input" [] "s1" "x" "Float" with
        rev := 1, ComputedValue := .float 0, Operation := ⟨"input", some .input, 0, 0⟩ })],
    Inputs := some [("s1", [("x", "in")])],
    Outputs := [], Nodes := ["in"], Hooks := [], rev := 0 }

/-! ## Sequences of calls, and the dynamic type of the input nodes -/

/-- A call of `SendInput` with its arguments, or a call of `Compute`. -/
inductive Call (F : Type) where
  | send (aid sid : String) (createdAt : Time) (data : List (String × Value F))
  | compute

/-- The graph that a call leaves: for `SendInput` the graph left when it returns,
with or without an error; `none` when the call panics or does not end. -/
def runCall (E : Env F) (s : Sched) (fuel : Nat) (g : FlowGraph F) : Call F → Option (FlowGraph F)
  | .send aid sid createdAt data =>
    match SendInput E s fuel g aid sid createdAt data with
    | some r => r.state.map Prod.fst
    | none => none
  | .compute => Compute E g

/-- The graph that a sequence of calls leaves. -/
def runCalls (E : Env F) (s : Sched) (fuel : Nat) : FlowGraph F → List (Call F) → Option (FlowGraph F)
  | g, [] => some g
  | g, c :: cs =>
    match runCall E s fuel g c with
    | none => none
    | some g1 => runCalls E s fuel g1 cs

/-- The `ComputedValue` of the node has the dynamic type of its declared type:
a `float64` for `float`, a `bool` for `bool`, a `string` for `string` and `enum`. -/
def typeOK (n : FlowNode F) : Prop :=
  (n.Typ = "float" → ∃ x, n.ComputedValue = .float x) ∧
  (n.Typ = "bool" → ∃ b, n.ComputedValue = .bool b) ∧
  (n.Typ = "string" ∨ n.Typ = "enum" → ∃ v, n.ComputedValue = .str v)

/-- The graph `out = output (not in)` where the input node `in` is declared
`float`. -/
def floatGraph : FlowGraph Int :=
  demoGraph [("out", demoNode "output" ["n"] "o1" "res" "bool"),
    ("n", demoNode "not" ["in"] "" "" ""),
    ("in", demoNode "input" [] "s1" "x" "float")]

/-- The graph `floatGraph` after `Build`. -/
def floatBuilt : FlowGraph Int :=
  { ID := "", AID := "", Name := "",
    Flow := [("out", { demoNode "output" ["n"] "o1" "res" "bool" with
        rev := 1, ComputedInputs := ["n"], Operation := ⟨"output", some .output, 1, 1⟩ }),
      ("n", { demoNode "not" ["in"] "" "" "" with
        rev := 1, ComputedInputs := ["in"], Operation := ⟨"not", some .not, 1, 1⟩ }),
      ("in", { demoNode "input" [] "s1" "x" "float" with
        rev := 1, ComputedValue := .float 0, Operation := ⟨"input", some .input, 0, 0⟩ })],
    Inputs := some [("s1", [("x", "in")])],
    Outputs := ["out"], Nodes := ["in", "n", "out"], Hooks := [], rev := 0 }

/-- The graph `floatBuilt` after the sensor `s1` has sent `x = 2` at the instant 5. -/
def floatSent : FlowGraph Int :=
  { ID := "", AID := "", Name := "",
    Flow := [("out", { demoNode "output" ["n"] "o1" "res" "bool" with
        rev := 1, ComputedInputs := ["n"], Operation := ⟨"output", some .output, 1, 1⟩ }),
      ("n", { demoNode "not" ["in"] "" "" "" with
        rev := 1, ComputedInputs := ["in"], Operation := ⟨"not", some .not, 1, 1⟩ }),
      ("in", { demoNode "input" [] "s1" "x" "float" with
        rev := 1, ComputedValue := .float 2, lastChanged := timeUTC,
        Operation := ⟨"input", some .input, 0, 0⟩ })],
    Inputs := some [("s1", [("x", "in")])],
    Outputs := ["out"], Nodes := ["in", "n", "out"], Hooks := [], rev := 1 }

/-- What every call keeps of a node: if its operator is `input`, its compute
function is the one of the operator `input` and its value has the type declared. -/
def InputTyped (n : FlowNode F) : Prop :=
  n.Operator = "input" → n.Operation.Fn = some .input ∧ typeOK n

/-- Three calls on `notBuilt`: a message whose field `x` is not a boolean, which
`SendInput` refuses, a message that it accepts, and a `Compute`. -/
def typedCalls : List (Call Int) :=
  [.send "acc" "s1" timeEarly [("x", .str "zz")], .send "acc" "s1" timeUTC [("x", .bool true)],
    .compute]

/-- The graph that the calls `typedCalls` leave of `notBuilt`. -/
def typedRun : FlowGraph Int :=
  (runCalls demoEnv (demoSched []) 0 notBuilt typedCalls).getD notBuilt

/-! ## Two orders of one flow -/

/-- A graph with two input nodes that do not depend on each other:
`out = output (a and b)`. -/
def twoGraph : FlowGraph Int :=
  demoGraph [("a", demoNode "input" [] "s1" "x" "bool"),
    ("b", demoNode "input" [] "s1" "y" "bool"),
    ("c", demoNode "and" ["a", "b"] "" "" ""),
    ("out", demoNode "output" ["c"] "o1" "res" "bool")]

/-- The graph `twoGraph` after a `Build` that has registered the fields of the
sensor `s1` in the order `fields` and listed the nodes in the order `nodes`. -/
def twoBuilt (fields : List (String × String)) (nodes : List String) : FlowGraph Int :=
  { ID := "", AID := "", Name := "",
    Flow := [("a", { demoNode "input" [] "s1" "x" "bool" with
        rev := 1, ComputedValue := .bool false, Operation := ⟨"input", some .input, 0, 0⟩ }),
      ("b", { demoNode "input" [] "s1" "y" "bool" with
        rev := 1, ComputedValue := .bool false, Operation := ⟨"input", some .input, 0, 0⟩ }),
      ("c", { demoNode "and" ["a", "b"] "" "" "" with
        rev := 1, ComputedInputs := ["a", "b"], Operation := ⟨"and", some .and, 1, -1⟩ }),
      ("out", { demoNode "output" ["c"] "o1" "res" "bool" with
        rev := 1, ComputedInputs := ["c"], Operation := ⟨"output", some .output, 1, 1⟩ })],
    Inputs := some [("s1", fields)],
    Outputs := ["out"], Nodes := nodes, Hooks := [], rev := 0 }

/-! ## The Supervisor (`server/main.go`, `server/rabbitmq.go`) -/

/-- Go `delete(m, k)`. -/
def mapDelete {β : Type} (m : List (String × β)) (k : String) : List (String × β) :=
  m.filter (fun p => p.1 ≠ k)

/-- Go struct `handler`, reduced to what the commands read and write: the worker
name and the table `workflows`, from a workflow id to the runtime started for it.
A runtime is named by a number, in place of the pointer to the Go struct `Workflow`;
`next` is the number that the next runtime gets.  `live` lists the runtimes whose
goroutine has been started by `newWorkflow` and that `Stop` has not ended, each with
the id of its workflow. -/
structure handler where
  workerName : String
  workflows : List (String × Nat)
  live : List (String × Nat)
  next : Nat
  deriving DecidableEq, Repr

/-- A message of the exchange `workflow`: its routing key, and of its body what
`startWorkflow` depends on, `none` when `json.Unmarshal` fails on the body, else the
field `ID` of the record in the form of `String()` and whether the decoding of the
graph and `newWorkflow` both return without error. -/
structure Delivery where
  RoutingKey : String
  Body : Option (String × Bool)
  deriving DecidableEq, Repr

/-- Go `strings.Split(s, ".")`. -/
def splitDot (s : String) : List String := splitChars '.' s.data []

/-- Method `handler.startWorkflow` on a record of id `id`; `starts` tells whether
`json.Unmarshal` of the graph and `newWorkflow` return without error.  The result is
the handler left and whether an error is returned. -/
def startWorkflow (h : handler) (id : String) (starts : Bool) : handler × Bool :=
  if starts then
    ({ h with workflows := mapSet h.workflows id h.next, live := h.live ++ [(id, h.next)],
              next := h.next + 1 }, false)
  else (h, true)

/-- Method `handler.stopWorkflow`: the handler left, and whether the workflow was
running. -/
def stopWorkflow (h : handler) (wid : String) : handler × Bool :=
  match mapGet h.workflows wid with
  | none => (h, false)
  | some w =>
    ({ h with workflows := mapDelete h.workflows wid,
              live := h.live.filter (fun p => p.2 ≠ w) }, true)

/-- Body of the loop of `handler.handleIncomingCommand` (line 314) at the message
`d`. -/
def handleDelivery (h : handler) (d : Delivery) : handler :=
  match splitDot d.RoutingKey with
  | worker :: _aid :: wid :: cmd :: _ =>
    if cmd = "start" then
      if worker ≠ h.workerName then (stopWorkflow h wid).1
      else
        match d.Body with
        | none => h
        | some (id, starts) => (startWorkflow h id starts).1
    else if cmd = "stop" then (stopWorkflow h wid).1
    else h
  | _ => h

/-- Method `handler.handleIncomingCommand` on the messages `msgs`, in the order of
their delivery. -/
def handleIncomingCommand (h : handler) (msgs : List Delivery) : handler :=
  msgs.foldl handleDelivery h

/-- The worker holds the workflow `wid`: its table has an entry for it. -/
def holds (wid : String) (h : handler) : Bool := (mapGet h.workflows wid).isSome

/-- Every runtime that is live is the one that the table records under the id of
its workflow. -/
def Recorded (h : handler) : Prop :=
  ∀ p, p ∈ h.live → mapGet h.workflows p.1 = some p.2

/-- A worker as `main` creates it: no workflow, no runtime. -/
def newHandler (name : String) : handler := ⟨name, [], [], 0⟩

/-- The command that `sendStarCommand` publishes for a workflow of id `wf` of the
account `acc` assigned to the worker `w1`, whose graph `newWorkflow` accepts. -/
def startCommand : Delivery := ⟨"w1.acc.wf.start", some ("wf", true)⟩

/-- The graph `notGraph` as decoding leaves it when the JSON text also has a member
`Outputs` that holds one node: that node is no node of the flow, and the pointer to
it is written as the key `ghost`, which is no key of the flow. -/
def ghostGraph : FlowGraph Int := { notGraph with Outputs := ["ghost"] }

/-! ## Flows with a nil entry -/

/-- The flow `{a: null, out: {operator: output}}`: the entry `a` is a nil pointer
and the output node has no id. -/
def nilOutput : FlowGraph Int :=
  { demoGraph [("out", demoNode "output" [] "" "" "")] with NilKeys := ["a"] }

/-- The flow `{a: null, b: {operator: bogus}}`: the entry `a` is a nil pointer and
the operator of `b` is not in the registry. -/
def nilBogus : FlowGraph Int :=
  { demoGraph [("b", demoNode "bogus" [] "" "" "")] with NilKeys := ["a"] }

/-- The flow `{a: null, b: {operator: not, inputs: [gone]}}`: the entry `a` is a nil
pointer and `b` lists an input that is no key of the flow. -/
def nilDangling : FlowGraph Int :=
  { demoGraph [("b", demoNode "not" ["gone"] "" "" "")] with NilKeys := ["a"] }

/-- Lines 198 to 200: before it is marshalled, every payload of the map `output`
gets the field `created_at`, which carries `now`, the time of the emission in the
form of `Format(time.RFC3339Nano)`. -/
def stamp (now : String) (output : List (String × List (String × Value F))) :
    List (String × List (String × Value F)) :=
  mapVals (fun v => mapSet v "created_at" (.str now)) output

/-- Lines 172 to 201: the payloads that the runtime marshals and publishes for the
output nodes `w.Output()` at the time `now`. -/
def published (now : String) (outs : List (FlowNode F)) :
    List (String × List (String × Value F)) :=
  stamp now (emission outs)

/-- An output node that has changed and an output node of the same id named
`created_at`. -/
def stampOutputs : List (FlowNode Int) :=
  [{ demoNode "output" ["a"] "o1" "r" "float" with changed := true, ComputedValue := .float 1 },
    { demoNode "output" ["b"] "o1" "created_at" "string" with ComputedValue := .str "then" }]

/-! # Theorems -/

/-! ## Maps -/

theorem mapGet_mapReplace {β : Type} (m : List (String × β)) (k k' : String) (v : β) :
    mapGet (mapReplace m k v) k' = if k' = k then (mapGet m k).map (fun _ => v) else mapGet m k' := by
  induction m with
  | nil => simp [mapReplace, mapGet]
  | cons p rest ih =>
    obtain ⟨a, b⟩ := p
    by_cases hak : a = k
    · subst hak
      by_cases hk : k' = a
      · subst hk; simp [mapReplace, mapGet]
      · have : ¬ a = k' := fun h => hk h.symm
        simp [mapReplace, mapGet, hk, this]
    · by_cases hk : k' = k
      · subst hk
        simp [mapReplace, mapGet, hak, ih]
      · simp only [mapReplace, hak, if_false, mapGet, ih, hk]

theorem mapGet_mapReplace_self {β : Type} (m : List (String × β)) (k : String) (v w : β)
    (h : mapGet m k = some w) : mapGet (mapReplace m k v) k = some v := by
  simp [mapGet_mapReplace, h]

theorem mapGet_mapReplace_ne {β : Type} (m : List (String × β)) (k k' : String) (v : β)
    (h : k' ≠ k) : mapGet (mapReplace m k v) k' = mapGet m k' := by
  simp [mapGet_mapReplace, h]

theorem mapKeys_mapReplace {β : Type} (m : List (String × β)) (k : String) (v : β) :
    mapKeys (mapReplace m k v) = mapKeys m := by
  induction m with
  | nil => rfl
  | cons p rest ih =>
    obtain ⟨a, b⟩ := p
    by_cases hak : a = k
    · simp [mapReplace, mapKeys, hak]
    · simp only [mapKeys] at ih
      simp [mapReplace, mapKeys, hak, ih]

theorem length_mapReplace {β : Type} (m : List (String × β)) (k : String) (v : β) :
    (mapReplace m k v).length = m.length := by
  have h := congrArg List.length (mapKeys_mapReplace m k v)
  simpa [mapKeys] using h

theorem mem_mapKeys_of_mapGet {β : Type} {m : List (String × β)} {k : String} {v : β}
    (h : mapGet m k = some v) : k ∈ mapKeys m := by
  induction m with
  | nil => simp [mapGet] at h
  | cons p rest ih =>
    obtain ⟨a, b⟩ := p
    by_cases hak : a = k
    · simp [mapKeys, hak]
    · simp only [mapGet, hak, if_false] at h
      have := ih h
      simp only [mapKeys] at this
      simp [mapKeys, this]

theorem mapGet_isSome_of_mem {β : Type} {m : List (String × β)} {k : String}
    (h : k ∈ mapKeys m) : ∃ v, mapGet m k = some v := by
  induction m with
  | nil => simp [mapKeys] at h
  | cons p rest ih =>
    obtain ⟨a, b⟩ := p
    by_cases hak : a = k
    · exact ⟨b, by simp [mapGet, hak]⟩
    · have hk : k ∈ mapKeys rest := by
        simp only [mapKeys, List.map_cons, List.mem_cons] at h
        rcases h with h | h
        · exact absurd h.symm hak
        · simpa [mapKeys] using h
      obtain ⟨v, hv⟩ := ih hk
      exact ⟨v, by simp [mapGet, hak, hv]⟩

theorem mem_of_mapGet {β : Type} {m : List (String × β)} {k : String} {v : β}
    (h : mapGet m k = some v) : (k, v) ∈ m := by
  induction m with
  | nil => simp [mapGet] at h
  | cons p rest ih =>
    obtain ⟨a, b⟩ := p
    by_cases hak : a = k
    · simp only [mapGet, hak, if_true, Option.some.injEq] at h
      simp [hak, h]
    · simp only [mapGet, hak, if_false] at h
      exact List.mem_cons_of_mem _ (ih h)

theorem mapGet_mapVals {β γ : Type} (f : β → γ) (m : List (String × β)) (k : String) :
    mapGet (mapVals f m) k = (mapGet m k).map f := by
  induction m with
  | nil => rfl
  | cons p rest ih =>
    obtain ⟨a, b⟩ := p
    by_cases hak : a = k
    · simp [mapVals, mapGet, hak]
    · simp only [mapVals] at ih
      simp [mapVals, mapGet, hak, ih]

theorem mapKeys_mapVals {β γ : Type} (f : β → γ) (m : List (String × β)) :
    mapKeys (mapVals f m) = mapKeys m := by
  simp [mapKeys, mapVals, List.map_map, Function.comp_def]

theorem mapVals_mapReplace {β γ : Type} (f : β → γ) (m : List (String × β)) (k : String)
    (v w : β) (h : mapGet m k = some w) (hf : f v = f w) :
    mapVals f (mapReplace m k v) = mapVals f m := by
  induction m with
  | nil => rfl
  | cons p rest ih =>
    obtain ⟨a, b⟩ := p
    by_cases hak : a = k
    · simp only [mapGet, hak, if_true, Option.some.injEq] at h
      simp [mapVals, mapReplace, hak, hf, h]
    · simp only [mapGet, hak, if_false] at h
      have := ih h
      simp only [mapVals] at this
      simp [mapVals, mapReplace, hak, this]

theorem mapKeys_eq_of_mapVals {β γ : Type} (f : β → γ) {m m1 : List (String × β)}
    (h : mapVals f m1 = mapVals f m) : mapKeys m1 = mapKeys m := by
  rw [← mapKeys_mapVals f m1, h, mapKeys_mapVals]

theorem length_eq_of_mapVals {β γ : Type} (f : β → γ) {m m1 : List (String × β)}
    (h : mapVals f m1 = mapVals f m) : m1.length = m.length := by
  have := congrArg List.length (mapKeys_eq_of_mapVals f h)
  simpa [mapKeys] using this

theorem mapGet_of_mapVals {β γ : Type} (f : β → γ) {m m1 : List (String × β)}
    (h : mapVals f m1 = mapVals f m) (k : String) :
    (mapGet m1 k).map f = (mapGet m k).map f := by
  rw [← mapGet_mapVals, ← mapGet_mapVals, h]

theorem Fresh.rev_eq {g : FlowGraph F} (h : Fresh g) {k : String} {n : FlowNode F}
    (hk : g.getNode k = some n) : n.rev = 0 :=
  h (k, n) (mem_of_mapGet hk)

theorem mem_keys_of_mapKeys {g : FlowGraph F} {k : String} (h : k ∈ mapKeys g.Flow) :
    k ∈ g.keys :=
  List.mem_append_left _ h

theorem mem_keys_of_getNode {g : FlowGraph F} {k : String} {n : FlowNode F}
    (h : g.getNode k = some n) : k ∈ g.keys :=
  mem_keys_of_mapKeys (mem_mapKeys_of_mapGet h)

theorem keys_of_nilKeys {g : FlowGraph F} (h : g.NilKeys = []) : g.keys = mapKeys g.Flow := by
  unfold FlowGraph.keys
  rw [h, List.append_nil]

/-! ## The ordering loop -/

theorem get?_append_lt {α : Type} {l1 l2 : List α} {i : Nat} (h : i < l1.length) :
    (l1 ++ l2).get? i = l1.get? i := by
  simp only [List.get?_eq_getElem?]
  exact List.getElem?_append_left h

theorem get?_append_ge {α : Type} {l1 l2 : List α} {i : Nat} (h : l1.length ≤ i) :
    (l1 ++ l2).get? i = l2.get? (i - l1.length) := by
  simp only [List.get?_eq_getElem?]
  exact List.getElem?_append_right h


theorem childInNodes_true {fl : List (String × FlowNode F)} {ins : List String}
    (h : childInNodes fl ins = some true) :
    ∀ key, key ∈ ins → ∃ n, mapGet fl key = some n ∧ n.rev ≠ 0 := by
  induction ins with
  | nil => intro key hk; simp at hk
  | cons a rest ih =>
    intro key hk
    simp only [childInNodes] at h
    cases hg : mapGet fl a with
    | none => simp [hg] at h
    | some n =>
      simp only [hg] at h
      by_cases hr : n.rev = 0
      · simp [hr] at h
      · simp only [hr, if_false] at h
        rcases List.mem_cons.1 hk with hk | hk
        · subst hk; exact ⟨n, hg, hr⟩
        · exact ih h key hk

theorem Placed.place {g : FlowGraph F} (hp : Placed g) {k : String} {node : FlowNode F}
    (hk : g.getNode k = some node) (hr : node.rev = 0)
    (hc : childInNodes g.Flow node.Inputs = some true) :
    Placed { g with Flow := mapReplace g.Flow k { node with rev := 1 }, Nodes := g.Nodes ++ [k] } := by
  have hknot : k ∉ g.Nodes := by
    intro hmem
    obtain ⟨n, hn, hn0⟩ := hp.rev_of_mem k hmem
    rw [hk] at hn
    cases hn
    exact hn0 hr
  have hget : ∀ k1 n1,
      mapGet (mapReplace g.Flow k { node with rev := 1 }) k1 = some n1 →
      (k1 = k ∧ n1 = { node with rev := 1 }) ∨ (k1 ≠ k ∧ g.getNode k1 = some n1) := by
    intro k1 n1 h1
    rw [mapGet_mapReplace] at h1
    by_cases hkk : k1 = k
    · left
      simp only [hkk, if_true] at h1
      have hk2 : mapGet g.Flow k = some node := hk
      rw [hk2] at h1
      simp only [Option.map_some', Option.some.injEq] at h1
      exact ⟨hkk, h1.symm⟩
    · right
      simp only [hkk, if_false] at h1
      exact ⟨hkk, h1⟩
  constructor
  · intro k1 n1 h1 hr1
    rcases hget k1 n1 h1 with ⟨rfl, _⟩ | ⟨_, h2⟩
    · simp
    · exact List.mem_append_left _ (hp.mem_of_rev k1 n1 h2 hr1)
  · intro k1 hmem
    by_cases hkk : k1 = k
    · subst hkk
      refine ⟨{ node with rev := 1 }, ?_, by simp⟩
      exact mapGet_mapReplace_self _ _ _ _ hk
    · have hmem1 : k1 ∈ g.Nodes := by
        rcases List.mem_append.1 hmem with h | h
        · exact h
        · simp at h; exact absurd h hkk
      obtain ⟨n, hn, hn0⟩ := hp.rev_of_mem k1 hmem1
      refine ⟨n, ?_, hn0⟩
      show mapGet (mapReplace g.Flow k _) k1 = some n
      rw [mapGet_mapReplace_ne _ _ _ _ hkk]
      exact hn
  · show (g.Nodes ++ [k]).Nodup
    rw [List.nodup_append]
    refine ⟨hp.nodup, by simp, ?_⟩
    intro a ha hb
    simp at hb
    subst hb
    exact hknot ha
  · intro i k1 n1 hi h1 key hkey
    have hi1 : (g.Nodes ++ [k]).get? i = some k1 := hi
    by_cases hlt : i < g.Nodes.length
    · rw [get?_append_lt hlt] at hi1
      have hmem : k1 ∈ g.Nodes := List.get?_mem hi1
      have hne : k1 ≠ k := fun h => hknot (h ▸ hmem)
      rcases hget k1 n1 h1 with ⟨h, _⟩ | ⟨_, h2⟩
      · exact absurd h hne
      · obtain ⟨j, hj, hjk⟩ := hp.topo i k1 n1 hi1 h2 key hkey
        refine ⟨j, hj, ?_⟩
        show (g.Nodes ++ [k]).get? j = some key
        rw [get?_append_lt (lt_trans hj hlt)]
        exact hjk
    · have hge : g.Nodes.length ≤ i := Nat.le_of_not_lt hlt
      rw [get?_append_ge hge] at hi1
      have hi0 : i - g.Nodes.length = 0 := by
        by_contra hne
        obtain ⟨m, hm⟩ := Nat.exists_eq_succ_of_ne_zero hne
        rw [hm] at hi1
        simp at hi1
      rw [hi0] at hi1
      simp at hi1
      subst hi1
      rcases hget k n1 h1 with ⟨_, h2⟩ | ⟨h, _⟩
      · subst h2
        obtain ⟨n2, hn2, hn20⟩ := childInNodes_true hc key hkey
        have hmem : key ∈ g.Nodes := hp.mem_of_rev key n2 hn2 hn20
        obtain ⟨j, hj⟩ := List.get?_of_mem hmem
        have hjlt : j < g.Nodes.length := by
          by_contra hcon
          rw [List.get?_eq_none.2 (Nat.le_of_not_lt hcon)] at hj
          cases hj
        refine ⟨j, lt_of_lt_of_le hjlt hge, ?_⟩
        show (g.Nodes ++ [k]).get? j = some key
        rw [get?_append_lt hjlt]
        exact hj
      · exact absurd rfl h

/-- Fields of the graph that the ordering loop does not write. -/
theorem orderScan_frame {ks : List String} {g g1 : FlowGraph F} (h : orderScan ks g = some g1) :
    mapVals eraseRev g1.Flow = mapVals eraseRev g.Flow ∧ g1.Inputs = g.Inputs ∧
      g1.Outputs = g.Outputs ∧ g1.Hooks = g.Hooks ∧ g1.rev = g.rev := by
  induction ks generalizing g with
  | nil => simp only [orderScan, Option.some.injEq] at h; subst h; simp
  | cons k ks ih =>
    simp only [orderScan] at h
    cases hk : g.getNode k with
    | none => rw [hk] at h; exact ih h
    | some node =>
      rw [hk] at h
      simp only at h
      by_cases hr : node.rev = 0
      · simp only [hr, ne_eq, not_true_eq_false, if_false] at h
        cases hc : childInNodes g.Flow node.Inputs with
        | none => rw [hc] at h; cases h
        | some b =>
          rw [hc] at h
          cases b with
          | false => exact ih h
          | true =>
            obtain ⟨h1, h2, h3, h4, h5⟩ := ih h
            refine ⟨?_, h2, h3, h4, h5⟩
            rw [h1]
            exact mapVals_mapReplace eraseRev g.Flow k _ node hk (by simp [eraseRev])
      · simp only [ne_eq, hr, not_false_eq_true, if_true] at h
        exact ih h

theorem orderScan_placed {ks : List String} {g g1 : FlowGraph F} (hp : Placed g)
    (h : orderScan ks g = some g1) : Placed g1 := by
  induction ks generalizing g with
  | nil => simp only [orderScan, Option.some.injEq] at h; subst h; exact hp
  | cons k ks ih =>
    simp only [orderScan] at h
    cases hk : g.getNode k with
    | none => rw [hk] at h; exact ih hp h
    | some node =>
      rw [hk] at h
      simp only at h
      by_cases hr : node.rev = 0
      · simp only [hr, ne_eq, not_true_eq_false, if_false] at h
        cases hc : childInNodes g.Flow node.Inputs with
        | none => rw [hc] at h; cases h
        | some b =>
          rw [hc] at h
          cases b with
          | false => exact ih hp h
          | true => exact ih (hp.place hk hr hc) h
      · simp only [ne_eq, hr, not_false_eq_true, if_true] at h
        exact ih hp h

theorem orderLoop_ok {pass : Nat → List String} {fuel i : Nat} {g g1 : FlowGraph F}
    (hp : Placed g) (h : orderLoop pass fuel i g = some (.ok g1)) :
    Placed g1 ∧ ¬ g1.Nodes.length < g1.Flow.length ∧
      mapVals eraseRev g1.Flow = mapVals eraseRev g.Flow ∧ g1.Inputs = g.Inputs ∧
      g1.Outputs = g.Outputs ∧ g1.Hooks = g.Hooks ∧ g1.rev = g.rev := by
  induction fuel generalizing i g with
  | zero =>
    simp only [orderLoop] at h
    by_cases hl : g.Nodes.length < g.Flow.length
    · simp [hl] at h
    · simp only [hl, if_false, Option.some.injEq, Result.ok.injEq] at h
      subst h
      exact ⟨hp, hl, rfl, rfl, rfl, rfl, rfl⟩
  | succ fuel ih =>
    simp only [orderLoop] at h
    by_cases hl : g.Nodes.length < g.Flow.length
    · simp only [hl, if_true] at h
      cases hs : orderScan (pass i) g with
      | none => rw [hs] at h; simp at h
      | some g2 =>
        rw [hs] at h
        obtain ⟨a, b, c1, c2, c3, c4, c5⟩ := ih (orderScan_placed hp hs) h
        obtain ⟨d1, d2, d3, d4, d5⟩ := orderScan_frame hs
        exact ⟨a, b, c1.trans d1, c2.trans d2, c3.trans d3, c4.trans d4, c5.trans d5⟩
    · simp only [hl, if_false, Option.some.injEq, Result.ok.injEq] at h
      subst h
      exact ⟨hp, hl, rfl, rfl, rfl, rfl, rfl⟩

/-! ## The two validation loops -/

theorem getNode_of_mapVals {f : FlowNode F → FlowNode F} {g q : FlowGraph F}
    (h : mapVals f q.Flow = mapVals f g.Flow) {k : String} {n1 : FlowNode F}
    (hk : q.getNode k = some n1) : ∃ n, g.getNode k = some n ∧ f n = f n1 := by
  have := mapGet_of_mapVals f h k
  have hk1 : mapGet q.Flow k = some n1 := hk
  rw [hk1] at this
  cases hn : mapGet g.Flow k with
  | none => rw [hn] at this; simp at this
  | some n =>
    rw [hn] at this
    simp only [Option.map_some', Option.some.injEq] at this
    exact ⟨n, hn, this.symm⟩

theorem buildFirst_frame (E : Env F) {g : FlowGraph F} {k : String} {node : FlowNode F}
    (hk : g.getNode k = some node) :
    mapVals eraseBuilt (buildFirst E g k node).1.Flow = mapVals eraseBuilt g.Flow ∧
      (buildFirst E g k node).1.rev = g.rev := by
  have hrep : mapVals eraseBuilt
      (mapReplace g.Flow k { node with ComputedValue := seedValue E node.Typ })
      = mapVals eraseBuilt g.Flow :=
    mapVals_mapReplace eraseBuilt g.Flow k _ node hk (by simp [eraseBuilt])
  unfold buildFirst
  split_ifs <;> try (constructor <;> first | rfl | exact hrep)
  all_goals (split <;> try (split <;> try split)) <;> (constructor <;> rfl)

theorem scanFirst_cons_nil (E : Env F) {k : String} {ks : List String} {g : FlowGraph F}
    (h : k ∈ g.NilKeys) : scanFirst E (k :: ks) g = (g, some .panic) := by
  simp only [scanFirst, h, if_true]

theorem scanFirst_cons (E : Env F) {k : String} {ks : List String} {g : FlowGraph F}
    (h : k ∉ g.NilKeys) :
    scanFirst E (k :: ks) g =
      match g.getNode k with
      | none => scanFirst E ks g
      | some node =>
        match buildFirst E g k node with
        | (g1, some e) => (g1, some (.error e))
        | (g1, none) => scanFirst E ks g1 := by
  simp only [scanFirst, h, if_false]

theorem buildFirst_nilKeys (E : Env F) (g : FlowGraph F) (k : String) (node : FlowNode F) :
    (buildFirst E g k node).1.NilKeys = g.NilKeys := by
  unfold buildFirst
  split_ifs <;> try rfl
  all_goals (split <;> try (split <;> try split)) <;> rfl

theorem scanFirst_frame (E : Env F) (ks : List String) (g : FlowGraph F) :
    mapVals eraseBuilt (scanFirst E ks g).1.Flow = mapVals eraseBuilt g.Flow ∧
      (scanFirst E ks g).1.rev = g.rev := by
  induction ks generalizing g with
  | nil => simp [scanFirst]
  | cons k ks ih =>
    by_cases hnil : k ∈ g.NilKeys
    · rw [scanFirst_cons_nil E hnil]
      exact ⟨rfl, rfl⟩
    rw [scanFirst_cons E hnil]
    cases hk : g.getNode k with
    | none => exact ih g
    | some node =>
      simp only
      obtain ⟨f1, f2⟩ := buildFirst_frame E hk
      rcases hb : buildFirst E g k node with ⟨g1, e⟩
      rw [hb] at f1 f2
      cases e with
      | some e => exact ⟨f1, f2⟩
      | none =>
        obtain ⟨i1, i2⟩ := ih g1
        exact ⟨i1.trans f1, i2.trans f2⟩

theorem eraseBuilt_eraseWiring (n : FlowNode F) : eraseBuilt (eraseWiring n) = eraseBuilt n := rfl

theorem mapVals_mapVals {β γ δ : Type} (f : β → γ) (h : γ → δ) (m : List (String × β)) :
    mapVals h (mapVals f m) = mapVals (fun b => h (f b)) m := by
  simp [mapVals, List.map_map, Function.comp_def]

theorem mapVals_eraseBuilt_of_eraseWiring {m m1 : List (String × FlowNode F)}
    (h : mapVals eraseWiring m1 = mapVals eraseWiring m) :
    mapVals eraseBuilt m1 = mapVals eraseBuilt m := by
  have := congrArg (mapVals eraseBuilt) h
  simpa [mapVals_mapVals, eraseBuilt_eraseWiring] using this

theorem eraseBuilt_fields {n m : FlowNode F} (h : eraseBuilt n = eraseBuilt m) :
    n.ID = m.ID ∧ n.Operator = m.Operator ∧ n.Inputs = m.Inputs ∧ n.rev = m.rev ∧
      n.Name = m.Name ∧ n.Typ = m.Typ := by
  have h1 : (eraseBuilt n).ID = (eraseBuilt m).ID := by rw [h]
  have h2 : (eraseBuilt n).Operator = (eraseBuilt m).Operator := by rw [h]
  have h3 : (eraseBuilt n).Inputs = (eraseBuilt m).Inputs := by rw [h]
  have h4 : (eraseBuilt n).rev = (eraseBuilt m).rev := by rw [h]
  have h5 : (eraseBuilt n).Name = (eraseBuilt m).Name := by rw [h]
  have h6 : (eraseBuilt n).Typ = (eraseBuilt m).Typ := by rw [h]
  exact ⟨h1, h2, h3, h4, h5, h6⟩

theorem buildFirst_ok (E : Env F) {g g1 : FlowGraph F} {k : String} {node : FlowNode F}
    (h : buildFirst E g k node = (g1, none)) : ¬ missingID node := by
  intro hm
  unfold missingID at hm
  unfold buildFirst at h
  rw [if_pos hm] at h
  cases h

theorem buildFirst_error (E : Env F) {g g1 : FlowGraph F} {k e : String} {node : FlowNode F}
    (h : buildFirst E g k node = (g1, some e)) :
    (missingID node ∧ e = "missing id in node '" ++ k ++ "'") ∨ node.Operator = "send" := by
  by_cases hm : missingID node
  · left
    refine ⟨hm, ?_⟩
    unfold missingID at hm
    unfold buildFirst at h
    rw [if_pos hm] at h
    simp only [Prod.mk.injEq, Option.some.injEq] at h
    exact h.2.symm
  · right
    by_contra hs
    unfold missingID at hm
    unfold buildFirst at h
    rw [if_neg hm] at h
    simp only [hs, if_false] at h
    split_ifs at h <;> simp at h

theorem scanFirst_ok (E : Env F) {ks : List String} {g g1 : FlowGraph F}
    (h : scanFirst E ks g = (g1, none)) :
    ∀ k, k ∈ ks → ∀ node, g.getNode k = some node → ¬ missingID node := by
  induction ks generalizing g with
  | nil => intro k hk; simp at hk
  | cons k0 ks ih =>
    intro k hk node hn
    have hnil : k0 ∉ g.NilKeys := by
      intro hn0
      rw [scanFirst_cons_nil E hn0] at h
      simp at h
    rw [scanFirst_cons E hnil] at h
    cases h0 : g.getNode k0 with
    | none =>
      rw [h0] at h
      rcases List.mem_cons.1 hk with hk | hk
      · subst hk; rw [h0] at hn; cases hn
      · exact ih h k hk node hn
    | some node0 =>
      rw [h0] at h
      simp only at h
      rcases hb : buildFirst E g k0 node0 with ⟨g2, e⟩
      rw [hb] at h
      cases e with
      | some e => simp at h
      | none =>
        simp only at h
        by_cases hkk : k = k0
        · subst hkk
          rw [h0] at hn
          cases hn
          exact buildFirst_ok E hb
        · have hk1 : k ∈ ks := by
            rcases List.mem_cons.1 hk with hk | hk
            · exact absurd hk hkk
            · exact hk
          have hfr := (buildFirst_frame E h0).1
          rw [hb] at hfr
          obtain ⟨n2, hn2, hek⟩ := getNode_of_mapVals (g := g2) (q := g) hfr.symm hn
          have := ih h k hk1 n2 hn2
          intro hm
          apply this
          obtain ⟨h2, h1, _⟩ := eraseBuilt_fields hek
          unfold missingID at hm ⊢
          rw [h1, h2]
          exact hm

theorem scanFirst_error (E : Env F) {ks : List String} {g g1 : FlowGraph F} {e : String}
    (h : scanFirst E ks g = (g1, some (.error e))) :
    ∃ k node, k ∈ ks ∧ g.getNode k = some node ∧
      ((missingID node ∧ e = "missing id in node '" ++ k ++ "'") ∨ node.Operator = "send") := by
  induction ks generalizing g with
  | nil => simp [scanFirst] at h
  | cons k0 ks ih =>
    have hnil : k0 ∉ g.NilKeys := by
      intro hn0
      rw [scanFirst_cons_nil E hn0] at h
      simp at h
    rw [scanFirst_cons E hnil] at h
    cases h0 : g.getNode k0 with
    | none =>
      rw [h0] at h
      obtain ⟨k, node, hk, hn, hc⟩ := ih h
      exact ⟨k, node, List.mem_cons_of_mem _ hk, hn, hc⟩
    | some node0 =>
      rw [h0] at h
      simp only at h
      rcases hb : buildFirst E g k0 node0 with ⟨g2, e2⟩
      rw [hb] at h
      cases e2 with
      | some e2 =>
        simp only [Prod.mk.injEq, Option.some.injEq, Exit.error.injEq] at h
        obtain ⟨_, he⟩ := h
        subst he
        exact ⟨k0, node0, List.mem_cons_self _ _, h0, buildFirst_error E hb⟩
      | none =>
        simp only at h
        obtain ⟨k, n2, hk, hn2, hc⟩ := ih h
        have hfr := (buildFirst_frame E h0).1
        rw [hb] at hfr
        obtain ⟨node, hn, hek⟩ := getNode_of_mapVals hfr hn2
        obtain ⟨h2, h1, _⟩ := eraseBuilt_fields hek
        refine ⟨k, node, List.mem_cons_of_mem _ hk, hn, ?_⟩
        unfold missingID at hc ⊢
        rw [h1, h2]
        exact hc

theorem scanFirst_nilKeys (E : Env F) (ks : List String) (g : FlowGraph F) :
    (scanFirst E ks g).1.NilKeys = g.NilKeys := by
  induction ks generalizing g with
  | nil => rfl
  | cons k ks ih =>
    by_cases hnil : k ∈ g.NilKeys
    · rw [scanFirst_cons_nil E hnil]
    rw [scanFirst_cons E hnil]
    cases hk : g.getNode k with
    | none => exact ih g
    | some node =>
      simp only
      have hb1 := buildFirst_nilKeys E g k node
      rcases hb : buildFirst E g k node with ⟨g1, e⟩
      rw [hb] at hb1
      cases e with
      | some e => exact hb1
      | none => exact (ih g1).trans hb1

theorem scanFirst_panic (E : Env F) {ks : List String} {g g1 : FlowGraph F}
    (h : scanFirst E ks g = (g1, some .panic)) : ∃ k, k ∈ ks ∧ k ∈ g.NilKeys := by
  induction ks generalizing g with
  | nil => simp [scanFirst] at h
  | cons k0 ks ih =>
    by_cases hnil : k0 ∈ g.NilKeys
    · exact ⟨k0, List.mem_cons_self _ _, hnil⟩
    rw [scanFirst_cons E hnil] at h
    cases h0 : g.getNode k0 with
    | none =>
      rw [h0] at h
      obtain ⟨k, hk, hn⟩ := ih h
      exact ⟨k, List.mem_cons_of_mem _ hk, hn⟩
    | some node0 =>
      rw [h0] at h
      simp only at h
      have hb1 := buildFirst_nilKeys E g k0 node0
      rcases hb : buildFirst E g k0 node0 with ⟨g2, e2⟩
      rw [hb] at h hb1
      cases e2 with
      | some e2 => simp at h
      | none =>
        simp only at h
        obtain ⟨k, hk, hn⟩ := ih h
        rw [hb1] at hn
        exact ⟨k, List.mem_cons_of_mem _ hk, hn⟩

theorem scanFirst_no_nil (E : Env F) {ks : List String} {g g1 : FlowGraph F}
    (h : scanFirst E ks g = (g1, none)) : ∀ k, k ∈ ks → k ∉ g.NilKeys := by
  induction ks generalizing g with
  | nil => intro k hk; simp at hk
  | cons k0 ks ih =>
    have hnil : k0 ∉ g.NilKeys := by
      intro hn0
      rw [scanFirst_cons_nil E hn0] at h
      simp at h
    rw [scanFirst_cons E hnil] at h
    intro k hk
    rcases List.mem_cons.1 hk with hk | hk
    · rw [hk]; exact hnil
    cases h0 : g.getNode k0 with
    | none =>
      rw [h0] at h
      exact ih h k hk
    | some node0 =>
      rw [h0] at h
      simp only at h
      have hb1 := buildFirst_nilKeys E g k0 node0
      rcases hb : buildFirst E g k0 node0 with ⟨g2, e2⟩
      rw [hb] at h hb1
      cases e2 with
      | some e2 => simp at h
      | none =>
        simp only at h
        have := ih h k hk
        rw [hb1] at this
        exact this

theorem resolveInputs_none {fl : List (String × FlowNode F)} {ins acc ci : List String}
    (h : resolveInputs fl ins acc = (ci, none)) :
    ci = acc ++ ins ∧ ∀ key, key ∈ ins → ∃ m, mapGet fl key = some m := by
  induction ins generalizing acc with
  | nil =>
    simp only [resolveInputs, Prod.mk.injEq, and_true] at h
    simp [h]
  | cons a rest ih =>
    simp only [resolveInputs] at h
    cases ha : mapGet fl a with
    | none => rw [ha] at h; simp at h
    | some m =>
      rw [ha] at h
      obtain ⟨h1, h2⟩ := ih h
      refine ⟨by simp [h1], ?_⟩
      intro key hk
      rcases List.mem_cons.1 hk with hk | hk
      · subst hk; exact ⟨m, ha⟩
      · exact h2 key hk

theorem resolveInputs_some {fl : List (String × FlowNode F)} {ins acc ci : List String}
    {key : String} (h : resolveInputs fl ins acc = (ci, some key)) :
    key ∈ ins ∧ mapGet fl key = none := by
  induction ins generalizing acc with
  | nil => simp [resolveInputs] at h
  | cons a rest ih =>
    simp only [resolveInputs] at h
    cases ha : mapGet fl a with
    | none =>
      rw [ha] at h
      simp only [Prod.mk.injEq, Option.some.injEq] at h
      obtain ⟨_, rfl⟩ := h
      exact ⟨List.mem_cons_self _ _, ha⟩
    | some m =>
      rw [ha] at h
      obtain ⟨h1, h2⟩ := ih h
      exact ⟨List.mem_cons_of_mem _ h1, h2⟩

theorem buildSecond_flow (g : FlowGraph F) (k : String) (node : FlowNode F) :
    ∃ n1, (buildSecond g k node).1 = g.setNode k n1 ∧ eraseWiring n1 = eraseWiring node ∧
      n1.ComputedValue = node.ComputedValue := by
  unfold buildSecond
  split
  · exact ⟨_, rfl, rfl, rfl⟩
  · split
    · exact ⟨_, rfl, rfl, rfl⟩
    · split_ifs <;> exact ⟨_, rfl, rfl, rfl⟩

theorem buildSecond_ok {g g1 : FlowGraph F} {k : String} {node : FlowNode F}
    (h : buildSecond g k node = (g1, none)) :
    ∃ op, g1 = g.setNode k { node with ComputedInputs := node.Inputs, Operation := op } ∧
      Operations node.Operator = some op ∧ arityOK op node.Inputs.length ∧
      ∀ key, key ∈ node.Inputs → ∃ m, mapGet g.Flow key = some m := by
  unfold buildSecond at h
  rcases hr : resolveInputs g.Flow node.Inputs [] with ⟨ci, miss⟩
  rw [hr] at h
  cases miss with
  | some key => simp at h
  | none =>
    simp only at h
    obtain ⟨hci, hex⟩ := resolveInputs_none hr
    simp only [List.nil_append] at hci
    cases hop : Operations node.Operator with
    | none => rw [hop] at h; simp at h
    | some op =>
      rw [hop] at h
      simp only at h
      by_cases ha : (node.Inputs.length : Int) < op.MinLenInput
          ∨ (op.MaxLenInput ≥ 0 ∧ (node.Inputs.length : Int) > op.MaxLenInput)
      · rw [if_pos ha] at h; simp at h
      · rw [if_neg ha] at h
        simp only [Prod.mk.injEq, and_true] at h
        exact ⟨op, by rw [← h, hci], rfl, ha, hex⟩

theorem scanSecond_frame (ks : List String) (g : FlowGraph F) :
    mapVals eraseWiring (scanSecond ks g).1.Flow = mapVals eraseWiring g.Flow ∧
      (scanSecond ks g).1.Inputs = g.Inputs ∧ (scanSecond ks g).1.Outputs = g.Outputs ∧
      (scanSecond ks g).1.Hooks = g.Hooks ∧ (scanSecond ks g).1.rev = g.rev ∧
      (scanSecond ks g).1.Nodes = g.Nodes := by
  induction ks generalizing g with
  | nil => simp [scanSecond]
  | cons k ks ih =>
    simp only [scanSecond]
    cases hk : g.getNode k with
    | none => exact ih g
    | some node =>
      simp only
      obtain ⟨n1, hn1, he, _⟩ := buildSecond_flow g k node
      have hfl : mapVals eraseWiring (g.setNode k n1).Flow = mapVals eraseWiring g.Flow :=
        mapVals_mapReplace eraseWiring g.Flow k n1 node hk he
      rcases hb : buildSecond g k node with ⟨g1, e⟩
      rw [hb] at hn1
      simp only at hn1
      subst hn1
      cases e with
      | some e => exact ⟨hfl, rfl, rfl, rfl, rfl, rfl⟩
      | none =>
        obtain ⟨i1, i2, i3, i4, i5, i6⟩ := ih (g.setNode k n1)
        exact ⟨i1.trans hfl, i2, i3, i4, i5, i6⟩

/-- The condition established by the loop of line 468 at the node of key `k`. -/
theorem checked_step {g g1 : FlowGraph F} {k0 : String} {node0 : FlowNode F}
    (h0 : g.getNode k0 = some node0) (hb : buildSecond g k0 node0 = (g1, none)) (k : String)
    (hk : k = k0 ∨ ∀ n, g.getNode k = some n → Wired n ∧ Checked g.Flow n) :
    ∀ n, g1.getNode k = some n → Wired n ∧ Checked g1.Flow n := by
  obtain ⟨op, hg1, hop, har, hex⟩ := buildSecond_ok hb
  subst hg1
  have hkeys : ∀ key, (∃ m, mapGet g.Flow key = some m) →
      ∃ m, mapGet (g.setNode k0
        { node0 with ComputedInputs := node0.Inputs, Operation := op }).Flow key = some m := by
    intro key hm
    obtain ⟨m, hm⟩ := hm
    apply mapGet_isSome_of_mem
    show key ∈ mapKeys (mapReplace g.Flow k0 _)
    rw [mapKeys_mapReplace]
    exact mem_mapKeys_of_mapGet hm
  intro n hn
  have hn1 : mapGet (mapReplace g.Flow k0
      { node0 with ComputedInputs := node0.Inputs, Operation := op }) k = some n := hn
  by_cases hkk : k = k0
  · subst hkk
    rw [mapGet_mapReplace_self _ _ _ _ h0] at hn1
    cases hn1
    exact ⟨⟨rfl, hop⟩, fun key hkey => hkeys key (hex key hkey), op, hop, har⟩
  · rw [mapGet_mapReplace_ne _ _ _ _ hkk] at hn1
    rcases hk with hk | hk
    · exact absurd hk hkk
    · obtain ⟨hw, hc1, hc2⟩ := hk n hn1
      exact ⟨hw, fun key hkey => hkeys key (hc1 key hkey), hc2⟩

theorem scanSecond_ok {ks : List String} {g g1 : FlowGraph F}
    (h : scanSecond ks g = (g1, none)) (k : String)
    (hk : k ∈ ks ∨ ∀ n, g.getNode k = some n → Wired n ∧ Checked g.Flow n) :
    ∀ n, g1.getNode k = some n → Wired n ∧ Checked g1.Flow n := by
  induction ks generalizing g with
  | nil =>
    simp only [scanSecond, Prod.mk.injEq, and_true] at h
    subst h
    rcases hk with hk | hk
    · simp at hk
    · exact hk
  | cons k0 ks ih =>
    simp only [scanSecond] at h
    cases h0 : g.getNode k0 with
    | none =>
      rw [h0] at h
      apply ih h
      rcases hk with hk | hk
      · rcases List.mem_cons.1 hk with hk | hk
        · right
          intro n hn
          rw [hk, h0] at hn
          cases hn
        · exact Or.inl hk
      · exact Or.inr hk
    | some node0 =>
      rw [h0] at h
      simp only at h
      rcases hb : buildSecond g k0 node0 with ⟨g2, e⟩
      rw [hb] at h
      cases e with
      | some e => simp at h
      | none =>
        simp only at h
        apply ih h
        rcases hk with hk | hk
        · rcases List.mem_cons.1 hk with hk | hk
          · exact Or.inr (checked_step h0 hb k (Or.inl hk))
          · exact Or.inl hk
        · exact Or.inr (checked_step h0 hb k (Or.inr hk))

/-! ## Build as a whole -/

theorem Build_ok_split {E : Env F} {s : Sched} {fuel : Nat} {g g1 : FlowGraph F}
    (h : Build E s fuel g = some (.ok g1)) :
    ∃ ga gb, scanFirst E s.first { g with Inputs := some [], Hooks := [] } = (ga, none) ∧
      scanSecond s.second ga = (gb, none) ∧
      orderLoop s.pass fuel 0 { gb with Nodes := [] } = some (.ok g1) := by
  unfold Build at h
  rcases h1 : scanFirst E s.first { g with Inputs := some [], Hooks := [] } with ⟨ga, e1⟩
  rw [h1] at h
  cases e1 with
  | some e => cases e <;> simp at h
  | none =>
    simp only at h
    rcases h2 : scanSecond s.second ga with ⟨gb, e2⟩
    rw [h2] at h
    cases e2 with
    | some e => simp at h
    | none => exact ⟨ga, gb, rfl, h2, h⟩

/-- When the loop of line 424 ends without error and without panic, the flow has
no nil entry: the later loops of `Build` meet none. -/
theorem Build_later_nilKeys {E : Env F} {s : Sched} {g ga : FlowGraph F} (hv : s.Valid g)
    (h1 : scanFirst E s.first { g with Inputs := some [], Hooks := [] } = (ga, none)) :
    g.NilKeys = [] ∧ ga.NilKeys = [] := by
  have hg : g.NilKeys = [] := by
    rw [List.eq_nil_iff_forall_not_mem]
    intro k hk
    have hmem : k ∈ s.first := hv.1.mem_iff.2 (List.mem_append_right _ hk)
    exact scanFirst_no_nil E h1 k hmem hk
  refine ⟨hg, ?_⟩
  have := scanFirst_nilKeys E s.first { g with Inputs := some [], Hooks := [] }
  rw [h1] at this
  exact this.trans hg

theorem Build_ok_nilKeys {E : Env F} {s : Sched} {fuel : Nat} {g g1 : FlowGraph F}
    (hv : s.Valid g) (h : Build E s fuel g = some (.ok g1)) : g.NilKeys = [] := by
  obtain ⟨ga, gb, h1, _, _⟩ := Build_ok_split h
  exact (Build_later_nilKeys hv h1).1

theorem placed_start {g : FlowGraph F} (h : ∀ k n, g.getNode k = some n → n.rev = 0) :
    Placed { g with Nodes := [] } := by
  constructor
  · intro k n hk hr
    exact absurd (h k n hk) hr
  · intro k hk
    simp at hk
  · exact List.nodup_nil
  · intro i k n hi
    simp at hi

theorem rev_zero_after_scans {E : Env F} {s : Sched} {g ga gb : FlowGraph F} (hf : Fresh g)
    (h1 : scanFirst E s.first { g with Inputs := some [], Hooks := [] } = (ga, none))
    (h2 : scanSecond s.second ga = (gb, none)) :
    ∀ k n, gb.getNode k = some n → n.rev = 0 := by
  intro k n hk
  have f1 := (scanFirst_frame E s.first { g with Inputs := some [], Hooks := [] }).1
  rw [h1] at f1
  have f2 := mapVals_eraseBuilt_of_eraseWiring (scanSecond_frame s.second ga).1
  rw [h2] at f2
  obtain ⟨n0, hn0, he⟩ := getNode_of_mapVals (g := { g with Inputs := some [], Hooks := [] })
    (f2.trans f1) hk
  obtain ⟨_, _, _, hr, _⟩ := eraseBuilt_fields he
  rw [← hr]
  exact hf.rev_eq (g := g) hn0

theorem Build_placed {E : Env F} {s : Sched} {fuel : Nat} {g g1 : FlowGraph F} (hf : Fresh g)
    (h : Build E s fuel g = some (.ok g1)) :
    Placed g1 ∧ ¬ g1.Nodes.length < g1.Flow.length := by
  obtain ⟨ga, gb, h1, h2, h3⟩ := Build_ok_split h
  obtain ⟨hp, hl, _⟩ := orderLoop_ok (placed_start (rev_zero_after_scans hf h1 h2)) h3
  exact ⟨hp, hl⟩

/-- C1: in the graph left by a `Build` that returns no error on a freshly decoded
graph, every input of the node listed at index `i` of `Nodes` is a node of the
flow listed at an index smaller than `i`. -/
theorem Build_inputs_before (E : Env F) (s : Sched) (fuel : Nat) (g g1 : FlowGraph F)
    (hf : Fresh g) (h : Build E s fuel g = some (.ok g1)) :
    ∀ i k n, g1.Nodes.get? i = some k → g1.getNode k = some n →
      ∀ key, key ∈ n.Inputs →
        ∃ j m, j < i ∧ g1.Nodes.get? j = some key ∧ g1.getNode key = some m := by
  intro i k n hi hk key hkey
  obtain ⟨hp, _⟩ := Build_placed hf h
  obtain ⟨j, hj, hjk⟩ := hp.topo i k n hi hk key hkey
  obtain ⟨m, hm, _⟩ := hp.rev_of_mem key (List.get?_mem hjk)
  exact ⟨j, m, hj, hjk, hm⟩

theorem notGraph_fresh : Fresh notGraph := by
  unfold Fresh notGraph demoGraph
  decide

theorem notGraph_build :
    Build demoEnv (demoSched ["out", "n", "in"]) 3 notGraph = some (.ok notBuilt) := by
  decide

theorem Build_inputs_before_witness :
    Fresh notGraph ∧
    Build demoEnv (demoSched ["out", "n", "in"]) 3 notGraph = some (.ok notBuilt) ∧
    ∃ j m, j < 2 ∧ notBuilt.Nodes.get? j = some "n" ∧ notBuilt.getNode "n" = some m :=
  ⟨notGraph_fresh, notGraph_build,
    Build_inputs_before demoEnv (demoSched ["out", "n", "in"]) 3 notGraph notBuilt
      notGraph_fresh notGraph_build 2 "out"
      { demoNode "output" ["n"] "o1" "res" "bool" with
        rev := 1, ComputedInputs := ["n"], Operation := ⟨"output", some .output, 1, 1⟩ }
      (by decide) (by decide) "n" (by decide)⟩

/-! ## A cycle keeps the ordering loop running -/

theorem getNode_place {g : FlowGraph F} {k : String} {node : FlowNode F}
    (hk : g.getNode k = some node) (k1 : String) :
    mapGet (mapReplace g.Flow k { node with rev := 1 }) k1 =
      if k1 = k then some { node with rev := 1 } else g.getNode k1 := by
  rw [mapGet_mapReplace]
  have hk2 : mapGet g.Flow k = some node := hk
  by_cases hkk : k1 = k
  · simp [hkk, hk2]
  · simp [hkk, FlowGraph.getNode]

theorem Stuck.keep {cyc : List String} {g g1 : FlowGraph F} (hs : Stuck cyc g) {k : String}
    {node : FlowNode F} (hk : g.getNode k = some node)
    (hc : childInNodes g.Flow node.Inputs = some true)
    (hfl : g1.Flow = mapReplace g.Flow k { node with rev := 1 }) : Stuck cyc g1 := by
  have hknot : k ∉ cyc := by
    intro hmem
    obtain ⟨key, hkey, hkc⟩ := hs.cyclic.2 k hmem node hk
    obtain ⟨m, hm, hm0⟩ := childInNodes_true hc key hkey
    exact hm0 (hs.rev_zero key hkc m hm)
  have hget : ∀ k1 n1,
      g1.getNode k1 = some n1 →
      ∃ n0, g.getNode k1 = some n0 ∧ n1.Inputs = n0.Inputs ∧ (k1 ≠ k → n1 = n0) := by
    intro k1 n1 h1
    have h2 : mapGet g1.Flow k1 = some n1 := h1
    rw [hfl] at h2
    rw [getNode_place hk] at h2
    by_cases hkk : k1 = k
    · simp only [hkk, if_true, Option.some.injEq] at h2
      subst h2
      exact ⟨node, hkk ▸ hk, rfl, fun h => absurd hkk h⟩
    · simp only [hkk, if_false] at h2
      exact ⟨n1, h2, rfl, fun _ => rfl⟩
  have hex : ∀ k1 n0, g.getNode k1 = some n0 →
      ∃ n1, g1.getNode k1 = some n1 := by
    intro k1 n0 h0
    show ∃ n1, mapGet g1.Flow k1 = some n1
    rw [hfl, getNode_place hk]
    by_cases hkk : k1 = k
    · exact ⟨{ node with rev := 1 }, by simp [hkk]⟩
    · exact ⟨n0, by simp [hkk, h0]⟩
  constructor
  · constructor
    · obtain ⟨k1, n0, hk1, hn0⟩ := hs.cyclic.1
      obtain ⟨n1, hn1⟩ := hex k1 n0 hn0
      exact ⟨k1, n1, hk1, hn1⟩
    · intro k1 hk1 n1 hn1
      obtain ⟨n0, hn0, hin, _⟩ := hget k1 n1 hn1
      rw [hin]
      exact hs.cyclic.2 k1 hk1 n0 hn0
  · intro k1 n1 hn1 key hkey
    obtain ⟨n0, hn0, hin, _⟩ := hget k1 n1 hn1
    rw [hin] at hkey
    obtain ⟨m, hm⟩ := hs.inputs k1 n0 hn0 key hkey
    exact hex key m hm
  · intro k1 hk1 n1 hn1
    obtain ⟨n0, hn0, _, heq⟩ := hget k1 n1 hn1
    have hne : k1 ≠ k := fun h => hknot (h ▸ hk1)
    rw [heq hne]
    exact hs.rev_zero k1 hk1 n0 hn0

theorem childInNodes_ne_none {fl : List (String × FlowNode F)} {ins : List String}
    (h : ∀ key, key ∈ ins → ∃ m, mapGet fl key = some m) : childInNodes fl ins ≠ none := by
  induction ins with
  | nil => simp [childInNodes]
  | cons a rest ih =>
    obtain ⟨m, hm⟩ := h a (List.mem_cons_self _ _)
    simp only [childInNodes, hm]
    by_cases hr : m.rev = 0
    · simp [hr]
    · simp only [hr, if_false]
      exact ih (fun key hk => h key (List.mem_cons_of_mem _ hk))

theorem orderScan_stuck {cyc : List String} (ks : List String) {g : FlowGraph F}
    (hs : Stuck cyc g) : ∃ g1, orderScan ks g = some g1 ∧ Stuck cyc g1 := by
  induction ks generalizing g with
  | nil => exact ⟨g, rfl, hs⟩
  | cons k ks ih =>
    simp only [orderScan]
    cases hk : g.getNode k with
    | none => exact ih hs
    | some node =>
      simp only
      by_cases hr : node.rev = 0
      · simp only [hr, ne_eq, not_true_eq_false, if_false]
        cases hc : childInNodes g.Flow node.Inputs with
        | none => exact absurd hc (childInNodes_ne_none (hs.inputs k node hk))
        | some b =>
          cases b with
          | false => exact ih hs
          | true => exact ih (hs.keep hk hc rfl)
      · simp only [ne_eq, hr, not_false_eq_true, if_true]
        exact ih hs

theorem Stuck.length_lt {cyc : List String} {g : FlowGraph F} (hs : Stuck cyc g)
    (hp : Placed g) : g.Nodes.length < g.Flow.length := by
  obtain ⟨c, n, hc, hn⟩ := hs.cyclic.1
  have hcn : c ∉ g.Nodes := by
    intro hmem
    obtain ⟨m, hm, hm0⟩ := hp.rev_of_mem c hmem
    rw [hn] at hm
    cases hm
    exact hm0 (hs.rev_zero c hc n hn)
  have hnd : (c :: g.Nodes).Nodup := List.nodup_cons.2 ⟨hcn, hp.nodup⟩
  have hsub : (c :: g.Nodes) ⊆ mapKeys g.Flow := by
    intro x hx
    rcases List.mem_cons.1 hx with hx | hx
    · rw [hx]; exact mem_mapKeys_of_mapGet hn
    · obtain ⟨m, hm, _⟩ := hp.rev_of_mem x hx
      exact mem_mapKeys_of_mapGet hm
  have hle := (List.subperm_of_subset hnd hsub).length_le
  simp only [List.length_cons, mapKeys, List.length_map] at hle
  omega

theorem orderLoop_stuck {cyc : List String} (pass : Nat → List String) (fuel i : Nat)
    {g : FlowGraph F} (hs : Stuck cyc g) (hp : Placed g) : orderLoop pass fuel i g = none := by
  induction fuel generalizing i g with
  | zero => simp [orderLoop, hs.length_lt hp]
  | succ fuel ih =>
    obtain ⟨g1, hg1, hs1⟩ := orderScan_stuck (pass i) hs
    simp only [orderLoop, hs.length_lt hp, if_true, hg1]
    exact ih (i + 1) hs1 (orderScan_placed hp hg1)

/-- On a graph with a dependency cycle that passes the two validation loops, the
ordering loop never ends. -/
theorem Build_cycle_none (E : Env F) (s : Sched) (g : FlowGraph F) (cyc : List String)
    (hf : Fresh g) (hv : s.Valid g) (hc : Cyclic cyc g)
    (hv1 : (scanFirst E s.first { g with Inputs := some [], Hooks := [] }).2 = none)
    (hv2 : (scanSecond s.second
      (scanFirst E s.first { g with Inputs := some [], Hooks := [] }).1).2 = none)
    (fuel : Nat) : Build E s fuel g = none := by
  unfold Build
  rcases h1 : scanFirst E s.first { g with Inputs := some [], Hooks := [] } with ⟨ga, e1⟩
  rw [h1] at hv1 hv2
  simp only at hv1 hv2
  subst hv1
  simp only
  rcases h2 : scanSecond s.second ga with ⟨gb, e2⟩
  rw [h2] at hv2
  simp only at hv2
  subst hv2
  simp only
  have hmain : orderLoop s.pass fuel 0 { gb with Nodes := [] } = none := by
      have f1 := (scanFirst_frame E s.first { g with Inputs := some [], Hooks := [] }).1
      rw [h1] at f1
      have f2 := mapVals_eraseBuilt_of_eraseWiring (scanSecond_frame s.second ga).1
      rw [h2] at f2
      have f : mapVals eraseBuilt gb.Flow = mapVals eraseBuilt g.Flow := f2.trans f1
      have hrev := rev_zero_after_scans hf h1 h2
      have hto : ∀ k n, gb.getNode k = some n → ∃ n0, g.getNode k = some n0 ∧
          n0.Inputs = n.Inputs := by
        intro k n hk
        obtain ⟨n0, hn0, he⟩ := getNode_of_mapVals (g := g) f hk
        exact ⟨n0, hn0, (eraseBuilt_fields he).2.2.1⟩
      have hfrom : ∀ k n0, g.getNode k = some n0 → ∃ n, gb.getNode k = some n := by
        intro k n0 hk
        obtain ⟨n, hn, _⟩ := getNode_of_mapVals (g := gb) (q := g) f.symm hk
        exact ⟨n, hn⟩
      have hst : Stuck cyc { gb with Nodes := [] } := by
        constructor
        · constructor
          · obtain ⟨k, n0, hk, hn0⟩ := hc.1
            obtain ⟨n, hn⟩ := hfrom k n0 hn0
            exact ⟨k, n, hk, hn⟩
          · intro k hk n hn
            obtain ⟨n0, hn0, hin⟩ := hto k n hn
            rw [← hin]
            exact hc.2 k hk n0 hn0
        · intro k n hn key hkey
          have hmem : k ∈ s.second := by
            have : k ∈ mapKeys gb.Flow := mem_mapKeys_of_mapGet hn
            rw [mapKeys_eq_of_mapVals eraseBuilt f] at this
            exact hv.2.1.mem_iff.2 (mem_keys_of_mapKeys this)
          exact (scanSecond_ok h2 k (Or.inl hmem) n hn).2.1 key hkey
        · intro k _ n hn
          exact hrev k n hn
      exact orderLoop_stuck s.pass fuel 0 hst (placed_start hrev)
  exact hmain

theorem selfGraph_cyclic : Cyclic ["a"] selfGraph :=
  ⟨⟨"a", demoNode "not" ["a"] "" "" "", by decide, by decide⟩, by
    intro k hk n hn
    simp only [List.mem_singleton] at hk
    subst hk
    have h : selfGraph.getNode "a" = some (demoNode "not" ["a"] "" "" "") := by decide
    rw [h] at hn
    cases hn
    exact ⟨"a", by decide, by decide⟩⟩

theorem selfGraph_valid : (demoSched ["a"]).Valid selfGraph :=
  ⟨List.Perm.refl _, List.Perm.refl _, fun _ => List.Perm.refl _⟩

/-- C2 at the graph `a = not a`, which passes every validation of `Build` and lists
itself as its input: whatever number of scans the ordering loop is allowed, `Build`
has not returned, neither an error nor anything else. -/
theorem Build_selfGraph_diverges :
    ∀ fuel, Build demoEnv (demoSched ["a"]) fuel selfGraph = none :=
  Build_cycle_none demoEnv (demoSched ["a"]) selfGraph ["a"]
    (by unfold Fresh selfGraph demoGraph; decide) selfGraph_valid selfGraph_cyclic
    (by decide) (by decide)

/-! ## Errors of Build -/

theorem mem_first_of_getNode {s : Sched} {g : FlowGraph F} (hv : s.Valid g) {k : String}
    {n : FlowNode F} (hk : g.getNode k = some n) : k ∈ s.first :=
  hv.1.mem_iff.2 (mem_keys_of_getNode hk)

theorem mem_second_of_getNode {s : Sched} {g : FlowGraph F} (hv : s.Valid g) {k : String}
    {n : FlowNode F} (hk : g.getNode k = some n) : k ∈ s.second :=
  hv.2.1.mem_iff.2 (mem_keys_of_getNode hk)

/-- A `Build` whose first loop meets a node without id returns the error of that
loop. -/
theorem Build_missingID (E : Env F) (s : Sched) (fuel : Nat) (g : FlowGraph F)
    (hnil : g.NilKeys = []) (hv : s.Valid g) {k : String} {n : FlowNode F}
    (hk : g.getNode k = some n) (hm : missingID n) :
    ∃ e g1, scanFirst E s.first { g with Inputs := some [], Hooks := [] }
        = (g1, some (.error e)) ∧
      Build E s fuel g = some (.error e g1) := by
  unfold Build
  rcases h1 : scanFirst E s.first { g with Inputs := some [], Hooks := [] } with ⟨ga, e1⟩
  cases e1 with
  | some e =>
    cases e with
    | error e => exact ⟨e, ga, rfl, rfl⟩
    | panic =>
      obtain ⟨k0, _, hk0⟩ := scanFirst_panic E h1
      simp only [hnil, List.not_mem_nil] at hk0
  | none =>
    exact absurd hm (scanFirst_ok E h1 k (mem_first_of_getNode hv hk) n hk)

/-- What the code keeps of C7: a graph whose flow has no nil entry and that has an
input or output node without id makes `Build` return an error, and when no node of
the graph has the operator `send`, the error is `missing id in node '<key>'` for the
key of a node without id that passes the test of line 425. -/
theorem Build_missing_id (E : Env F) (s : Sched) (fuel : Nat) (g : FlowGraph F)
    (hnil : g.NilKeys = []) (hv : s.Valid g) (k : String) (n : FlowNode F)
    (hk : g.getNode k = some n)
    (hop : n.Operator = "input" ∨ n.Operator = "output") (hid : n.ID = "") :
    (∃ e g1, Build E s fuel g = some (.error e g1)) ∧
    ((∀ k1 n1, g.getNode k1 = some n1 → n1.Operator ≠ "send") →
      ∀ e g1, Build E s fuel g = some (.error e g1) →
        ∃ k1 n1, g.getNode k1 = some n1 ∧
          (n1.Operator = "input" ∨ n1.Operator = "output" ∨ n1.Operator = "webhook") ∧
          n1.ID = "" ∧ e = "missing id in node '" ++ k1 ++ "'") := by
  have hm : missingID n := ⟨by rcases hop with h | h <;> simp [h], hid⟩
  obtain ⟨e0, g0, h1, hb⟩ := Build_missingID E s fuel g hnil hv hk hm
  refine ⟨⟨e0, g0, hb⟩, ?_⟩
  intro hsend e g1 he
  rw [hb] at he
  simp only [Option.some.injEq, Result.error.injEq] at he
  obtain ⟨he1, _⟩ := he
  subst he1
  obtain ⟨k1, n1, _, hn1, hc⟩ := scanFirst_error E h1
  have hn1g : g.getNode k1 = some n1 := hn1
  rcases hc with ⟨hm1, hmsg⟩ | hs
  · exact ⟨k1, n1, hn1g, hm1.1, hm1.2, hmsg⟩
  · exact absurd hs (hsend k1 n1 hn1g)

theorem hookGraph_valid : (demoSched ["w", "out"]).Valid hookGraph :=
  ⟨List.Perm.refl _, List.Perm.refl _, fun _ => List.Perm.refl _⟩

theorem Build_missing_id_witness :
    hookGraph.NilKeys = [] ∧ (demoSched ["w", "out"]).Valid hookGraph ∧
    hookGraph.getNode "out" = some (demoNode "output" ["w"] "" "r" "bool") ∧
    (∃ e g1, Build demoEnv (demoSched ["w", "out"]) 0 hookGraph = some (.error e g1)) ∧
    ((∀ k1 n1, hookGraph.getNode k1 = some n1 → n1.Operator ≠ "send") →
      ∀ e g1, Build demoEnv (demoSched ["w", "out"]) 0 hookGraph = some (.error e g1) →
        ∃ k1 n1, hookGraph.getNode k1 = some n1 ∧
          (n1.Operator = "input" ∨ n1.Operator = "output" ∨ n1.Operator = "webhook") ∧
          n1.ID = "" ∧ e = "missing id in node '" ++ k1 ++ "'") :=
  ⟨rfl, hookGraph_valid, by decide,
    Build_missing_id demoEnv (demoSched ["w", "out"]) 0 hookGraph rfl hookGraph_valid "out"
      (demoNode "output" ["w"] "" "r" "bool") (by decide) (Or.inr (by decide)) (by decide)⟩

theorem hookGraph_keys (k : String) (n : FlowNode Int) (h : hookGraph.getNode k = some n) :
    (k = "w" ∧ n = demoNode "webhook" [] "" "" "") ∨
      (k = "out" ∧ n = demoNode "output" ["w"] "" "r" "bool") := by
  unfold FlowGraph.getNode hookGraph demoGraph at h
  simp only [mapGet] at h
  by_cases h1 : "w" = k
  · simp only [h1, if_true, Option.some.injEq] at h
    exact Or.inl ⟨h1.symm, h.symm⟩
  · simp only [h1, if_false] at h
    by_cases h2 : "out" = k
    · simp only [h2, if_true, Option.some.injEq] at h
      exact Or.inr ⟨h2.symm, h.symm⟩
    · simp [h2] at h

theorem eraseRev_fields {n m : FlowNode F} (h : eraseRev n = eraseRev m) :
    n.Operator = m.Operator ∧ n.Inputs = m.Inputs ∧ n.ComputedInputs = m.ComputedInputs ∧
      n.Operation = m.Operation ∧ n.ComputedValue = m.ComputedValue ∧ n.ID = m.ID ∧
      n.Name = m.Name ∧ n.Typ = m.Typ := by
  have h1 : (eraseRev n).Operator = (eraseRev m).Operator := by rw [h]
  have h2 : (eraseRev n).Inputs = (eraseRev m).Inputs := by rw [h]
  have h3 : (eraseRev n).ComputedInputs = (eraseRev m).ComputedInputs := by rw [h]
  have h4 : (eraseRev n).Operation = (eraseRev m).Operation := by rw [h]
  have h5 : (eraseRev n).ComputedValue = (eraseRev m).ComputedValue := by rw [h]
  have h6 : (eraseRev n).ID = (eraseRev m).ID := by rw [h]
  have h7 : (eraseRev n).Name = (eraseRev m).Name := by rw [h]
  have h8 : (eraseRev n).Typ = (eraseRev m).Typ := by rw [h]
  exact ⟨h1, h2, h3, h4, h5, h6, h7, h8⟩

/-- The graph left by the two validation loops has the nodes of the graph given,
with the same operator and inputs. -/
theorem scans_getNode {E : Env F} {s : Sched} {g ga gb : FlowGraph F}
    (h1 : scanFirst E s.first { g with Inputs := some [], Hooks := [] } = (ga, e1))
    (h2 : scanSecond s.second ga = (gb, e2)) {k : String} {n : FlowNode F}
    (hk : g.getNode k = some n) :
    ∃ nb, gb.getNode k = some nb ∧ nb.Operator = n.Operator ∧ nb.Inputs = n.Inputs := by
  have f1 := (scanFirst_frame E s.first { g with Inputs := some [], Hooks := [] }).1
  rw [h1] at f1
  have f2 := mapVals_eraseBuilt_of_eraseWiring (scanSecond_frame s.second ga).1
  rw [h2] at f2
  have f : mapVals eraseBuilt gb.Flow = mapVals eraseBuilt g.Flow := f2.trans f1
  obtain ⟨nb, hnb, he⟩ := getNode_of_mapVals (g := gb) (q := g) f.symm hk
  obtain ⟨_, ho, hi, _⟩ := eraseBuilt_fields he
  exact ⟨nb, hnb, ho, hi⟩

/-- On a flow without nil entry, a `Build` returns an error when a node fails the
checks of the second loop. -/
theorem Build_unchecked (E : Env F) (s : Sched) (fuel : Nat) (g : FlowGraph F)
    (hnil : g.NilKeys = []) (hv : s.Valid g) {k : String} {n : FlowNode F}
    (hk : g.getNode k = some n)
    (hbad : ∀ fl : List (String × FlowNode F), mapKeys fl = mapKeys g.Flow → ¬ Checked fl n) :
    ∃ e g1, Build E s fuel g = some (.error e g1) := by
  unfold Build
  rcases h1 : scanFirst E s.first { g with Inputs := some [], Hooks := [] } with ⟨ga, e1⟩
  cases e1 with
  | some e =>
    cases e with
    | error e => exact ⟨e, ga, rfl⟩
    | panic =>
      obtain ⟨k0, _, hk0⟩ := scanFirst_panic E h1
      simp only [hnil, List.not_mem_nil] at hk0
  | none =>
    simp only
    rcases h2 : scanSecond s.second ga with ⟨gb, e2⟩
    cases e2 with
    | some e => exact ⟨e, gb, rfl⟩
    | none =>
      exfalso
      obtain ⟨nb, hnb, ho, hi⟩ := scans_getNode h1 h2 hk
      have hkeys : mapKeys gb.Flow = mapKeys g.Flow := by
        have f1 := (scanFirst_frame E s.first { g with Inputs := some [], Hooks := [] }).1
        rw [h1] at f1
        have f2 := mapVals_eraseBuilt_of_eraseWiring (scanSecond_frame s.second ga).1
        rw [h2] at f2
        exact mapKeys_eq_of_mapVals eraseBuilt (f2.trans f1)
      obtain ⟨_, hc1, op, hop, har⟩ :=
        scanSecond_ok h2 k (Or.inl (mem_second_of_getNode hv hk)) nb hnb
      apply hbad gb.Flow hkeys
      refine ⟨?_, op, ?_, ?_⟩
      · rw [← hi]; exact hc1
      · rw [← ho]; exact hop
      · rw [← hi]; exact har

/-- After a `Build` that returns no error every node is wired and checked. -/
theorem Build_wired {E : Env F} {s : Sched} {fuel : Nat} {g g1 : FlowGraph F}
    (hv : s.Valid g) (h : Build E s fuel g = some (.ok g1)) {k : String} {n : FlowNode F}
    (hk : g1.getNode k = some n) : Wired n ∧ Checked g1.Flow n := by
  obtain ⟨ga, gb, h1, h2, h3⟩ := Build_ok_split h
  have f1 := (scanFirst_frame E s.first { g with Inputs := some [], Hooks := [] }).1
  rw [h1] at f1
  have f2 := mapVals_eraseBuilt_of_eraseWiring (scanSecond_frame s.second ga).1
  rw [h2] at f2
  have hkeys : mapKeys gb.Flow = mapKeys g.Flow := mapKeys_eq_of_mapVals eraseBuilt (f2.trans f1)
  have hloop : ∀ (fuel i : Nat) (x : FlowGraph F),
      orderLoop s.pass fuel i x = some (.ok g1) →
      mapVals eraseRev g1.Flow = mapVals eraseRev x.Flow := by
    intro fuel
    induction fuel with
    | zero =>
      intro i x hx
      simp only [orderLoop] at hx
      split_ifs at hx
      simp only [Option.some.injEq, Result.ok.injEq] at hx
      rw [hx]
    | succ fuel ih =>
      intro i x hx
      simp only [orderLoop] at hx
      split_ifs at hx
      · cases hs : orderScan (s.pass i) x with
        | none => rw [hs] at hx; simp at hx
        | some x1 =>
          rw [hs] at hx
          exact (ih (i + 1) x1 hx).trans (orderScan_frame hs).1
      · simp only [Option.some.injEq, Result.ok.injEq] at hx
        rw [hx]
  have f3 : mapVals eraseRev g1.Flow = mapVals eraseRev gb.Flow :=
    hloop fuel 0 { gb with Nodes := [] } h3
  obtain ⟨nb, hnb, he⟩ := getNode_of_mapVals (g := gb) f3 hk
  obtain ⟨ho, hi, hci, hopn, _⟩ := eraseRev_fields he
  have hkb : k ∈ s.second := by
    have : k ∈ mapKeys gb.Flow := mem_mapKeys_of_mapGet hnb
    rw [hkeys] at this
    exact hv.2.1.mem_iff.2 (mem_keys_of_mapKeys this)
  obtain ⟨⟨w1, w2⟩, hc1, op, hop, har⟩ := scanSecond_ok h2 k (Or.inl hkb) nb hnb
  refine ⟨⟨?_, ?_⟩, ?_, op, ?_, ?_⟩
  · rw [← hci, ← hi]; exact w1
  · rw [← ho, ← hopn]; exact w2
  · intro key hkey
    rw [← hi] at hkey
    obtain ⟨m, hm⟩ := hc1 key hkey
    apply mapGet_isSome_of_mem
    rw [mapKeys_eq_of_mapVals eraseRev f3]
    exact mem_mapKeys_of_mapGet hm
  · rw [← ho]; exact hop
  · rw [← hi]; exact har

theorem deref_of_inputs {g : FlowGraph F} {ks : List String}
    (h : ∀ key, key ∈ ks → ∃ m, g.getNode key = some m) :
    ∃ vals, deref g ks = some vals ∧ vals.length = ks.length ∧
      ∀ i key m, ks.get? i = some key → g.getNode key = some m →
        vals.get? i = some m.ComputedValue := by
  induction ks with
  | nil => exact ⟨[], rfl, rfl, by intro i key m hi; simp at hi⟩
  | cons a rest ih =>
    obtain ⟨ma, hma⟩ := h a (List.mem_cons_self _ _)
    obtain ⟨vs, hvs, hlen, hget⟩ := ih (fun key hk => h key (List.mem_cons_of_mem _ hk))
    refine ⟨ma.ComputedValue :: vs, by simp [deref, hma, hvs], by simp [hlen], ?_⟩
    intro i key m hi hm
    cases i with
    | zero =>
      simp only [List.get?_cons_zero, Option.some.injEq] at hi
      subst hi
      rw [hma] at hm
      cases hm
      rfl
    | succ i =>
      simp only [List.get?_cons_succ] at hi ⊢
      exact hget i key m hi hm

/-- What the code keeps of C8: on a flow without nil entry, `Build` returns an error
when the operator of a node is not in the registry, or the number of its inputs is
below `MinLenInput`, or `MaxLenInput` is not negative and the number of inputs is
above it; and after a `Build` that returns no error the operator of every node is
registered, `Operation` is its entry, and the number of inputs is in that range. -/
theorem Build_operator_arity (E : Env F) (s : Sched) (fuel : Nat) (g : FlowGraph F)
    (hv : s.Valid g) :
    (g.NilKeys = [] → ∀ k n, g.getNode k = some n →
      (Operations n.Operator = none ∨
        ∃ op, Operations n.Operator = some op ∧
          ((n.Inputs.length : Int) < op.MinLenInput ∨
            (0 ≤ op.MaxLenInput ∧ op.MaxLenInput < (n.Inputs.length : Int)))) →
      ∃ e g1, Build E s fuel g = some (.error e g1)) ∧
    (∀ g1, Build E s fuel g = some (.ok g1) → ∀ k n, g1.getNode k = some n →
      ∃ op, Operations n.Operator = some op ∧ n.Operation = op ∧
        op.MinLenInput ≤ (n.Inputs.length : Int) ∧
        (op.MaxLenInput < 0 ∨ (n.Inputs.length : Int) ≤ op.MaxLenInput)) := by
  constructor
  · intro hnil k n hk hbad
    apply Build_unchecked E s fuel g hnil hv hk
    rintro fl _ ⟨_, op, hop, har⟩
    unfold arityOK at har
    rcases hbad with hnone | ⟨op1, hop1, hb⟩
    · rw [hnone] at hop; cases hop
    · rw [hop1] at hop
      cases hop
      apply har
      rcases hb with hb | ⟨hb1, hb2⟩
      · exact Or.inl hb
      · exact Or.inr ⟨hb1, hb2⟩
  · intro g1 h k n hk
    obtain ⟨⟨_, hw⟩, _, op, hop, har⟩ := Build_wired hv h hk
    unfold arityOK at har
    rw [hop] at hw
    simp only [Option.some.injEq] at hw
    refine ⟨op, hop, hw.symm, ?_, ?_⟩
    · by_contra hc
      exact har (Or.inl (lt_of_not_le hc))
    · by_cases hneg : op.MaxLenInput < 0
      · exact Or.inl hneg
      · right
        by_contra hc
        exact har (Or.inr ⟨le_of_not_lt hneg, lt_of_not_le hc⟩)

theorem unwiredGraph_valid : (demoSched ["in", "out"]).Valid unwiredGraph :=
  ⟨List.Perm.refl _, List.Perm.refl _, fun _ => List.Perm.refl _⟩

theorem Build_operator_arity_witness :
    (demoSched ["in", "out"]).Valid unwiredGraph ∧ unwiredGraph.NilKeys = [] ∧
    ∃ e g1, Build demoEnv (demoSched ["in", "out"]) 0 unwiredGraph = some (.error e g1) :=
  ⟨unwiredGraph_valid, rfl,
    (Build_operator_arity demoEnv (demoSched ["in", "out"]) 0 unwiredGraph
      unwiredGraph_valid).1 rfl "out" (demoNode "output" [] "002" "" "string") (by decide)
      (Or.inr ⟨⟨"output", some .output, 1, 1⟩, by decide, Or.inl (by decide)⟩)⟩

/-- What the code keeps of C9: on a flow without nil entry, `Build` returns an error
when a node lists an input that is not a key of the flow; and after a `Build` that
returns no error every input of every node is a key of the flow, and
`ComputedInputs` has one pointer for each input, the `i`-th of which reads the
`ComputedValue` of the node named by the `i`-th input. -/
theorem Build_inputs_resolved (E : Env F) (s : Sched) (fuel : Nat) (g : FlowGraph F)
    (hv : s.Valid g) :
    (g.NilKeys = [] → ∀ k n key, g.getNode k = some n → key ∈ n.Inputs →
      g.getNode key = none →
      ∃ e g1, Build E s fuel g = some (.error e g1)) ∧
    (∀ g1, Build E s fuel g = some (.ok g1) → ∀ k n, g1.getNode k = some n →
      (∀ key, key ∈ n.Inputs → ∃ m, g1.getNode key = some m) ∧
      n.ComputedInputs.length = n.Inputs.length ∧
      (∀ i, n.ComputedInputs.get? i = n.Inputs.get? i) ∧
      ∃ vals, deref g1 n.ComputedInputs = some vals ∧ vals.length = n.Inputs.length ∧
        ∀ i key m, n.Inputs.get? i = some key → g1.getNode key = some m →
          vals.get? i = some m.ComputedValue) := by
  constructor
  · intro hnil k n key hk hkey hnone
    apply Build_unchecked E s fuel g hnil hv hk
    rintro fl hfl ⟨hin, _⟩
    obtain ⟨m, hm⟩ := hin key hkey
    have hmem : key ∈ mapKeys g.Flow := hfl ▸ mem_mapKeys_of_mapGet hm
    obtain ⟨m0, hm0⟩ := mapGet_isSome_of_mem hmem
    have : g.getNode key = some m0 := hm0
    rw [hnone] at this
    cases this
  · intro g1 h k n hk
    obtain ⟨⟨hw, _⟩, hin, _⟩ := Build_wired hv h hk
    have hin1 : ∀ key, key ∈ n.Inputs → ∃ m, g1.getNode key = some m := hin
    refine ⟨hin1, by rw [hw], fun i => by rw [hw], ?_⟩
    rw [hw]
    exact deref_of_inputs hin1

theorem danglingGraph_valid : (demoSched ["out"]).Valid danglingGraph :=
  ⟨List.Perm.refl _, List.Perm.refl _, fun _ => List.Perm.refl _⟩

theorem Build_inputs_resolved_witness :
    (demoSched ["out"]).Valid danglingGraph ∧ danglingGraph.NilKeys = [] ∧
    ∃ e g1, Build demoEnv (demoSched ["out"]) 0 danglingGraph = some (.error e g1) :=
  ⟨danglingGraph_valid, rfl,
    (Build_inputs_resolved demoEnv (demoSched ["out"]) 0 danglingGraph danglingGraph_valid).1
      rfl "out" (demoNode "output" ["gone"] "002" "" "string") "gone"
      (by decide) (by decide) (by decide)⟩

/-! ## Compute -/

theorem Fn_frame (E : Env F) {code : OpCode} {node n1 : FlowNode F} {vals : List (Value F)}
    (h : Fn E code node vals = some n1) : eraseValue n1 = eraseValue node := by
  unfold Fn at h
  cases code <;> simp only at h
  case const => cases h; rfl
  case input => cases h; rfl
  case send => cases h; rfl
  case output =>
    split at h
    · split at h
      · cases h
      · cases h; rfl
      · cases h; rfl
    · cases h
  case and =>
    cases hl : andLoop vals with
    | none => rw [hl] at h; cases h
    | some b => rw [hl] at h; cases h; rfl
  case or =>
    cases hl : orLoop vals with
    | none => rw [hl] at h; cases h
    | some b => rw [hl] at h; cases h; rfl
  case add =>
    cases hl : addLoop E E.zero vals with
    | none => rw [hl] at h; cases h
    | some b => rw [hl] at h; cases h; rfl
  case min =>
    cases hl : minLoop E E.maxFloat vals with
    | none => rw [hl] at h; cases h
    | some b => rw [hl] at h; cases h; rfl
  case max =>
    cases hl : maxLoop E E.negMaxFloat vals with
    | none => rw [hl] at h; cases h
    | some b => rw [hl] at h; cases h; rfl
  case not =>
    split at h
    · rename_i v rest
      cases hb : asBool v with
      | none => rw [hb] at h; cases h
      | some b => rw [hb] at h; cases h; rfl
    · cases h
  case select =>
    split at h
    · split at h
      · cases h
      · rename_i x hx
        cases hl : selectLoop E x node.Values 0 node.Condition with
        | none => rw [hl] at h; cases h
        | some b => rw [hl] at h; cases h; rfl
    · cases h
  case contains_exactly =>
    split at h
    · split at h
      · cases h; rfl
      · cases h
    · cases h
  case match_str =>
    split at h
    · split at h
      · cases h
      · rename_i rest _ _
        cases hg : rest.get? 0 with
        | none => rw [hg] at h; cases h
        | some b => rw [hg] at h; cases h; rfl
      · rename_i rest _ _
        cases hg : rest.get? 1 with
        | none => rw [hg] at h; cases h
        | some b => rw [hg] at h; cases h; rfl
    · cases h
  all_goals
    split at h
    · split at h
      · cases h; rfl
      · cases h
    · cases h

theorem computeNode_spec {E : Env F} {g g1 : FlowGraph F} {k : String}
    (h : computeNode E g k = some g1) :
    ∃ node code vals n1, g.getNode k = some node ∧ node.Operation.Fn = some code ∧
      deref g node.ComputedInputs = some vals ∧ Fn E code node vals = some n1 ∧
      g1 = g.setNode k n1 := by
  unfold computeNode at h
  cases hk : g.getNode k with
  | none => rw [hk] at h; cases h
  | some node =>
    rw [hk] at h
    simp only at h
    cases hc : node.Operation.Fn with
    | none => rw [hc] at h; cases h
    | some code =>
      cases hd : deref g node.ComputedInputs with
      | none => rw [hc, hd] at h; cases h
      | some vals =>
        rw [hc, hd] at h
        simp only at h
        cases hf : Fn E code node vals with
        | none => rw [hf] at h; cases h
        | some n1 =>
          rw [hf] at h
          simp only [Option.map_some', Option.some.injEq] at h
          exact ⟨node, code, vals, n1, rfl, hc, hd, hf, h.symm⟩

theorem computeNode_getNode_ne {E : Env F} {g g1 : FlowGraph F} {k k1 : String}
    (h : computeNode E g k = some g1) (hne : k1 ≠ k) : g1.getNode k1 = g.getNode k1 := by
  obtain ⟨node, code, vals, n1, _, _, _, _, hg⟩ := computeNode_spec h
  subst hg
  exact mapGet_mapReplace_ne _ _ _ _ hne

theorem computeNode_frame {E : Env F} {g g1 : FlowGraph F} {k : String}
    (h : computeNode E g k = some g1) :
    mapVals eraseValue g1.Flow = mapVals eraseValue g.Flow ∧ g1.Nodes = g.Nodes ∧
      g1.Inputs = g.Inputs ∧ g1.Outputs = g.Outputs ∧ g1.Hooks = g.Hooks ∧ g1.rev = g.rev := by
  obtain ⟨node, code, vals, n1, hk, _, _, hf, hg⟩ := computeNode_spec h
  subst hg
  exact ⟨mapVals_mapReplace eraseValue g.Flow k n1 node hk (Fn_frame E hf),
    rfl, rfl, rfl, rfl, rfl⟩

theorem computeList_frame {E : Env F} {ks : List String} {g g1 : FlowGraph F}
    (h : computeList E ks g = some g1) :
    mapVals eraseValue g1.Flow = mapVals eraseValue g.Flow ∧ g1.Nodes = g.Nodes ∧
      g1.Inputs = g.Inputs ∧ g1.Outputs = g.Outputs ∧ g1.Hooks = g.Hooks ∧ g1.rev = g.rev := by
  induction ks generalizing g with
  | nil =>
    simp only [computeList, Option.some.injEq] at h
    subst h
    exact ⟨rfl, rfl, rfl, rfl, rfl, rfl⟩
  | cons k ks ih =>
    simp only [computeList] at h
    cases hc : computeNode E g k with
    | none => rw [hc] at h; cases h
    | some g2 =>
      rw [hc] at h
      obtain ⟨a1, a2, a3, a4, a5, a6⟩ := ih h
      obtain ⟨b1, b2, b3, b4, b5, b6⟩ := computeNode_frame hc
      exact ⟨a1.trans b1, a2.trans b2, a3.trans b3, a4.trans b4, a5.trans b5, a6.trans b6⟩

theorem computeList_getNode_not_mem {E : Env F} {ks : List String} {g g1 : FlowGraph F}
    (h : computeList E ks g = some g1) {k1 : String} (hk : k1 ∉ ks) :
    g1.getNode k1 = g.getNode k1 := by
  induction ks generalizing g with
  | nil =>
    simp only [computeList, Option.some.injEq] at h
    subst h
    rfl
  | cons k ks ih =>
    simp only [computeList] at h
    cases hc : computeNode E g k with
    | none => rw [hc] at h; cases h
    | some g2 =>
      rw [hc] at h
      have hne : k1 ≠ k := fun e => hk (e ▸ List.mem_cons_self _ _)
      have hnot : k1 ∉ ks := fun e => hk (List.mem_cons_of_mem _ e)
      rw [ih h hnot, computeNode_getNode_ne hc hne]

theorem computeList_split {E : Env F} {pre post : List String} {k : String}
    {g g1 : FlowGraph F} (h : computeList E (pre ++ k :: post) g = some g1) :
    ∃ ga gb, computeList E pre g = some ga ∧ computeNode E ga k = some gb ∧
      computeList E post gb = some g1 := by
  induction pre generalizing g with
  | nil =>
    simp only [List.nil_append, computeList] at h
    cases hc : computeNode E g k with
    | none => rw [hc] at h; cases h
    | some gb =>
      rw [hc] at h
      exact ⟨g, gb, rfl, hc, h⟩
  | cons a pre ih =>
    simp only [List.cons_append, computeList] at h
    cases hc : computeNode E g a with
    | none => rw [hc] at h; cases h
    | some g2 =>
      rw [hc] at h
      obtain ⟨ga, gb, h1, h2, h3⟩ := ih h
      exact ⟨ga, gb, by simp [computeList, hc, h1], h2, h3⟩

theorem deref_congr {g g1 : FlowGraph F} {ks : List String}
    (h : ∀ key, key ∈ ks → g1.getNode key = g.getNode key) : deref g1 ks = deref g ks := by
  induction ks with
  | nil => rfl
  | cons a rest ih =>
    simp only [deref]
    rw [h a (List.mem_cons_self _ _), ih (fun key hk => h key (List.mem_cons_of_mem _ hk))]

/-- Split form of the order of `Nodes`: every input of the node listed after `pre`
is in `pre`. -/
theorem Built.inputs_mem_pre {g : FlowGraph F} (hb : Built g) {pre post : List String}
    {k : String} {n : FlowNode F} (hn : g.Nodes = pre ++ k :: post)
    (hk : g.getNode k = some n) : ∀ key, key ∈ n.Inputs → key ∈ pre := by
  intro key hkey
  have hi : g.Nodes.get? pre.length = some k := by
    rw [hn, get?_append_ge (le_refl _)]
    simp
  obtain ⟨j, hj, hjk⟩ := hb.topo pre.length k n hi hk key hkey
  rw [hn] at hjk
  rw [get?_append_lt hj] at hjk
  exact List.get?_mem hjk

/-- After `Compute` on a built graph, the node of key `k` is what its compute
function returns on the node as it was before, reading the values that its inputs
have after `Compute`. -/
theorem Compute_node {E : Env F} {g g1 : FlowGraph F} (hb : Built g)
    (hc : Compute E g = some g1) {k : String} {n0 : FlowNode F} (hk : g.getNode k = some n0) :
    ∃ code vals n1, n0.Operation.Fn = some code ∧ deref g1 n0.Inputs = some vals ∧
      Fn E code n0 vals = some n1 ∧ g1.getNode k = some n1 := by
  obtain ⟨pre, post, hsplit⟩ := List.append_of_mem (hb.all k n0 hk)
  have hnd := hb.nodup
  rw [hsplit] at hnd
  have hkpre : k ∉ pre := by
    intro hmem
    have := (List.nodup_append.1 hnd).2.2
    exact this hmem (List.mem_cons_self _ _)
  have hkpost : k ∉ post := by
    have := (List.nodup_append.1 hnd).2.1
    exact (List.nodup_cons.1 this).1
  unfold Compute at hc
  rw [hsplit] at hc
  obtain ⟨ga, gb, h1, h2, h3⟩ := computeList_split hc
  have hka : ga.getNode k = some n0 := by
    rw [computeList_getNode_not_mem h1 hkpre]
    exact hk
  obtain ⟨node, code, vals, n1, hnode, hcode, hd, hf, hgb⟩ := computeNode_spec h2
  rw [hka] at hnode
  cases hnode
  have hkb : gb.getNode k = some n1 := by
    rw [hgb]
    exact mapGet_mapReplace_self _ _ _ _ hka
  have hk1 : g1.getNode k = some n1 := by
    rw [computeList_getNode_not_mem h3 hkpost]
    exact hkb
  have hw := (hb.wired k n0 hk).1.1
  refine ⟨code, vals, n1, hcode, ?_, hf, hk1⟩
  rw [← hd, hw]
  apply deref_congr
  intro key hkey
  have hpre := hb.inputs_mem_pre hsplit hk key hkey
  have hne : key ≠ k := fun e => hkpre (e ▸ hpre)
  have hnpost : key ∉ post := by
    intro hmem
    have := (List.nodup_append.1 hnd).2.2
    exact this hpre (List.mem_cons_of_mem _ hmem)
  rw [computeList_getNode_not_mem h3 hnpost, hgb]
  exact mapGet_mapReplace_ne _ _ _ _ hne

theorem eraseState_fields {n m : FlowNode F} (h : eraseState n = eraseState m) :
    n.Operator = m.Operator ∧ n.Inputs = m.Inputs ∧ n.ComputedInputs = m.ComputedInputs ∧
      n.Operation = m.Operation ∧ n.ID = m.ID ∧ n.Name = m.Name ∧ n.Typ = m.Typ := by
  have h1 : (eraseState n).Operator = (eraseState m).Operator := by rw [h]
  have h2 : (eraseState n).Inputs = (eraseState m).Inputs := by rw [h]
  have h3 : (eraseState n).ComputedInputs = (eraseState m).ComputedInputs := by rw [h]
  have h4 : (eraseState n).Operation = (eraseState m).Operation := by rw [h]
  have h5 : (eraseState n).ID = (eraseState m).ID := by rw [h]
  have h6 : (eraseState n).Name = (eraseState m).Name := by rw [h]
  have h7 : (eraseState n).Typ = (eraseState m).Typ := by rw [h]
  exact ⟨h1, h2, h3, h4, h5, h6, h7⟩

theorem eraseValue_fields {n m : FlowNode F} (h : eraseValue n = eraseValue m) :
    n.Operator = m.Operator ∧ n.Inputs = m.Inputs ∧ n.ComputedInputs = m.ComputedInputs ∧
      n.Operation = m.Operation ∧ n.ID = m.ID ∧ n.Name = m.Name ∧ n.Typ = m.Typ ∧
      n.lastChanged = m.lastChanged ∧ n.rev = m.rev := by
  have h1 : (eraseValue n).Operator = (eraseValue m).Operator := by rw [h]
  have h2 : (eraseValue n).Inputs = (eraseValue m).Inputs := by rw [h]
  have h3 : (eraseValue n).ComputedInputs = (eraseValue m).ComputedInputs := by rw [h]
  have h4 : (eraseValue n).Operation = (eraseValue m).Operation := by rw [h]
  have h5 : (eraseValue n).ID = (eraseValue m).ID := by rw [h]
  have h6 : (eraseValue n).Name = (eraseValue m).Name := by rw [h]
  have h7 : (eraseValue n).Typ = (eraseValue m).Typ := by rw [h]
  have h8 : (eraseValue n).lastChanged = (eraseValue m).lastChanged := by rw [h]
  have h9 : (eraseValue n).rev = (eraseValue m).rev := by rw [h]
  exact ⟨h1, h2, h3, h4, h5, h6, h7, h8, h9⟩

theorem Build_built {E : Env F} {s : Sched} {fuel : Nat} {g g1 : FlowGraph F} (hf : Fresh g)
    (hv : s.Valid g) (h : Build E s fuel g = some (.ok g1)) : Built g1 := by
  obtain ⟨hp, hl⟩ := Build_placed hf h
  refine ⟨hp.nodup, ?_, hp.topo, fun k n hk => Build_wired hv h hk⟩
  intro k n hk
  have hsub : g1.Nodes ⊆ mapKeys g1.Flow := by
    intro x hx
    obtain ⟨m, hm, _⟩ := hp.rev_of_mem x hx
    exact mem_mapKeys_of_mapGet hm
  have hlen : (mapKeys g1.Flow).length ≤ g1.Nodes.length := by
    simp only [mapKeys, List.length_map]
    exact Nat.le_of_not_lt hl
  have hperm := (List.subperm_of_subset hp.nodup hsub).perm_of_length_le hlen
  exact hperm.mem_iff.2 (mem_mapKeys_of_mapGet hk)

theorem Built.of_sameShape {g g1 : FlowGraph F} (hb : Built g) (hs : SameShape g g1) :
    Built g1 := by
  obtain ⟨hfl, hn⟩ := hs
  have hto : ∀ k n1, g1.getNode k = some n1 → ∃ n, g.getNode k = some n ∧
      eraseState n = eraseState n1 := fun k n1 hk => getNode_of_mapVals hfl hk
  have hkeys : mapKeys g1.Flow = mapKeys g.Flow := mapKeys_eq_of_mapVals eraseState hfl
  constructor
  · rw [hn]; exact hb.nodup
  · intro k n1 hk
    obtain ⟨n, hk0, _⟩ := hto k n1 hk
    rw [hn]
    exact hb.all k n hk0
  · intro i k n1 hi hk key hkey
    obtain ⟨n, hk0, he⟩ := hto k n1 hk
    rw [hn] at hi ⊢
    rw [← (eraseState_fields he).2.1] at hkey
    exact hb.topo i k n hi hk0 key hkey
  · intro k n1 hk
    obtain ⟨n, hk0, he⟩ := hto k n1 hk
    obtain ⟨ho, hi, hci, hop, _⟩ := eraseState_fields he
    obtain ⟨⟨w1, w2⟩, c1, op, c2, c3⟩ := hb.wired k n hk0
    refine ⟨⟨?_, ?_⟩, ?_, op, ?_, ?_⟩
    · rw [← hci, ← hi]; exact w1
    · rw [← ho, ← hop]; exact w2
    · intro key hkey
      rw [← hi] at hkey
      obtain ⟨m, hm⟩ := c1 key hkey
      apply mapGet_isSome_of_mem
      rw [hkeys]
      exact mem_mapKeys_of_mapGet hm
    · rw [← ho]; exact c2
    · rw [← hi]; exact c3

theorem Compute_getNode_back {E : Env F} {g g1 : FlowGraph F} (hc : Compute E g = some g1)
    {k : String} {n1 : FlowNode F} (hk : g1.getNode k = some n1) :
    ∃ n0, g.getNode k = some n0 :=
  let ⟨n0, h0, _⟩ := getNode_of_mapVals (computeList_frame hc).1 hk
  ⟨n0, h0⟩

theorem Fn_output {E : Env F} {n0 n1 : FlowNode F} {vals : List (Value F)}
    (h : Fn E .output n0 vals = some n1) :
    ∃ v, vals.head? = some v ∧
      ((valueNe E n0.ComputedValue v = some true ∧ n1.changed = true ∧ n1.ComputedValue = v) ∨
        (valueNe E n0.ComputedValue v = some false ∧ n1.changed = false ∧
          n1.ComputedValue = n0.ComputedValue)) := by
  unfold Fn at h
  simp only at h
  cases vals with
  | nil => cases h
  | cons v rest =>
    simp only at h
    refine ⟨v, rfl, ?_⟩
    cases hne : valueNe E n0.ComputedValue v with
    | none => rw [hne] at h; cases h
    | some b =>
      rw [hne] at h
      cases b with
      | true => cases h; exact Or.inl ⟨rfl, rfl, rfl⟩
      | false => cases h; exact Or.inr ⟨rfl, rfl, rfl⟩

/-- C3: on the graph left by a `Build` without error, in any state of its values,
one `Compute` that does not panic leaves in every node (so in every node whose
operator is not `input`, `const` or `send`) what the compute function of its
operator returns on the values that its inputs, in the order declared, have after
that `Compute`; for an output node this is the value of its input, copied, or kept
when Go `!=` finds no difference. -/
theorem Compute_single_pass (E : Env F) (s : Sched) (fuel : Nat) (g0 g g2 g1 : FlowGraph F)
    (hf : Fresh g0) (hv : s.Valid g0) (hb : Build E s fuel g0 = some (.ok g))
    (hs : SameShape g g2) (hc : Compute E g2 = some g1) :
    ∀ k n1, g1.getNode k = some n1 →
      ∃ n0 op code vals, g2.getNode k = some n0 ∧ Operations n1.Operator = some op ∧
        op.Fn = some code ∧ deref g1 n1.Inputs = some vals ∧ Fn E code n0 vals = some n1 ∧
        (n1.Operator = "output" → ∃ v, vals.head? = some v ∧
          (n1.ComputedValue = v ∨
            (n1.ComputedValue = n0.ComputedValue ∧
              valueNe E n0.ComputedValue v = some false))) := by
  intro k n1 hk1
  have hbuilt : Built g2 := (Build_built hf hv hb).of_sameShape hs
  obtain ⟨n0, hk0⟩ := Compute_getNode_back hc hk1
  obtain ⟨code, vals, n1a, hcode, hd, hfn, hk1a⟩ := Compute_node hbuilt hc hk0
  rw [hk1] at hk1a
  cases hk1a
  obtain ⟨ho, hi, _⟩ := eraseValue_fields (Fn_frame E hfn)
  have hw := (hbuilt.wired k n0 hk0).1.2
  refine ⟨n0, n0.Operation, code, vals, hk0, by rw [ho]; exact hw, hcode, by rw [hi]; exact hd,
    hfn, ?_⟩
  intro hout
  have hop : Operations n0.Operator = some ⟨"output", some .output, 1, 1⟩ := by
    rw [← ho, hout]
    rfl
  rw [hw] at hop
  simp only [Option.some.injEq] at hop
  rw [hop] at hcode
  simp only [Option.some.injEq] at hcode
  subst hcode
  obtain ⟨v, hv1, hcases⟩ := Fn_output hfn
  refine ⟨v, hv1, ?_⟩
  rcases hcases with ⟨_, _, h3⟩ | ⟨h1, _, h3⟩
  · exact Or.inl h3
  · exact Or.inr ⟨h3, h1⟩

theorem notGraph_valid : (demoSched ["out", "n", "in"]).Valid notGraph :=
  ⟨List.Perm.refl _, List.Perm.refl _, fun _ => List.Perm.refl _⟩

theorem notBuilt_compute : Compute demoEnv notBuilt = some notComputed := by decide

theorem Compute_single_pass_witness :
    Fresh notGraph ∧ (demoSched ["out", "n", "in"]).Valid notGraph ∧
    Build demoEnv (demoSched ["out", "n", "in"]) 3 notGraph = some (.ok notBuilt) ∧
    SameShape notBuilt notBuilt ∧ Compute demoEnv notBuilt = some notComputed ∧
    ∃ n0 op code vals, notBuilt.getNode "n" = some n0 ∧ Operations "not" = some op ∧
      op.Fn = some code ∧ deref notComputed ["in"] = some vals ∧
      Fn demoEnv code n0 vals = some { demoNode "not" ["in"] "" "" "" with
        rev := 1, ComputedInputs := ["in"], Operation := ⟨"not", some .not, 1, 1⟩,
        ComputedValue := .bool true } ∧
      (("not" : String) = "output" → ∃ v, vals.head? = some v ∧
        (Value.bool true = v ∨
          (Value.bool true = n0.ComputedValue ∧
            valueNe demoEnv n0.ComputedValue v = some false))) :=
  ⟨notGraph_fresh, notGraph_valid, notGraph_build, ⟨rfl, rfl⟩, notBuilt_compute,
    Compute_single_pass demoEnv (demoSched ["out", "n", "in"]) 3 notGraph notBuilt notBuilt
      notComputed notGraph_fresh notGraph_valid notGraph_build ⟨rfl, rfl⟩ notBuilt_compute "n"
      { demoNode "not" ["in"] "" "" "" with
        rev := 1, ComputedInputs := ["in"], Operation := ⟨"not", some .not, 1, 1⟩,
        ComputedValue := .bool true } (by decide)⟩

theorem deref_single {g : FlowGraph F} {key : String} {vals : List (Value F)}
    (h : deref g [key] = some vals) : ∃ m, g.getNode key = some m ∧ vals = [m.ComputedValue] := by
  simp only [deref] at h
  cases hk : g.getNode key with
  | none => rw [hk] at h; simp at h
  | some m =>
    rw [hk] at h
    simp only [Option.some.injEq] at h
    exact ⟨m, rfl, h.symm⟩

/-- C10: after a `Compute` on a built graph, an output node has one input;
`HasChanged` is true exactly when Go `!=` holds between the value the output node
had before the `Compute` and the value its input has after it, and the value of
the output node is then that of its input: copied when they differed, and
otherwise the value kept, which Go `!=` does not tell from that of the input. -/
theorem Compute_output_changed (E : Env F) (s : Sched) (fuel : Nat)
    (g0 g g2 g1 : FlowGraph F) (hf : Fresh g0) (hv : s.Valid g0)
    (hb : Build E s fuel g0 = some (.ok g)) (hs : SameShape g g2)
    (hc : Compute E g2 = some g1) (k : String) (n0 : FlowNode F)
    (hk : g2.getNode k = some n0) (hop : n0.Operator = "output") :
    ∃ n1 key m, n0.Inputs = [key] ∧ g1.getNode k = some n1 ∧ g1.getNode key = some m ∧
      (n1.HasChanged = true ↔ valueNe E n0.ComputedValue m.ComputedValue = some true) ∧
      (n1.ComputedValue = m.ComputedValue ∨
        valueNe E n1.ComputedValue m.ComputedValue = some false) := by
  have hbuilt : Built g2 := (Build_built hf hv hb).of_sameShape hs
  obtain ⟨code, vals, n1, hcode, hd, hfn, hk1⟩ := Compute_node hbuilt hc hk
  obtain ⟨⟨_, hw⟩, _, op, hopr, har⟩ := hbuilt.wired k n0 hk
  have hop1 : Operations n0.Operator = some ⟨"output", some .output, 1, 1⟩ := by
    rw [hop]
    rfl
  rw [hop1] at hw hopr
  simp only [Option.some.injEq] at hw hopr
  rw [← hw] at hcode
  simp only [Option.some.injEq] at hcode
  subst hcode
  subst hopr
  have hlen : n0.Inputs.length = 1 := by
    unfold arityOK at har
    simp only [not_or, not_and, not_lt] at har
    have h1 := har.1
    have h2 := har.2 (by decide)
    omega
  obtain ⟨key, hkey⟩ := List.length_eq_one.1 hlen
  rw [hkey] at hd
  obtain ⟨m, hm, hvals⟩ := deref_single hd
  subst hvals
  obtain ⟨v, hv1, hcases⟩ := Fn_output hfn
  simp only [List.head?_cons, Option.some.injEq] at hv1
  subst hv1
  refine ⟨n1, key, m, hkey, hk1, hm, ?_, ?_⟩
  · unfold FlowNode.HasChanged
    rcases hcases with ⟨h1, h2, _⟩ | ⟨h1, h2, _⟩
    · simp [h1, h2]
    · simp [h1, h2]
  · rcases hcases with ⟨_, _, h3⟩ | ⟨h1, _, h3⟩
    · exact Or.inl h3
    · right
      rw [h3]
      exact h1

theorem Compute_output_changed_witness :
    Fresh notGraph ∧ (demoSched ["out", "n", "in"]).Valid notGraph ∧
    Build demoEnv (demoSched ["out", "n", "in"]) 3 notGraph = some (.ok notBuilt) ∧
    SameShape notBuilt notBuilt ∧ Compute demoEnv notBuilt = some notComputed ∧
    ∃ n1 key m, ["n"] = [key] ∧ notComputed.getNode "out" = some n1 ∧
      notComputed.getNode key = some m ∧
      (n1.HasChanged = true ↔ valueNe demoEnv Value.nil m.ComputedValue = some true) ∧
      (n1.ComputedValue = m.ComputedValue ∨
        valueNe demoEnv n1.ComputedValue m.ComputedValue = some false) :=
  ⟨notGraph_fresh, notGraph_valid, notGraph_build, ⟨rfl, rfl⟩, notBuilt_compute,
    Compute_output_changed demoEnv (demoSched ["out", "n", "in"]) 3 notGraph notBuilt notBuilt
      notComputed notGraph_fresh notGraph_valid notGraph_build ⟨rfl, rfl⟩ notBuilt_compute "out"
      { demoNode "output" ["n"] "o1" "res" "bool" with
        rev := 1, ComputedInputs := ["n"], Operation := ⟨"output", some .output, 1, 1⟩ }
      (by decide) (by decide)⟩

/-! ## SendInput -/

/-- C6: on a built graph (`Inputs` is not nil), `SendInput` for a sensor id that is
not a key of `Inputs` returns `(false, nil)` and leaves the whole graph as it was,
`rev` and every node included, whatever the account id, the time and the payload. -/
theorem SendInput_unknown_sensor (E : Env F) (s : Sched) (fuel : Nat) (g : FlowGraph F)
    (aid sid : String) (createdAt : Time) (data : List (String × Value F))
    (inputs : List (String × List (String × String))) (hi : g.Inputs = some inputs)
    (hs : mapGet inputs sid = none) :
    SendInput E s fuel g aid sid createdAt data = some (.ok (g, false)) := by
  unfold SendInput lazyBuild
  simp [hi, hs]

theorem SendInput_unknown_sensor_witness :
    notBuilt.Inputs = some [("s1", [("x", "in")])] ∧
    mapGet [("s1", [("x", "in")])] "s2" = none ∧
    SendInput demoEnv (demoSched []) 0 notBuilt "acc" "s2" timeUTC [("x", .bool true)]
      = some (.ok (notBuilt, false)) :=
  ⟨rfl, by decide,
    SendInput_unknown_sensor demoEnv (demoSched []) 0 notBuilt "acc" "s2" timeUTC
      [("x", .bool true)] [("s1", [("x", "in")])] rfl (by decide)⟩

/-- C4 at a failing input: the input node `in` of `notBuilt` accepts `x = true` at
the instant 5 read in UTC; a later message `x = false` at the same instant read in
another location is neither `Before` nor `==` the time stored, so it is accepted
too, and it changes both the value and `lastChanged` of the node, although its
instant is not later. -/
theorem SendInput_equal_instant_accepted :
    (demoSend notBuilt timeUTC [("x", .bool true)]).getNode "in"
      = some { demoNode "input" [] "s1" "x" "bool" with
          rev := 1, ComputedValue := .bool true, lastChanged := timeUTC,
          Operation := ⟨"input", some .input, 0, 0⟩ } ∧
    timeOffset.instant ≤ timeUTC.instant ∧
    ∃ g2, SendInput demoEnv (demoSched []) 0 (demoSend notBuilt timeUTC [("x", .bool true)])
        "acc" "s1" timeOffset [("x", .bool false)] = some (.ok (g2, true)) ∧
      g2.getNode "in" = some { demoNode "input" [] "s1" "x" "bool" with
          rev := 2, ComputedValue := .bool false, lastChanged := timeOffset,
          Operation := ⟨"input", some .input, 0, 0⟩ } :=
  ⟨by decide, by decide,
    demoSend (demoSend notBuilt timeUTC [("x", .bool true)]) timeOffset [("x", .bool false)],
    by decide, by decide⟩

/-- C5 at a failing input: after `x = true` was accepted at the instant 5 read in
UTC, no input node registered for the sensor `s1` has a `lastChanged` strictly
earlier than the same instant read in another location; yet `SendInput` at that time
returns `(true, nil)` and changes the node. -/
theorem SendInput_recompute_equal_instant :
    (demoSend notBuilt timeUTC [("x", .bool true)]).Inputs = some [("s1", [("x", "in")])] ∧
    (∀ name key n, mapGet [("x", "in")] name = some key →
      (demoSend notBuilt timeUTC [("x", .bool true)]).getNode key = some n →
      n.lastChanged.Before timeOffset = false) ∧
    ∃ g2, SendInput demoEnv (demoSched []) 0 (demoSend notBuilt timeUTC [("x", .bool true)])
        "acc" "s1" timeOffset [("x", .bool false)] = some (.ok (g2, true)) ∧
      g2.getNode "in" ≠ (demoSend notBuilt timeUTC [("x", .bool true)]).getNode "in" := by
  refine ⟨by decide, ?_,
    demoSend (demoSend notBuilt timeUTC [("x", .bool true)]) timeOffset [("x", .bool false)],
    by decide, by decide⟩
  intro name key n h1 h2
  simp only [mapGet] at h1
  by_cases hx : "x" = name
  · simp only [hx, if_true, Option.some.injEq] at h1
    subst h1
    have h3 : (demoSend notBuilt timeUTC [("x", .bool true)]).getNode "in"
        = some { demoNode "input" [] "s1" "x" "bool" with
          rev := 1, ComputedValue := .bool true, lastChanged := timeUTC,
          Operation := ⟨"input", some .input, 0, 0⟩ } := by decide
    rw [h3] at h2
    cases h2
    decide
  · simp [hx] at h1

/-- The part of C4 and C5 that the code keeps: a message whose time is `Before` or
`==` the `lastChanged` of every input node it names is dropped, field by field. -/
theorem sendLoop_all_rejected (E : Env F) (createdAt : Time) (input : List (String × String))
    (data : List (String × Value F)) (g : FlowGraph F) (must : Bool)
    (h : ∀ name value key, (name, value) ∈ data → mapGet input name = some key →
      ∃ node, g.getNode key = some node ∧
        (createdAt.Before node.lastChanged || createdAt == node.lastChanged) = true) :
    sendLoop E createdAt input data g must = .ok (g, must) := by
  induction data with
  | nil => rfl
  | cons p rest ih =>
    obtain ⟨name, value⟩ := p
    have hrest := ih (fun n v k hm hk => h n v k (List.mem_cons_of_mem _ hm) hk)
    simp only [sendLoop]
    cases hk : mapGet input name with
    | none => exact hrest
    | some key =>
      obtain ⟨node, hn, hrej⟩ := h name value key (List.mem_cons_self _ _) hk
      simp only [hn, hrej, if_true]
      exact hrest

theorem SendInput_all_rejected (E : Env F) (s : Sched) (fuel : Nat) (g : FlowGraph F)
    (aid sid : String) (createdAt : Time) (data : List (String × Value F))
    (inputs : List (String × List (String × String))) (input : List (String × String))
    (hi : g.Inputs = some inputs) (hs : mapGet inputs sid = some input)
    (h : ∀ name value key, (name, value) ∈ data → mapGet input name = some key →
      ∃ node, g.getNode key = some node ∧
        (createdAt.Before node.lastChanged || createdAt == node.lastChanged) = true) :
    SendInput E s fuel g aid sid createdAt data
      = some (.ok ({ g with rev := (g.rev + 1) % 2 ^ 64 }, false)) := by
  unfold SendInput lazyBuild
  simp only [hi, Option.getD_some, hs]
  exact congrArg some (sendLoop_all_rejected E createdAt input data _ false h)

/-! ## The scenario of the test -/

theorem mem_insertAll {α : Type} (x : α) (a b : List α) :
    a ++ x :: b ∈ insertAll x (a ++ b) := by
  induction a with
  | nil =>
    cases b with
    | nil => simp [insertAll]
    | cons y ys => simp [insertAll]
  | cons y ys ih =>
    simp only [List.cons_append, insertAll, List.mem_cons, List.mem_map]
    right
    exact ⟨_, ih, rfl⟩

theorem mem_orders {α : Type} {l d : List α} (h : d.Perm l) : d ∈ orders l := by
  induction l generalizing d with
  | nil =>
    rw [List.perm_nil.1 h]
    simp [orders]
  | cons x xs ih =>
    have hx : x ∈ d := h.symm.subset (List.mem_cons_self _ _)
    obtain ⟨a, b, rfl⟩ := List.append_of_mem hx
    have hp : (a ++ b).Perm xs := by
      have h1 : (x :: (a ++ b)).Perm (x :: xs) := List.perm_middle.symm.trans h
      exact List.Perm.cons_inv h1
    simp only [orders, List.mem_flatMap]
    exact ⟨a ++ b, ih hp, mem_insertAll x a b⟩

theorem rawRuns_eq : rawRuns = List.replicate 72 rawExpected := by rfl

/-- C13: the scenario of `TestFormat` on the graph `_rawgraph`, with the fields of
the two messages visited in any order and the map loops of `Build` visiting the keys
in the order of the JSON text or in the reverse order.  After `Build`, `SendInput`
at T=1 and `Compute`: `op_ram` is 0.25, `op0`, `op1` and `op3` are false, `op4` is
0.25, `op5` is `slow`, and both outputs have `changed` true; after `SendInput` at
T=2 and `Compute`: `op3` is true, `op4` is 1.0, `op5` is `fast`, and both outputs
have `changed` true again. -/
theorem TestFormat_scenario (ks : List String) (d1 d2 : List (String × Value (Option Int)))
    (hks : ks = rawKeys ∨ ks = rawKeys.reverse) (h1 : d1.Perm rawPayload1)
    (h2 : d2.Perm rawPayload2) : rawObserved ks d1 d2 = rawExpected := by
  have hall := (List.eq_replicate_iff.1 rawRuns_eq).2
  apply hall
  simp only [rawRuns, List.mem_flatMap, List.mem_map]
  refine ⟨ks, ?_, d1, mem_orders h1, d2, mem_orders h2, rfl⟩
  rcases hks with h | h <;> simp [h]

theorem TestFormat_scenario_witness :
    rawPayload1.Perm rawPayload1 ∧ rawPayload2.Perm rawPayload2 ∧
    rawObserved rawKeys rawPayload1 rawPayload2 = rawExpected :=
  ⟨List.Perm.refl _, List.Perm.refl _,
    TestFormat_scenario rawKeys rawPayload1 rawPayload2 (Or.inl rfl) (List.Perm.refl _)
      (List.Perm.refl _)⟩

/-! ## A second Compute -/

/-- Apart from `output`, a compute function run again on the node it has just
written, with the same values of the inputs, writes the same node. -/
theorem Fn_idem (E : Env F) {code : OpCode} {n0 n1 : FlowNode F} {vals : List (Value F)}
    (hne : code ≠ .output) (h : Fn E code n0 vals = some n1) :
    Fn E code n1 vals = some n1 := by
  unfold Fn at h ⊢
  cases code <;> simp only at h ⊢
  case output => exact absurd rfl hne
  case and =>
    cases hl : andLoop vals with
    | none => rw [hl] at h; cases h
    | some b => rw [hl] at h; cases h; rfl
  case or =>
    cases hl : orLoop vals with
    | none => rw [hl] at h; cases h
    | some b => rw [hl] at h; cases h; rfl
  case add =>
    cases hl : addLoop E E.zero vals with
    | none => rw [hl] at h; cases h
    | some b => rw [hl] at h; cases h; rfl
  case min =>
    cases hl : minLoop E E.maxFloat vals with
    | none => rw [hl] at h; cases h
    | some b => rw [hl] at h; cases h; rfl
  case max =>
    cases hl : maxLoop E E.negMaxFloat vals with
    | none => rw [hl] at h; cases h
    | some b => rw [hl] at h; cases h; rfl
  case not =>
    cases vals with
    | nil => cases h
    | cons v rest =>
      simp only at h ⊢
      cases hb : asBool v with
      | none => rw [hb] at h; cases h
      | some b => rw [hb] at h; cases h; rfl
  case select =>
    cases vals with
    | nil => cases h
    | cons v rest =>
      simp only at h ⊢
      cases hx : asFloat v with
      | none => rw [hx] at h; cases h
      | some x =>
        rw [hx] at h
        simp only at h ⊢
        cases hl : selectLoop E x n0.Values 0 n0.Condition with
        | none => rw [hl] at h; cases h
        | some b => rw [hl] at h; cases h; simp [hl]
  case contains_exactly =>
    rcases vals with _ | ⟨a, _ | ⟨b, rest⟩⟩
    · cases h
    · cases h
    · simp only at h ⊢
      cases ha : asString a with
      | none => rw [ha] at h; cases h
      | some x =>
        cases hb : asString b with
        | none => rw [ha, hb] at h; cases h
        | some y => rw [ha, hb] at h; cases h; rfl
  case match_str =>
    cases vals with
    | nil => cases h
    | cons c rest =>
      simp only at h ⊢
      cases hc : asBool c with
      | none => rw [hc] at h; cases h
      | some b =>
        rw [hc] at h
        cases b with
        | true =>
          simp only at h ⊢
          cases hg : rest.get? 0 with
          | none => rw [hg] at h; cases h
          | some w => rw [hg] at h; cases h; rfl
        | false =>
          simp only at h ⊢
          cases hg : rest.get? 1 with
          | none => rw [hg] at h; cases h
          | some w => rw [hg] at h; cases h; rfl
  all_goals
    rcases vals with _ | ⟨a, _ | ⟨b, rest⟩⟩
    · cases h
    · cases h
    · simp only at h ⊢
      cases ha : asFloat a with
      | none => rw [ha] at h; cases h
      | some x =>
        cases hb : asFloat b with
        | none => rw [ha, hb] at h; cases h
        | some y => rw [ha, hb] at h; cases h; rfl

theorem Fn_output_eq {E : Env F} {n0 n1 : FlowNode F} {vals : List (Value F)}
    (h : Fn E .output n0 vals = some n1) :
    ∃ v, vals.head? = some v ∧
      ((valueNe E n0.ComputedValue v = some true ∧
          n1 = { n0 with changed := true, ComputedValue := v }) ∨
        (valueNe E n0.ComputedValue v = some false ∧ n1 = { n0 with changed := false })) := by
  unfold Fn at h
  simp only at h
  cases vals with
  | nil => cases h
  | cons v rest =>
    simp only at h
    refine ⟨v, rfl, ?_⟩
    cases hne : valueNe E n0.ComputedValue v with
    | none => rw [hne] at h; cases h
    | some b =>
      rw [hne] at h
      cases b with
      | true => cases h; exact Or.inl ⟨rfl, rfl⟩
      | false => cases h; exact Or.inr ⟨rfl, rfl⟩

theorem Operations_output {name : String} {op : Operation} (h : Operations name = some op)
    (hf : op.Fn = some .output) : name = "output" := by
  unfold Operations at h
  by_cases c : name = "const"
  · rw [if_pos c] at h; cases h; cases hf
  rw [if_neg c] at h
  clear c
  by_cases c : name = "input"
  · rw [if_pos c] at h; cases h; cases hf
  rw [if_neg c] at h
  clear c
  by_cases c : name = "output"
  · exact c
  rw [if_neg c] at h
  clear c
  by_cases c : name = "lt"
  · rw [if_pos c] at h; cases h; cases hf
  rw [if_neg c] at h
  clear c
  by_cases c : name = "le"
  · rw [if_pos c] at h; cases h; cases hf
  rw [if_neg c] at h
  clear c
  by_cases c : name = "gt"
  · rw [if_pos c] at h; cases h; cases hf
  rw [if_neg c] at h
  clear c
  by_cases c : name = "ge"
  · rw [if_pos c] at h; cases h; cases hf
  rw [if_neg c] at h
  clear c
  by_cases c : name = "eq"
  · rw [if_pos c] at h; cases h; cases hf
  rw [if_neg c] at h
  clear c
  by_cases c : name = "ne"
  · rw [if_pos c] at h; cases h; cases hf
  rw [if_neg c] at h
  clear c
  by_cases c : name = "and"
  · rw [if_pos c] at h; cases h; cases hf
  rw [if_neg c] at h
  clear c
  by_cases c : name = "or"
  · rw [if_pos c] at h; cases h; cases hf
  rw [if_neg c] at h
  clear c
  by_cases c : name = "not"
  · rw [if_pos c] at h; cases h; cases hf
  rw [if_neg c] at h
  clear c
  by_cases c : name = "add"
  · rw [if_pos c] at h; cases h; cases hf
  rw [if_neg c] at h
  clear c
  by_cases c : name = "div"
  · rw [if_pos c] at h; cases h; cases hf
  rw [if_neg c] at h
  clear c
  by_cases c : name = "min"
  · rw [if_pos c] at h; cases h; cases hf
  rw [if_neg c] at h
  clear c
  by_cases c : name = "max"
  · rw [if_pos c] at h; cases h; cases hf
  rw [if_neg c] at h
  clear c
  by_cases c : name = "select"
  · rw [if_pos c] at h; cases h; cases hf
  rw [if_neg c] at h
  clear c
  by_cases c : name = "contains_exactly"
  · rw [if_pos c] at h; cases h; cases hf
  rw [if_neg c] at h
  clear c
  by_cases c : name = "match_str"
  · rw [if_pos c] at h; cases h; cases hf
  rw [if_neg c] at h
  clear c
  by_cases c : name = "send"
  · rw [if_pos c] at h; cases h; cases hf
  rw [if_neg c] at h
  clear c
  cases h

theorem computeList_mem_getNode {E : Env F} {ks : List String} {g g1 : FlowGraph F}
    (h : computeList E ks g = some g1) : ∀ k, k ∈ ks → ∃ n, g1.getNode k = some n := by
  induction ks generalizing g with
  | nil => intro k hk; simp at hk
  | cons a rest ih =>
    intro k hk
    simp only [computeList] at h
    cases hc : computeNode E g a with
    | none => rw [hc] at h; cases h
    | some g2 =>
      rw [hc] at h
      rcases List.mem_cons.1 hk with hk | hk
      · subst hk
        obtain ⟨node, code, vals, n1, hn, _, _, _, hg⟩ := computeNode_spec hc
        have h2 : g2.getNode k = some n1 := by
          rw [hg]
          exact mapGet_mapReplace_self _ _ _ _ hn
        obtain ⟨n, hn1, _⟩ := getNode_of_mapVals (q := g2) (computeList_frame h).1.symm h2
        exact ⟨n, hn1⟩
      · exact ih h k hk

theorem Compute_stable {E : Env F} {g g1 : FlowGraph F} (hb : Built g)
    (hc : Compute E g = some g1) : Stable E g1 := by
  intro k n1 hk1
  obtain ⟨n0, hk0⟩ := Compute_getNode_back hc hk1
  obtain ⟨code, vals, n1a, hcode, hd, hfn, hk1a⟩ := Compute_node hb hc hk0
  rw [hk1] at hk1a
  cases hk1a
  obtain ⟨_, _, hci, hop, _⟩ := eraseValue_fields (Fn_frame E hfn)
  have hw := (hb.wired k n0 hk0).1.1
  refine ⟨code, vals, by rw [hop]; exact hcode, by rw [hci, hw]; exact hd, ?_, ?_⟩
  · intro hne
    exact Fn_idem E hne hfn
  · intro he
    subst he
    obtain ⟨v, hv, hcases⟩ := Fn_output_eq hfn
    refine ⟨v, hv, ?_⟩
    rcases hcases with ⟨_, h2⟩ | ⟨h1, h2⟩
    · left; rw [h2]
    · right; rw [h2]; exact h1

theorem deref_settles {g1 g2 : FlowGraph F} (hs : Settles g1 g2) (ks : List String) :
    deref g2 ks = deref g1 ks := by
  induction ks with
  | nil => rfl
  | cons a rest ih =>
    simp only [deref, ih]
    rcases hs a with h | ⟨n1, b, h1, _, h2⟩
    · rw [h]
    · rw [h1, h2]
      cases deref g1 rest <;> rfl

theorem Fn_output_same {E : Env F} {n : FlowNode F} {vals : List (Value F)} {v : Value F}
    (hv : vals.head? = some v) (hne : valueNe E n.ComputedValue v = some false) :
    Fn E .output n vals = some { n with changed := false } := by
  cases vals with
  | nil => simp at hv
  | cons a rest =>
    simp only [List.head?_cons, Option.some.injEq] at hv
    subst hv
    unfold Fn
    simp only [hne]

theorem Settles.setNode {g1 g2 : FlowGraph F} (hs : Settles g1 g2) {k : String}
    {n1 n2 n3 : FlowNode F} (hk1 : g1.getNode k = some n1) (hk2 : g2.getNode k = some n2)
    (h3 : n3 = n1 ∨ (n1.Operation.Fn = some .output ∧ ∃ c, n3 = { n1 with changed := c })) :
    Settles g1 (g2.setNode k n3) := by
  intro k1
  by_cases hkk : k1 = k
  · subst hkk
    have hget : (g2.setNode k1 n3).getNode k1 = some n3 := mapGet_mapReplace_self _ _ _ _ hk2
    rw [hget]
    rcases h3 with h | ⟨ho, c, h⟩
    · left; rw [h, hk1]
    · right; exact ⟨n1, c, hk1, ho, by rw [h]⟩
  · have hget : (g2.setNode k n3).getNode k1 = g2.getNode k1 := mapGet_mapReplace_ne _ _ _ _ hkk
    rw [hget]
    exact hs k1

/-- One step of a `Compute` on a state that holds the nodes of a stable state `g1`:
the node computed is the node of `g1`, with `changed` set again when it is an
output node; with `hrefl`, the step cannot panic and sets `changed` to false. -/
theorem computeNode_settles {E : Env F} {g1 g2 : FlowGraph F} (hst : Stable E g1)
    (hs : Settles g1 g2) {k : String} {n2 : FlowNode F} (hk : g2.getNode k = some n2) :
    (∀ g3, computeNode E g2 k = some g3 → Settles g1 g3) ∧
    ((∀ n1 v, g1.getNode k = some n1 → n1.Operation.Fn = some .output →
        (deref g1 n1.ComputedInputs).bind List.head? = some v →
        valueNe E v v = some false) →
      ∃ g3 n3, computeNode E g2 k = some g3 ∧ g3.getNode k = some n3 ∧ Settles g1 g3 ∧
        (n3.Operation.Fn = some .output → n3.changed = false)) := by
  -- the node of `g1` under `k`, and the flag by which that of `g2` may differ
  have hn : ∃ n1 b, g1.getNode k = some n1 ∧ n2 = { n1 with changed := b } ∧
      (n1.Operation.Fn ≠ some .output → n2 = n1) := by
    rcases hs k with h | ⟨n1, b, h1, ho, h2⟩
    · rw [hk] at h
      exact ⟨n2, n2.changed, h.symm, rfl, fun _ => rfl⟩
    · rw [hk] at h2
      cases h2
      exact ⟨n1, b, h1, rfl, fun hne => absurd ho hne⟩
  obtain ⟨n1, b, hk1, hn2, hsame⟩ := hn
  obtain ⟨code, vals, hcode, hd, hidem, hout⟩ := hst k n1 hk1
  have hd2 : deref g2 n2.ComputedInputs = some vals := by
    rw [deref_settles hs, hn2]
    exact hd
  have hcode2 : n2.Operation.Fn = some code := by rw [hn2]; exact hcode
  have hstep : ∀ n3, Fn E code n2 vals = some n3 →
      computeNode E g2 k = some (g2.setNode k n3) := by
    intro n3 hf
    unfold computeNode
    simp only [hk, hcode2, hd2, hf, Option.map_some']
  have hback : ∀ g3, computeNode E g2 k = some g3 →
      ∃ n3, Fn E code n2 vals = some n3 ∧ g3 = g2.setNode k n3 := by
    intro g3 h3
    obtain ⟨node, code1, vals1, n3, e1, e2, e3, e4, e5⟩ := computeNode_spec h3
    rw [hk] at e1
    cases e1
    rw [hcode2] at e2
    cases e2
    rw [hd2] at e3
    cases e3
    exact ⟨n3, e4, e5⟩
  by_cases hc : code = .output
  · subst hc
    obtain ⟨v, hv, hval⟩ := hout rfl
    have hcv : n2.ComputedValue = n1.ComputedValue := by rw [hn2]
    constructor
    · intro g3 h3
      obtain ⟨n3, hf, hg3⟩ := hback g3 h3
      subst hg3
      obtain ⟨w, hw, hcases⟩ := Fn_output_eq hf
      rw [hv] at hw
      cases hw
      apply hs.setNode hk1 hk
      right
      refine ⟨hcode, ?_⟩
      rcases hcases with ⟨h1, h2⟩ | ⟨_, h2⟩
      · rw [hcv] at h1
        rcases hval with hval | hval
        · refine ⟨true, ?_⟩
          rw [h2, hn2, ← hval]
        · rw [hval] at h1
          cases h1
      · exact ⟨false, by rw [h2, hn2]⟩
    · intro hrefl
      have hvv : valueNe E n2.ComputedValue v = some false := by
        rw [hcv]
        rcases hval with hval | hval
        · rw [hval]
          apply hrefl n1 v hk1 hcode
          rw [hd]
          exact hv
        · exact hval
      have hf := Fn_output_same hv hvv
      refine ⟨g2.setNode k { n2 with changed := false }, { n2 with changed := false },
        hstep _ hf, mapGet_mapReplace_self _ _ _ _ hk, ?_, fun _ => rfl⟩
      apply hs.setNode hk1 hk
      right
      exact ⟨hcode, false, by rw [hn2]⟩
  · have h21 : n2 = n1 := hsame (fun e => hc (by rw [hcode] at e; cases e; rfl))
    have hf : Fn E code n2 vals = some n2 := by rw [h21]; exact hidem hc
    constructor
    · intro g3 h3
      obtain ⟨n3, hf3, hg3⟩ := hback g3 h3
      rw [hf] at hf3
      cases hf3
      subst hg3
      exact hs.setNode hk1 hk (Or.inl h21)
    · intro _
      refine ⟨g2.setNode k n2, n2, hstep _ hf, mapGet_mapReplace_self _ _ _ _ hk,
        hs.setNode hk1 hk (Or.inl h21), ?_⟩
      intro ho
      rw [hcode2] at ho
      cases ho
      exact absurd rfl hc

theorem Settles.refl (g : FlowGraph F) : Settles g g := fun _ => Or.inl rfl

theorem Settles.getNode_back {g1 g2 : FlowGraph F} (hs : Settles g1 g2) {k : String}
    {n2 : FlowNode F} (hk : g2.getNode k = some n2) :
    ∃ n1, g1.getNode k = some n1 ∧ n2.ComputedValue = n1.ComputedValue ∧
      n2.Operation = n1.Operation ∧ n2.Operator = n1.Operator := by
  rcases hs k with h | ⟨n1, b, h1, _, h2⟩
  · rw [hk] at h
    exact ⟨n2, h.symm, rfl, rfl, rfl⟩
  · rw [hk] at h2
    cases h2
    exact ⟨n1, h1, rfl, rfl, rfl⟩

theorem Settles.getNode_forth {g1 g2 : FlowGraph F} (hs : Settles g1 g2) {k : String}
    {n1 : FlowNode F} (hk : g1.getNode k = some n1) :
    ∃ n2, g2.getNode k = some n2 ∧ n2.ComputedValue = n1.ComputedValue := by
  rcases hs k with h | ⟨m, b, h1, _, h2⟩
  · exact ⟨n1, by rw [h, hk], rfl⟩
  · rw [hk] at h1
    cases h1
    exact ⟨_, h2, rfl⟩

theorem computeList_settles {E : Env F} {g1 : FlowGraph F} (hst : Stable E g1)
    {ks : List String} {g2 g3 : FlowGraph F} (hs : Settles g1 g2)
    (h : computeList E ks g2 = some g3) : Settles g1 g3 := by
  induction ks generalizing g2 with
  | nil =>
    simp only [computeList, Option.some.injEq] at h
    subst h
    exact hs
  | cons a rest ih =>
    simp only [computeList] at h
    cases hc : computeNode E g2 a with
    | none => rw [hc] at h; cases h
    | some g =>
      rw [hc] at h
      obtain ⟨node, _, _, _, hn, _⟩ := computeNode_spec hc
      exact ih ((computeNode_settles hst hs hn).1 g hc) h

theorem computeList_settled {E : Env F} {g1 : FlowGraph F} (hst : Stable E g1)
    (hrefl : ∀ k n1 v, g1.getNode k = some n1 → n1.Operation.Fn = some .output →
      (deref g1 n1.ComputedInputs).bind List.head? = some v → valueNe E v v = some false)
    {ks : List String} (hks : ∀ k, k ∈ ks → ∃ n, g1.getNode k = some n) {g2 : FlowGraph F}
    (hs : Settles g1 g2) :
    ∃ g3, computeList E ks g2 = some g3 ∧ Settles g1 g3 ∧
      ∀ k, k ∈ ks → ∀ n3, g3.getNode k = some n3 → n3.Operation.Fn = some .output →
        n3.changed = false := by
  induction ks generalizing g2 with
  | nil => exact ⟨g2, rfl, hs, by intro k hk; simp at hk⟩
  | cons a rest ih =>
    obtain ⟨na, hna⟩ := hks a (List.mem_cons_self _ _)
    obtain ⟨n2, hn2, _⟩ := hs.getNode_forth hna
    obtain ⟨g, n, hstep, hgn, hsg, hch⟩ :=
      (computeNode_settles hst hs hn2).2 (fun n1 v => hrefl a n1 v)
    obtain ⟨g3, h3, hs3, hall⟩ := ih (fun k hk => hks k (List.mem_cons_of_mem _ hk)) hsg
    refine ⟨g3, by simp only [computeList, hstep, h3], hs3, ?_⟩
    intro k hk n3 hk3 ho
    by_cases hmem : k ∈ rest
    · exact hall k hmem n3 hk3 ho
    · have hka : k = a := by
        rcases List.mem_cons.1 hk with h | h
        · exact h
        · exact absurd h hmem
      subst hka
      rw [computeList_getNode_not_mem h3 hmem, hgn] at hk3
      cases hk3
      exact hch ho

theorem mapVals_eraseState_of_eraseValue {m m1 : List (String × FlowNode F)}
    (h : mapVals eraseValue m1 = mapVals eraseValue m) :
    mapVals eraseState m1 = mapVals eraseState m := by
  have := congrArg (mapVals eraseState) h
  simpa [mapVals_mapVals, eraseState, eraseValue] using this

theorem Compute_sameShape {E : Env F} {g g1 : FlowGraph F} (hc : Compute E g = some g1) :
    SameShape g g1 :=
  ⟨mapVals_eraseState_of_eraseValue (computeList_frame hc).1, (computeList_frame hc).2.1⟩

theorem deref_head {g : FlowGraph F} {ks : List String} {v : Value F}
    (h : (deref g ks).bind List.head? = some v) :
    ∃ key m, key ∈ ks ∧ g.getNode key = some m ∧ m.ComputedValue = v := by
  cases ks with
  | nil => simp [deref] at h
  | cons a rest =>
    simp only [deref] at h
    cases ha : g.getNode a with
    | none => rw [ha] at h; simp at h
    | some m =>
      rw [ha] at h
      cases hr : deref g rest with
      | none => rw [hr] at h; simp at h
      | some vs =>
        rw [hr] at h
        simp only [Option.some_bind, List.head?_cons, Option.some.injEq] at h
        exact ⟨a, m, List.mem_cons_self _ _, ha, h⟩

/-- C11, amended: on a built graph in any state of its values, after a `Compute`
that completes, every second `Compute` that completes leaves in every node the
value it had after the first; and when every value read by an output node is equal
to itself under Go `==` (it is not NaN and not a JSON array or object), the second
`Compute` completes and leaves `changed` false in every output node. -/
theorem Compute_twice (E : Env F) (s : Sched) (fuel : Nat) (g0 g ga g1 : FlowGraph F)
    (hf : Fresh g0) (hv : s.Valid g0) (hb : Build E s fuel g0 = some (.ok g))
    (hs : SameShape g ga) (hc : Compute E ga = some g1) :
    (∀ g2, Compute E g1 = some g2 → ∀ k n1, g1.getNode k = some n1 →
      ∃ n2, g2.getNode k = some n2 ∧ n2.ComputedValue = n1.ComputedValue) ∧
    ((∀ k n1 key m, g1.getNode k = some n1 → n1.Operator = "output" → key ∈ n1.Inputs →
        g1.getNode key = some m →
        valueNe E m.ComputedValue m.ComputedValue = some false) →
      ∃ g2, Compute E g1 = some g2 ∧
        ∀ k n2, g2.getNode k = some n2 → n2.Operator = "output" → n2.changed = false) := by
  have hba : Built ga := (Build_built hf hv hb).of_sameShape hs
  have hb1 : Built g1 := hba.of_sameShape (Compute_sameShape hc)
  have hst : Stable E g1 := Compute_stable hba hc
  constructor
  · intro g2 h2 k n1 hk
    exact (computeList_settles hst (Settles.refl g1) h2).getNode_forth hk
  · intro hrefl
    have hrefl1 : ∀ k n1 v, g1.getNode k = some n1 → n1.Operation.Fn = some .output →
        (deref g1 n1.ComputedInputs).bind List.head? = some v →
        valueNe E v v = some false := by
      intro k n1 v hk ho hd
      obtain ⟨⟨w1, w2⟩, _⟩ := hb1.wired k n1 hk
      obtain ⟨key, m, hkey, hm, hmv⟩ := deref_head hd
      rw [w1] at hkey
      rw [← hmv]
      exact hrefl k n1 key m hk (Operations_output w2 ho) hkey hm
    have hks : ∀ k, k ∈ g1.Nodes → ∃ n, g1.getNode k = some n := by
      intro k hk
      rw [(computeList_frame hc).2.1] at hk
      exact computeList_mem_getNode hc k hk
    obtain ⟨g2, h2, hs2, hall⟩ := computeList_settled hst hrefl1 hks (Settles.refl g1)
    refine ⟨g2, h2, ?_⟩
    intro k n2 hk2 hop
    obtain ⟨n1, hk1, _, hopn, hopr⟩ := hs2.getNode_back hk2
    have hw := (hb1.wired k n1 hk1).1.2
    apply hall k (hb1.all k n1 hk1) n2 hk2
    rw [hopn]
    rw [hopr] at hop
    rw [hop] at hw
    have : some n1.Operation = some ⟨"output", some .output, 1, 1⟩ := by
      rw [← hw]
      rfl
    simp only [Option.some.injEq] at this
    rw [this]

theorem Compute_twice_witness :
    Fresh notGraph ∧ (demoSched ["out", "n", "in"]).Valid notGraph ∧
    Build demoEnv (demoSched ["out", "n", "in"]) 3 notGraph = some (.ok notBuilt) ∧
    SameShape notBuilt notBuilt ∧ Compute demoEnv notBuilt = some notComputed ∧
    (∀ g2, Compute demoEnv notComputed = some g2 → ∀ k n1, notComputed.getNode k = some n1 →
      ∃ n2, g2.getNode k = some n2 ∧ n2.ComputedValue = n1.ComputedValue) ∧
    ((∀ k n1 key m, notComputed.getNode k = some n1 → n1.Operator = "output" →
        key ∈ n1.Inputs → notComputed.getNode key = some m →
        valueNe demoEnv m.ComputedValue m.ComputedValue = some false) →
      ∃ g2, Compute demoEnv notComputed = some g2 ∧
        ∀ k n2, g2.getNode k = some n2 → n2.Operator = "output" → n2.changed = false) :=
  ⟨notGraph_fresh, notGraph_valid, notGraph_build, ⟨rfl, rfl⟩, notBuilt_compute,
    Compute_twice demoEnv (demoSched ["out", "n", "in"]) 3 notGraph notBuilt notBuilt
      notComputed notGraph_fresh notGraph_valid notGraph_build ⟨rfl, rfl⟩ notBuilt_compute⟩

/-- C11 as stated fails on `nanGraph`, an output node that reads a float input:
after `Build` and the message `x = "NaN"`, which `strconv.ParseFloat` accepts, the
first `Compute` completes and so does the second, and the output node has `changed`
true after the second, because NaN `!=` NaN. -/
theorem Compute_twice_counterexample :
    ∃ g g1 g2, nanRun 0 = some g ∧ Compute decEnv g = some g1 ∧ Compute decEnv g1 = some g2 ∧
      ∃ n2, g2.getNode "out" = some n2 ∧ n2.Operator = "output" ∧ n2.changed = true :=
  ⟨(nanRun 0).getD nanGraph, (nanRun 1).getD nanGraph, (nanRun 2).getD nanGraph,
    by rfl, by rfl, by rfl,
    ((nanRun 2).getD nanGraph).getNode "out" |>.getD (decNode "" [] "" "" "" [] [] .nil),
    by rfl, by rfl, by rfl⟩

/-! ## Emission -/

theorem mapGet_mapSet {β : Type} (m : List (String × β)) (k k1 : String) (v : β) :
    mapGet (mapSet m k v) k1 = if k1 = k then some v else mapGet m k1 := by
  unfold mapSet
  cases hk : mapGet m k with
  | some w =>
    simp only
    rw [mapGet_mapReplace, hk]
    rfl
  | none =>
    simp only
    induction m with
    | nil =>
      by_cases h : k1 = k
      · simp [mapGet, h]
      · have : ¬ k = k1 := fun e => h e.symm
        simp [mapGet, h, this]
    | cons p rest ih =>
      obtain ⟨a, b⟩ := p
      by_cases hak : a = k
      · simp [mapGet, hak] at hk
      · simp only [mapGet, hak, if_false] at hk
        have := ih hk
        by_cases ha1 : a = k1
        · have hne : ¬ k1 = k := fun e => hak (ha1.trans e)
          simp [mapGet, ha1, hne]
        · simp only [List.cons_append, mapGet, ha1, if_false]
          exact this

theorem mapKeys_mapSet_nodup {β : Type} {m : List (String × β)} (h : (mapKeys m).Nodup)
    (k : String) (v : β) : (mapKeys (mapSet m k v)).Nodup := by
  unfold mapSet
  cases hk : mapGet m k with
  | some w =>
    simp only
    rw [mapKeys_mapReplace]
    exact h
  | none =>
    simp only [mapKeys, List.map_append, List.map_cons, List.map_nil]
    rw [List.nodup_append]
    refine ⟨h, by simp, ?_⟩
    intro a ha hb
    simp only [List.mem_singleton] at hb
    subst hb
    obtain ⟨w, hw⟩ := mapGet_isSome_of_mem ha
    rw [hk] at hw
    cases hw

theorem emitChanged_get (outs : List (FlowNode F)) (changed : List (String × Unit))
    (id : String) :
    (∃ u, mapGet (emitChanged outs changed) id = some u) ↔
      (∃ u, mapGet changed id = some u) ∨ ∃ n, n ∈ outs ∧ n.ID = id ∧ n.changed = true := by
  induction outs generalizing changed with
  | nil => simp [emitChanged]
  | cons out rest ih =>
    simp only [emitChanged]
    rw [ih]
    by_cases hc : out.HasChanged = true
    · simp only [hc, if_true, mapGet_mapSet]
      have hc1 : out.changed = true := hc
      constructor
      · rintro (⟨u, hu⟩ | ⟨n, hn, h1, h2⟩)
        · by_cases hid : id = out.ID
          · exact Or.inr ⟨out, List.mem_cons_self _ _, hid.symm, hc1⟩
          · simp only [hid, if_false] at hu
            exact Or.inl ⟨u, hu⟩
        · exact Or.inr ⟨n, List.mem_cons_of_mem _ hn, h1, h2⟩
      · rintro (⟨u, hu⟩ | ⟨n, hn, h1, h2⟩)
        · left
          by_cases hid : id = out.ID
          · exact ⟨(), by simp [hid]⟩
          · exact ⟨u, by simp [hid, hu]⟩
        · rcases List.mem_cons.1 hn with hn | hn
          · subst hn
            exact Or.inl ⟨(), by simp [h1]⟩
          · exact Or.inr ⟨n, hn, h1, h2⟩
    · simp only [hc, if_false]
      have hc1 : ¬ out.changed = true := hc
      constructor
      · rintro (h | ⟨n, hn, h1, h2⟩)
        · exact Or.inl h
        · exact Or.inr ⟨n, List.mem_cons_of_mem _ hn, h1, h2⟩
      · rintro (h | ⟨n, hn, h1, h2⟩)
        · exact Or.inl h
        · rcases List.mem_cons.1 hn with hn | hn
          · subst hn
            exact absurd h2 hc1
          · exact Or.inr ⟨n, hn, h1, h2⟩

theorem emitOutput_nodup (changed : List (String × Unit)) (outs : List (FlowNode F))
    (output : List (String × List (String × Value F))) (h : (mapKeys output).Nodup) :
    (mapKeys (emitOutput changed outs output)).Nodup := by
  induction outs generalizing output with
  | nil => exact h
  | cons out rest ih =>
    simp only [emitOutput]
    cases mapGet changed out.ID with
    | none => exact ih output h
    | some u =>
      simp only
      cases mapGet output out.ID with
      | none => exact ih _ (mapKeys_mapSet_nodup h _ _)
      | some v => exact ih _ (mapKeys_mapSet_nodup h _ _)

theorem emitOutput_exists (changed : List (String × Unit)) (outs : List (FlowNode F))
    (output : List (String × List (String × Value F))) (id : String) :
    (∃ p, mapGet (emitOutput changed outs output) id = some p) ↔
      (∃ p, mapGet output id = some p) ∨
        ((∃ u, mapGet changed id = some u) ∧ ∃ n, n ∈ outs ∧ n.ID = id) := by
  induction outs generalizing output with
  | nil => simp [emitOutput]
  | cons out rest ih =>
    simp only [emitOutput]
    cases hc : mapGet changed out.ID with
    | none =>
      simp only
      rw [ih]
      constructor
      · rintro (h | ⟨hu, n, hn, h1⟩)
        · exact Or.inl h
        · exact Or.inr ⟨hu, n, List.mem_cons_of_mem _ hn, h1⟩
      · rintro (h | ⟨⟨u, hu⟩, n, hn, h1⟩)
        · exact Or.inl h
        · rcases List.mem_cons.1 hn with hn | hn
          · subst hn
            rw [h1, hu] at hc
            cases hc
          · exact Or.inr ⟨⟨u, hu⟩, n, hn, h1⟩
    | some u =>
      simp only
      have key : ∀ v : List (String × Value F),
          ((∃ p, mapGet (emitOutput changed rest
              (mapSet output out.ID (mapSet v out.Name out.ComputedValue))) id = some p) ↔
            (∃ p, mapGet output id = some p) ∨ id = out.ID ∨
              ((∃ u, mapGet changed id = some u) ∧ ∃ n, n ∈ rest ∧ n.ID = id)) := by
        intro v
        rw [ih, mapGet_mapSet]
        by_cases hid : id = out.ID
        · simp [hid]
        · simp [hid]
      have fin : ((∃ p, mapGet output id = some p) ∨ id = out.ID ∨
            ((∃ u, mapGet changed id = some u) ∧ ∃ n, n ∈ rest ∧ n.ID = id)) ↔
          ((∃ p, mapGet output id = some p) ∨
            ((∃ u, mapGet changed id = some u) ∧ ∃ n, n ∈ out :: rest ∧ n.ID = id)) := by
        constructor
        · rintro (h | h | ⟨hu, n, hn, h1⟩)
          · exact Or.inl h
          · exact Or.inr ⟨⟨u, by rw [h]; exact hc⟩, out, List.mem_cons_self _ _, h.symm⟩
          · exact Or.inr ⟨hu, n, List.mem_cons_of_mem _ hn, h1⟩
        · rintro (h | ⟨hu, n, hn, h1⟩)
          · exact Or.inl h
          · rcases List.mem_cons.1 hn with hn | hn
            · subst hn
              exact Or.inr (Or.inl h1.symm)
            · exact Or.inr (Or.inr ⟨hu, n, hn, h1⟩)
      cases mapGet output out.ID with
      | none => exact (key _).trans fin
      | some v => exact (key _).trans fin

theorem emitOutput_fields (changed : List (String × Unit)) (outs : List (FlowNode F))
    (output : List (String × List (String × Value F))) (id : String)
    (hch : ∃ u, mapGet changed id = some u) (p : List (String × Value F))
    (hp : mapGet (emitOutput changed outs output) id = some p) (name : String) :
    mapGet p name = lastValue id name outs
      (match mapGet output id with
        | some q => mapGet q name
        | none => if name = "id" then some (.str id) else none) := by
  induction outs generalizing output with
  | nil =>
    simp only [emitOutput] at hp
    simp only [lastValue, hp]
  | cons out rest ih =>
    simp only [emitOutput] at hp
    simp only [lastValue]
    cases hc : mapGet changed out.ID with
    | none =>
      rw [hc] at hp
      have hne : ¬ out.ID = id := by
        intro e
        obtain ⟨u, hu⟩ := hch
        rw [e, hu] at hc
        cases hc
      simp only [hne, false_and, if_false]
      exact ih output hp
    | some u =>
      rw [hc] at hp
      simp only at hp
      have key : ∀ v : List (String × Value F),
          (match mapGet output out.ID with
            | some q => q
            | none => [("id", .str out.ID)]) = v →
          mapGet (emitOutput changed rest
            (mapSet output out.ID (mapSet v out.Name out.ComputedValue))) id = some p →
          mapGet p name = lastValue id name rest
            (if out.ID = id ∧ out.Name = name then some out.ComputedValue
              else match mapGet output id with
                | some q => mapGet q name
                | none => if name = "id" then some (.str id) else none) := by
        intro v hv hpv
        rw [ih _ hpv, mapGet_mapSet]
        congr 1
        by_cases hid : id = out.ID
        · subst hid
          simp only [if_true, mapGet_mapSet, true_and]
          by_cases hn : name = out.Name
          · simp [hn]
          · have hn1 : ¬ out.Name = name := fun e => hn e.symm
            simp only [hn, hn1, if_false]
            rw [← hv]
            cases mapGet output out.ID with
            | some q => rfl
            | none =>
              simp only [mapGet]
              by_cases h1 : name = "id"
              · simp [h1]
              · have h2 : ¬ "id" = name := fun e => h1 e.symm
                simp [h1, h2]
        · have hid1 : ¬ out.ID = id := fun e => hid e.symm
          simp [hid, hid1]
      cases ho : mapGet output out.ID with
      | none =>
        rw [ho] at hp key
        exact key _ rfl hp
      | some v =>
        rw [ho] at hp key
        exact key _ rfl hp

/-- The map `output` that lines 172 to 194 build: it has a payload for an id exactly
when an output node of that id has changed, one entry for each such id, and in that
payload the field `name` carries the value of the last output node of that id and
that name, changed or not, the field `id` carries the id unless an output node of
that id has the name `id`, and there is no other field. -/
theorem emission_payloads (outs : List (FlowNode F)) (id : String) :
    ((∃ p, mapGet (emission outs) id = some p) ↔
      ∃ n, n ∈ outs ∧ n.ID = id ∧ n.changed = true) ∧
    (mapKeys (emission outs)).Nodup ∧
    ∀ p, mapGet (emission outs) id = some p → ∀ name,
      mapGet p name = lastValue id name outs (if name = "id" then some (.str id) else none) := by
  have hch : (∃ u, mapGet (emitChanged outs []) id = some u) ↔
      ∃ n, n ∈ outs ∧ n.ID = id ∧ n.changed = true := by
    rw [emitChanged_get]
    simp [mapGet]
  refine ⟨?_, emitOutput_nodup _ _ _ (by simp [mapKeys]), ?_⟩
  · unfold emission
    rw [emitOutput_exists, hch]
    constructor
    · rintro (⟨p, hp⟩ | ⟨h, _⟩)
      · simp [mapGet] at hp
      · exact h
    · rintro ⟨n, hn, h1, h2⟩
      exact Or.inr ⟨⟨n, hn, h1, h2⟩, n, hn, h1⟩
  · intro p hp name
    have hex : ∃ p, mapGet (emission outs) id = some p := ⟨p, hp⟩
    have hc2 : ∃ u, mapGet (emitChanged outs []) id = some u := by
      unfold emission at hex
      rw [emitOutput_exists] at hex
      rcases hex with ⟨q, hq⟩ | ⟨h, _⟩
      · simp [mapGet] at hq
      · exact h
    have := emitOutput_fields (emitChanged outs []) outs [] id hc2 p hp name
    simpa [mapGet] using this

/-! ## Coercion of the fields of a message -/

theorem sendLoop_append (E : Env F) (createdAt : Time) (input : List (String × String))
    (pre rest : List (String × Value F)) (g : FlowGraph F) (must : Bool) :
    sendLoop E createdAt input (pre ++ rest) g must =
      match sendLoop E createdAt input pre g must with
      | .ok (g1, m1) => sendLoop E createdAt input rest g1 m1
      | .error e a => .error e a
      | .panic => .panic := by
  induction pre generalizing g must with
  | nil => simp [sendLoop]
  | cons p pre ih =>
    obtain ⟨name, value⟩ := p
    simp only [List.cons_append, sendLoop]
    cases mapGet input name with
    | none => exact ih g must
    | some key =>
      simp only
      cases g.getNode key with
      | none => rfl
      | some node =>
        simp only
        split_ifs
        · exact ih g must
        · cases coerce E name node.Typ value with
          | error e => rfl
          | ok v => exact ih _ true

/-- What `SendInput` does at a field that names an input node of the sensor and is
not rejected as old, after the fields `pre` were processed without error and left
the graph `gp`: it returns the error of the coercion, or stores the value coerced
and goes on with the fields `post`. -/
theorem SendInput_field (E : Env F) (s : Sched) (fuel : Nat) (g : FlowGraph F)
    (aid sid : String) (createdAt : Time) (pre post : List (String × Value F))
    (name : String) (value : Value F) (inputs : List (String × List (String × String)))
    (input : List (String × String)) (hi : g.Inputs = some inputs)
    (hs : mapGet inputs sid = some input) (gp : FlowGraph F) (m : Bool)
    (hpre : sendLoop E createdAt input pre { g with rev := (g.rev + 1) % 2 ^ 64 } false
      = .ok (gp, m))
    (key : String) (node : FlowNode F) (hk : mapGet input name = some key)
    (hn : gp.getNode key = some node)
    (hacc : (createdAt.Before node.lastChanged || createdAt == node.lastChanged) = false) :
    SendInput E s fuel g aid sid createdAt (pre ++ (name, value) :: post) =
      some (match coerce E name node.Typ value with
        | .error e => .error e (gp, false)
        | .ok v =>
          sendLoop E createdAt input post
            (gp.setNode key
              { node with ComputedValue := v, lastChanged := createdAt, rev := gp.rev })
            true) := by
  unfold SendInput lazyBuild
  simp only [hi] at hpre
  simp only [hi, Option.getD_some, hs]
  rw [sendLoop_append, hpre]
  simp only [sendLoop, hk, hn, hacc]
  cases coerce E name node.Typ value with
  | error e => rfl
  | ok v => rfl

theorem accepted_of_newer {createdAt last : Time} (h : last.Before createdAt = true) :
    (createdAt.Before last || createdAt == last) = false := by
  unfold Time.Before at h ⊢
  simp only [decide_eq_true_eq] at h
  have h1 : ¬ createdAt.instant < last.instant := by omega
  have h2 : createdAt ≠ last := by
    intro e
    rw [e] at h
    omega
  simp [h1, h2]

/-- C14, amended: when the fields `pre` were processed without error and left the
graph `gp`, and the next field names an input node of the sensor, is not rejected
as old by the test of line 363, and has a value that cannot be coerced to the type
the node declares, `SendInput` returns `(false, err)` and leaves the graph `gp`:
the updates of the earlier fields, and no change by the failing field or by a later
one. -/
theorem SendInput_coercion_error (E : Env F) (s : Sched) (fuel : Nat) (g : FlowGraph F)
    (aid sid : String) (createdAt : Time) (pre post : List (String × Value F))
    (name : String) (value : Value F) (inputs : List (String × List (String × String)))
    (input : List (String × String)) (hi : g.Inputs = some inputs)
    (hs : mapGet inputs sid = some input) (gp : FlowGraph F) (m : Bool)
    (hpre : sendLoop E createdAt input pre { g with rev := (g.rev + 1) % 2 ^ 64 } false
      = .ok (gp, m))
    (key : String) (node : FlowNode F) (hk : mapGet input name = some key)
    (hn : gp.getNode key = some node)
    (hacc : (createdAt.Before node.lastChanged || createdAt == node.lastChanged) = false)
    (e : String) (hco : coerce E name node.Typ value = .error e) :
    SendInput E s fuel g aid sid createdAt (pre ++ (name, value) :: post)
      = some (.error e (gp, false)) := by
  rw [SendInput_field E s fuel g aid sid createdAt pre post name value inputs input hi hs gp m
    hpre key node hk hn hacc, hco]

theorem SendInput_coercion_error_witness :
    notBuilt.Inputs = some [("s1", [("x", "in")])] ∧
    mapGet [("s1", [("x", "in")])] "s1" = some [("x", "in")] ∧
    sendLoop demoEnv timeUTC [("x", "in")] [] { notBuilt with rev := (notBuilt.rev + 1) % 2 ^ 64 }
      false = .ok ({ notBuilt with rev := (notBuilt.rev + 1) % 2 ^ 64 }, false) ∧
    mapGet [("x", "in")] "x" = some "in" ∧
    FlowGraph.getNode { notBuilt with rev := (notBuilt.rev + 1) % 2 ^ 64 } "in" = some notInput ∧
    (timeUTC.Before notInput.lastChanged || timeUTC == notInput.lastChanged) = false ∧
    coerce demoEnv "x" notInput.Typ (.int 7)
      = .error "in node 'x' input wanted string, got int" ∧
    SendInput demoEnv (demoSched []) 0 notBuilt "acc" "s1" timeUTC ([] ++ ("x", .int 7) :: [])
      = some (.error "in node 'x' input wanted string, got int"
          ({ notBuilt with rev := (notBuilt.rev + 1) % 2 ^ 64 }, false)) :=
  ⟨rfl, by decide, rfl, by decide, by decide, by decide, by rfl,
    SendInput_coercion_error demoEnv (demoSched []) 0 notBuilt "acc" "s1" timeUTC [] []
      "x" (.int 7) [("s1", [("x", "in")])] [("x", "in")] rfl (by decide)
      { notBuilt with rev := (notBuilt.rev + 1) % 2 ^ 64 } false rfl "in" notInput
      (by decide) (by decide) (by decide) "in node 'x' input wanted string, got int"
      (by rfl)⟩

/-- C14 as stated fails on a message that is older than what the node holds: after
`x = true` was accepted at the instant 5, the field `x = 7` (an `int`, which cannot
be coerced to `bool`) sent at the instant 3 is the first field whose value cannot
be coerced, and `SendInput` returns `(false, nil)`: the field is dropped by the test
of line 363 before any coercion. -/
theorem SendInput_coercion_counterexample :
    (∃ e, coerce demoEnv "x" "bool" (.int 7) = .error e) ∧
    ∃ g1, SendInput demoEnv (demoSched []) 0 (demoSend notBuilt timeUTC [("x", .bool true)])
      "acc" "s1" timeEarly [("x", .int 7)] = some (.ok (g1, false)) :=
  ⟨⟨"in node 'x' input wanted string, got int", by rfl⟩,
    demoSend (demoSend notBuilt timeUTC [("x", .bool true)]) timeEarly [("x", .int 7)],
    by decide⟩

/-- C15: at a field that names an input node declared `float`, in a message newer
than the `lastChanged` of the node, after the fields `pre` were processed without
error: a `float64` is stored as it is, an `int` is stored converted, a string is
stored as the `float64` it parses to, a string that does not parse makes
`SendInput` return an error, and so does a value of any other dynamic type. -/
theorem SendInput_float (E : Env F) (s : Sched) (fuel : Nat) (g : FlowGraph F)
    (aid sid : String) (createdAt : Time) (pre post : List (String × Value F))
    (name : String) (value : Value F) (inputs : List (String × List (String × String)))
    (input : List (String × String)) (hi : g.Inputs = some inputs)
    (hs : mapGet inputs sid = some input) (gp : FlowGraph F) (m : Bool)
    (hpre : sendLoop E createdAt input pre { g with rev := (g.rev + 1) % 2 ^ 64 } false
      = .ok (gp, m))
    (key : String) (node : FlowNode F) (hk : mapGet input name = some key)
    (hn : gp.getNode key = some node) (htyp : node.Typ = "float")
    (hnew : node.lastChanged.Before createdAt = true) :
    (∀ x, value = .float x →
      SendInput E s fuel g aid sid createdAt (pre ++ (name, value) :: post) =
        some (sendLoop E createdAt input post
          (gp.setNode key
            { node with ComputedValue := .float x, lastChanged := createdAt, rev := gp.rev })
          true)) ∧
    (∀ n, value = .int n →
      SendInput E s fuel g aid sid createdAt (pre ++ (name, value) :: post) =
        some (sendLoop E createdAt input post
          (gp.setNode key
            { node with ComputedValue := .float (E.ofInt n), lastChanged := createdAt,
                        rev := gp.rev })
          true)) ∧
    (∀ str x, value = .str str → E.parseFloat str = .ok x →
      SendInput E s fuel g aid sid createdAt (pre ++ (name, value) :: post) =
        some (sendLoop E createdAt input post
          (gp.setNode key
            { node with ComputedValue := .float x, lastChanged := createdAt, rev := gp.rev })
          true)) ∧
    (∀ str err, value = .str str → E.parseFloat str = .error err →
      SendInput E s fuel g aid sid createdAt (pre ++ (name, value) :: post) =
        some (.error ("in node '" ++ name ++ "' input wanted float: " ++ err) (gp, false))) ∧
    ((∀ x, value ≠ .float x) → (∀ n, value ≠ .int n) → (∀ str, value ≠ .str str) →
      ∃ e, SendInput E s fuel g aid sid createdAt (pre ++ (name, value) :: post) =
        some (.error e (gp, false))) := by
  have hf := SendInput_field E s fuel g aid sid createdAt pre post name value inputs input hi hs
    gp m hpre key node hk hn (accepted_of_newer hnew)
  refine ⟨?_, ?_, ?_, ?_, ?_⟩
  · intro x hx
    have hco : coerce E name node.Typ value = .ok (.float x) := by rw [htyp, hx]; rfl
    rw [hf, hco]
  · intro n hx
    have hco : coerce E name node.Typ value = .ok (.float (E.ofInt n)) := by
      rw [htyp, hx]; rfl
    rw [hf, hco]
  · intro str x hx hp
    have hco : coerce E name node.Typ value = .ok (.float x) := by
      rw [htyp, hx]; simp [coerce, hp]
    rw [hf, hco]
  · intro str err hx hp
    have hco : coerce E name node.Typ value
        = .error ("in node '" ++ name ++ "' input wanted float: " ++ err) := by
      rw [htyp, hx]; simp [coerce, hp]
    rw [hf, hco]
  · intro h1 h2 h3
    have hco : ∃ e, coerce E name node.Typ value = .error e := by
      rw [htyp]
      cases value with
      | float x => exact absurd rfl (h1 x)
      | int n => exact absurd rfl (h2 n)
      | str str => exact absurd rfl (h3 str)
      | nil => exact ⟨_, rfl⟩
      | bool b => exact ⟨_, rfl⟩
      | slice r => exact ⟨_, rfl⟩
      | dict r => exact ⟨_, rfl⟩
    obtain ⟨e, he⟩ := hco
    exact ⟨e, by rw [hf, he]⟩

theorem nanBuilt_eq :
    Build decEnv (demoSched ["x", "out"]) 2 nanGraph = some (.ok nanBuilt) := by rfl

theorem SendInput_float_witness :
    nanBuilt.Inputs = some [("s1", [("x", "x")])] ∧
    mapGet [("s1", [("x", "x")])] "s1" = some [("x", "x")] ∧
    mapGet [("x", "x")] "x" = some "x" ∧
    FlowGraph.getNode { nanBuilt with rev := (nanBuilt.rev + 1) % 2 ^ 64 } "x" = some nanInput ∧
    nanInput.Typ = "float" ∧ nanInput.lastChanged.Before (unixTime 1) = true ∧
    SendInput decEnv (demoSched []) 0 nanBuilt "acc" "s1" (unixTime 1) ([] ++ ("x", .int 2) :: [])
      = some (.ok (FlowGraph.setNode { nanBuilt with rev := (nanBuilt.rev + 1) % 2 ^ 64 } "x"
          { nanInput with ComputedValue := .float (some 2000000000),
                          lastChanged := unixTime 1, rev := 1 }, true)) :=
  ⟨by rfl, by decide, by decide, by rfl, by decide, by decide,
    (SendInput_float decEnv (demoSched []) 0 nanBuilt "acc" "s1" (unixTime 1) [] [] "x" (.int 2)
      [("s1", [("x", "x")])] [("x", "x")] (by rfl) (by decide)
      { nanBuilt with rev := (nanBuilt.rev + 1) % 2 ^ 64 } false rfl "x" nanInput
      (by decide) (by rfl) (by decide) (by decide)).2.1 2 rfl⟩

/-- The strings that `strconv.ParseBool` reads as true. -/
theorem parseBool_true (str : String) :
    parseBool str = some true ↔ str ∈ ["1", "t", "T", "TRUE", "true", "True"] := by
  unfold parseBool
  simp only [List.mem_cons, List.mem_singleton, List.not_mem_nil, or_false]
  constructor
  · intro h
    split_ifs at h <;> first | assumption | cases h
  · intro h
    rw [if_pos h]

/-- The strings that `strconv.ParseBool` reads as false. -/
theorem parseBool_false (str : String) :
    parseBool str = some false ↔ str ∈ ["0", "f", "F", "FALSE", "false", "False"] := by
  unfold parseBool
  simp only [List.mem_cons, List.mem_singleton, List.not_mem_nil, or_false]
  constructor
  · intro h
    split_ifs at h <;> first | assumption | cases h
  · intro h
    have h1 : ¬ (str = "1" ∨ str = "t" ∨ str = "T" ∨ str = "TRUE" ∨ str = "true"
        ∨ str = "True") := by
      rcases h with h | h | h | h | h | h <;> (subst h; decide)
    rw [if_neg h1, if_pos h]

theorem parseBool_none (str : String)
    (h1 : str ∉ ["1", "t", "T", "TRUE", "true", "True"])
    (h2 : str ∉ ["0", "f", "F", "FALSE", "false", "False"]) : parseBool str = none := by
  cases h : parseBool str with
  | none => rfl
  | some b =>
    cases b with
    | true => exact absurd ((parseBool_true str).1 h) h1
    | false => exact absurd ((parseBool_false str).1 h) h2

/-- C16, amended: at a field that names an input node declared `bool`, in a message
newer than the `lastChanged` of the node, after the fields `pre` were processed
without error: a `bool` is stored as it is; the strings `1`, `t`, `T`, `TRUE`,
`true`, `True` store true and the strings `0`, `f`, `F`, `FALSE`, `false`, `False`
store false, as `strconv.ParseBool` reads them; every other string makes
`SendInput` return an error, and so does every value that is neither a `bool` nor
a string. -/
theorem SendInput_bool (E : Env F) (s : Sched) (fuel : Nat) (g : FlowGraph F)
    (aid sid : String) (createdAt : Time) (pre post : List (String × Value F))
    (name : String) (value : Value F) (inputs : List (String × List (String × String)))
    (input : List (String × String)) (hi : g.Inputs = some inputs)
    (hs : mapGet inputs sid = some input) (gp : FlowGraph F) (m : Bool)
    (hpre : sendLoop E createdAt input pre { g with rev := (g.rev + 1) % 2 ^ 64 } false
      = .ok (gp, m))
    (key : String) (node : FlowNode F) (hk : mapGet input name = some key)
    (hn : gp.getNode key = some node) (htyp : node.Typ = "bool")
    (hnew : node.lastChanged.Before createdAt = true) :
    (∀ b, value = .bool b →
      SendInput E s fuel g aid sid createdAt (pre ++ (name, value) :: post) =
        some (sendLoop E createdAt input post
          (gp.setNode key
            { node with ComputedValue := .bool b, lastChanged := createdAt, rev := gp.rev })
          true)) ∧
    (∀ str, value = .str str → str ∈ ["1", "t", "T", "TRUE", "true", "True"] →
      SendInput E s fuel g aid sid createdAt (pre ++ (name, value) :: post) =
        some (sendLoop E createdAt input post
          (gp.setNode key
            { node with ComputedValue := .bool true, lastChanged := createdAt, rev := gp.rev })
          true)) ∧
    (∀ str, value = .str str → str ∈ ["0", "f", "F", "FALSE", "false", "False"] →
      SendInput E s fuel g aid sid createdAt (pre ++ (name, value) :: post) =
        some (sendLoop E createdAt input post
          (gp.setNode key
            { node with ComputedValue := .bool false, lastChanged := createdAt, rev := gp.rev })
          true)) ∧
    (∀ str, value = .str str → str ∉ ["1", "t", "T", "TRUE", "true", "True"] →
      str ∉ ["0", "f", "F", "FALSE", "false", "False"] →
      ∃ e, SendInput E s fuel g aid sid createdAt (pre ++ (name, value) :: post) =
        some (.error e (gp, false))) ∧
    ((∀ b, value ≠ .bool b) → (∀ str, value ≠ .str str) →
      ∃ e, SendInput E s fuel g aid sid createdAt (pre ++ (name, value) :: post) =
        some (.error e (gp, false))) := by
  have hf := SendInput_field E s fuel g aid sid createdAt pre post name value inputs input hi hs
    gp m hpre key node hk hn (accepted_of_newer hnew)
  have hstr : ∀ str b, value = .str str → parseBool str = some b →
      coerce E name node.Typ value = .ok (.bool b) := by
    intro str b hx hp
    rw [htyp, hx]
    simp [coerce, hp]
  refine ⟨?_, ?_, ?_, ?_, ?_⟩
  · intro b hx
    have hco : coerce E name node.Typ value = .ok (.bool b) := by rw [htyp, hx]; rfl
    rw [hf, hco]
  · intro str hx hmem
    rw [hf, hstr str true hx ((parseBool_true str).2 hmem)]
  · intro str hx hmem
    rw [hf, hstr str false hx ((parseBool_false str).2 hmem)]
  · intro str hx h1 h2
    have hco : ∃ e, coerce E name node.Typ value = .error e := by
      rw [htyp, hx]
      exact ⟨"in node '" ++ name ++ "' input wanted float: strconv.ParseBool: parsing "
        ++ E.quote str ++ ": invalid syntax", by simp [coerce, parseBool_none str h1 h2]⟩
    obtain ⟨e, he⟩ := hco
    exact ⟨e, by rw [hf, he]⟩
  · intro h1 h2
    have hco : ∃ e, coerce E name node.Typ value = .error e := by
      rw [htyp]
      cases value with
      | bool b => exact absurd rfl (h1 b)
      | str str => exact absurd rfl (h2 str)
      | nil => exact ⟨_, rfl⟩
      | float x => exact ⟨_, rfl⟩
      | int n => exact ⟨_, rfl⟩
      | slice r => exact ⟨_, rfl⟩
      | dict r => exact ⟨_, rfl⟩
    obtain ⟨e, he⟩ := hco
    exact ⟨e, by rw [hf, he]⟩

theorem SendInput_bool_witness :
    notBuilt.Inputs = some [("s1", [("x", "in")])] ∧
    mapGet [("s1", [("x", "in")])] "s1" = some [("x", "in")] ∧
    mapGet [("x", "in")] "x" = some "in" ∧
    FlowGraph.getNode { notBuilt with rev := (notBuilt.rev + 1) % 2 ^ 64 } "in" = some notInput ∧
    notInput.Typ = "bool" ∧ notInput.lastChanged.Before timeUTC = true ∧
    SendInput demoEnv (demoSched []) 0 notBuilt "acc" "s1" timeUTC ([] ++ ("x", .str "T") :: [])
      = some (.ok (FlowGraph.setNode { notBuilt with rev := (notBuilt.rev + 1) % 2 ^ 64 } "in"
          { notInput with ComputedValue := .bool true, lastChanged := timeUTC, rev := 1 },
          true)) :=
  ⟨rfl, by decide, by decide, by decide, by decide, by decide,
    (SendInput_bool demoEnv (demoSched []) 0 notBuilt "acc" "s1" timeUTC [] [] "x" (.str "T")
      [("s1", [("x", "in")])] [("x", "in")] rfl (by decide)
      { notBuilt with rev := (notBuilt.rev + 1) % 2 ^ 64 } false rfl "in" notInput
      (by decide) (by decide) (by decide) (by decide)).2.1 "T" rfl (by decide)⟩

/-- C16 as stated fails at the string `1`, which is neither `true` nor `false`:
`strconv.ParseBool` reads it as true, so `SendInput` returns no error and stores
true in the input node. -/
theorem SendInput_bool_counterexample :
    ∃ g1 n, SendInput demoEnv (demoSched []) 0 notBuilt "acc" "s1" timeUTC [("x", .str "1")]
        = some (.ok (g1, true)) ∧
      g1.getNode "in" = some n ∧ n.Typ = "bool" ∧ n.ComputedValue = .bool true :=
  ⟨demoSend notBuilt timeUTC [("x", .str "1")],
    { notInput with ComputedValue := .bool true, lastChanged := timeUTC, rev := 1 },
    by decide, by decide, by decide, by decide⟩

/-! ## The operators select, eq and ne -/

theorem selectLoop_skip (E : Env F) (x : F) (values : List String) (i : Nat) (cond : String)
    (conds : List String) (h : (splitColon cond).length ≠ 2) :
    selectLoop E x values i (cond :: conds) = selectLoop E x values (i + 1) conds := by
  rw [selectLoop]
  rcases hs : splitColon cond with _ | ⟨a, _ | ⟨b, _ | ⟨c, r⟩⟩⟩
  · rfl
  · rfl
  · rw [hs] at h
    simp at h
  · rfl

theorem selectLoop_pass (E : Env F) (x : F) (values : List String) (i : Nat) (cond : String)
    (conds : List String) (h : passedOver E x cond) :
    selectLoop E x values i (cond :: conds) = selectLoop E x values (i + 1) conds := by
  rcases h with h | ⟨lo, hi, mn, mx, hs, h1, h2, h3⟩
  · exact selectLoop_skip E x values i cond conds h
  · rw [selectLoop, hs]
    simp only [h1, h2, h3]
    rfl

theorem selectLoop_match (E : Env F) (x : F) (values : List String) (i : Nat) (cond : String)
    (conds : List String) (h : inRange E x cond) :
    selectLoop E x values i (cond :: conds) = values.get? i := by
  obtain ⟨lo, hi, mn, mx, hs, h1, h2, h3⟩ := h
  rw [selectLoop, hs]
  simp only [h1, h2, h3]
  rfl

theorem selectLoop_first (E : Env F) (x : F) (values : List String) (i : Nat)
    (pre : List String) (cond : String) (post : List String)
    (hpre : ∀ c, c ∈ pre → passedOver E x c) (h : inRange E x cond) :
    selectLoop E x values i (pre ++ cond :: post) = values.get? (i + pre.length) := by
  induction pre generalizing i with
  | nil => simpa using selectLoop_match E x values i cond post h
  | cons c pre ih =>
    rw [List.cons_append, selectLoop_pass E x values i c _ (hpre c (List.mem_cons_self _ _)),
      ih (i + 1) (fun d hd => hpre d (List.mem_cons_of_mem _ hd))]
    congr 1
    simp only [List.length_cons]
    omega

theorem selectLoop_none (E : Env F) (x : F) (values : List String) (i : Nat)
    (conds : List String) (h : ∀ c, c ∈ conds → passedOver E x c) :
    selectLoop E x values i conds = none := by
  induction conds generalizing i with
  | nil => rfl
  | cons c conds ih =>
    rw [selectLoop_pass E x values i c _ (h c (List.mem_cons_self _ _))]
    exact ih (i + 1) (fun d hd => h d (List.mem_cons_of_mem _ hd))

/-- C17, amended: for a `select` node whose first input is the float `x`: an entry
of `Condition` that does not split in two parts on the colon is skipped; when the
entries before the first range `lo:hi` with `lo <= x <= hi` are skipped or are
ranges with bounds that parse and that do not hold `x`, the value of the node
becomes the entry of `Values` at the index of that range, and evaluation panics
when `Values` has no such entry; and when every entry is passed over in that way,
evaluation panics. -/
theorem select_first_range (E : Env F) (node : FlowNode F) (x : F) (more : List (Value F)) :
    (∀ values i cond conds, (splitColon cond).length ≠ 2 →
      selectLoop E x values i (cond :: conds) = selectLoop E x values (i + 1) conds) ∧
    (∀ pre cond post, node.Condition = pre ++ cond :: post →
      (∀ c, c ∈ pre → passedOver E x c) → inRange E x cond →
      Fn E .select node (.float x :: more) =
        (node.Values.get? pre.length).map (fun v => { node with ComputedValue := .str v })) ∧
    ((∀ c, c ∈ node.Condition → passedOver E x c) →
      Fn E .select node (.float x :: more) = none) := by
  refine ⟨fun values i cond conds h => selectLoop_skip E x values i cond conds h, ?_, ?_⟩
  · intro pre cond post hc hpre hin
    unfold Fn
    simp only [asFloat]
    rw [hc, selectLoop_first E x node.Values 0 pre cond post hpre hin]
    simp
  · intro h
    unfold Fn
    simp only [asFloat]
    rw [selectLoop_none E x node.Values 0 node.Condition h]
    rfl

/-- C17 as stated fails on `badSelect`, with the ranges `a:b` and `0:1` and the
input 0.5: the entry `a:b` splits in two parts, so it is not skipped, and it holds
no `x`; the smallest index of a range that holds 0.5 is that of `0:1`; yet the
evaluation panics at the bound `a`, and the value does not become `w`. -/
theorem select_counterexample :
    (splitColon "a:b").length = 2 ∧ ¬ inRange decEnv (milli 500) "a:b" ∧
    inRange decEnv (milli 500) "0:1" ∧
    badSelect.Condition = ["a:b", "0:1"] ∧ badSelect.Values.get? 1 = some "w" ∧
    Fn decEnv .select badSelect [.float (milli 500)] = none := by
  refine ⟨by decide, ?_, ⟨"0", "1", some 0, some 1000000000, by decide, by rfl, by rfl,
    by decide⟩, by decide, by decide, by rfl⟩
  rintro ⟨lo, hi, mn, mx, hs, h1, _⟩
  have hsp : splitColon "a:b" = ["a", "b"] := by decide
  rw [hsp] at hs
  simp only [List.cons.injEq, and_true] at hs
  obtain ⟨rfl, _⟩ := hs
  have : decEnv.parseFloat "a" = .error "strconv.ParseFloat: invalid syntax" := by rfl
  rw [this] at h1
  cases h1

/-- C18, amended: on the floats `a` and `b`, `eq` yields `|a-b| < 1e-9` and `ne`
yields `|a-b| > 1e-9`; in the order of `float64` the two are never both true, and
both are false exactly when `|a-b|` is `==` to `1e-9` or is NaN. -/
theorem eq_ne_threshold (E : Env F) (ho : FloatOrder E) (heps : E.feq E.eps E.eps = true)
    (node : FlowNode F) (a b : F) (more : List (Value F)) :
    Fn E .eq node (.float a :: .float b :: more)
      = some { node with ComputedValue := .bool (E.lt (E.abs (E.sub a b)) E.eps) } ∧
    Fn E .ne node (.float a :: .float b :: more)
      = some { node with ComputedValue := .bool (E.gt (E.abs (E.sub a b)) E.eps) } ∧
    ¬ (E.lt (E.abs (E.sub a b)) E.eps = true ∧ E.gt (E.abs (E.sub a b)) E.eps = true) ∧
    ((E.lt (E.abs (E.sub a b)) E.eps = false ∧ E.gt (E.abs (E.sub a b)) E.eps = false) ↔
      (E.feq (E.abs (E.sub a b)) E.eps = true ∨
        E.feq (E.abs (E.sub a b)) (E.abs (E.sub a b)) = false)) := by
  obtain ⟨h1, h2⟩ := ho (E.abs (E.sub a b)) E.eps
  refine ⟨rfl, rfl, h1, ?_⟩
  rw [h2]
  constructor
  · rintro (h | h | h)
    · exact Or.inl h
    · exact Or.inr h
    · rw [heps] at h
      cases h
  · rintro (h | h)
    · exact Or.inl h
    · exact Or.inr (Or.inl h)

theorem decEnv_order : FloatOrder decEnv := by
  intro x y
  cases x with
  | none => cases y <;> simp [decEnv]
  | some x =>
    cases y with
    | none => simp [decEnv]
    | some y =>
      simp only [decEnv]
      rcases lt_trichotomy x y with h | h | h
      · have h1 : ¬ x > y := by omega
        have h2 : ¬ x = y := by omega
        simp [h, h1, h2]
      · subst h
        simp
      · have h1 : ¬ x < y := by omega
        have h2 : ¬ x = y := by omega
        simp [h, h1, h2]

theorem eq_ne_threshold_witness :
    FloatOrder decEnv ∧ decEnv.feq decEnv.eps decEnv.eps = true ∧
    Fn decEnv .eq badSelect [.float (milli 1), .float (milli 1)]
      = some { badSelect with ComputedValue := .bool true } :=
  ⟨decEnv_order, by decide,
    (eq_ne_threshold decEnv decEnv_order (by decide) badSelect (milli 1) (milli 1) []).1⟩

/-- C18 as stated fails when `a` is NaN: `eq` and `ne` are both false, and `|a-b|`
is not `==` to `1e-9`. -/
theorem eq_ne_counterexample :
    Fn decEnv .eq badSelect [.float none, .float (some 0)]
      = some { badSelect with ComputedValue := .bool false } ∧
    Fn decEnv .ne badSelect [.float none, .float (some 0)]
      = some { badSelect with ComputedValue := .bool false } ∧
    decEnv.feq (decEnv.abs (decEnv.sub none (some 0))) decEnv.eps = false :=
  ⟨by rfl, by rfl, by rfl⟩

/-! ## A second Build, and a send node without id -/

theorem orderScan_all_placed {g : FlowGraph F}
    (h : ∀ k n, g.getNode k = some n → n.rev ≠ 0) (ks : List String) :
    orderScan ks g = some g := by
  induction ks with
  | nil => rfl
  | cons k ks ih =>
    simp only [orderScan]
    cases hk : g.getNode k with
    | none => exact ih
    | some node =>
      simp only [h k node hk, ne_eq, not_false_eq_true, if_true]
      exact ih

theorem orderLoop_all_placed (pass : Nat → List String) (fuel i : Nat) {g : FlowGraph F}
    (h : ∀ k n, g.getNode k = some n → n.rev ≠ 0) (hn : g.Nodes = []) (hfl : g.Flow ≠ []) :
    orderLoop pass fuel i g = none := by
  have hlt : g.Nodes.length < g.Flow.length := by
    rw [hn]
    exact List.length_pos.2 hfl
  induction fuel generalizing i with
  | zero => simp [orderLoop, hlt]
  | succ fuel ih =>
    simp only [orderLoop, hlt, if_true, orderScan_all_placed h]
    exact ih (i + 1)

/-- On a graph of which every node has a `rev` that is not zero, as after a `Build`
or a `SendInput`, a `Build` that passes the two validation loops never ends: the
ordering loop places no node. -/
theorem Build_again_none (E : Env F) (s : Sched) (g : FlowGraph F)
    (hrev : ∀ k n, g.getNode k = some n → n.rev ≠ 0) (hfl : g.Flow ≠ [])
    (hv1 : (scanFirst E s.first { g with Inputs := some [], Hooks := [] }).2 = none)
    (hv2 : (scanSecond s.second
      (scanFirst E s.first { g with Inputs := some [], Hooks := [] }).1).2 = none)
    (fuel : Nat) : Build E s fuel g = none := by
  unfold Build
  rcases h1 : scanFirst E s.first { g with Inputs := some [], Hooks := [] } with ⟨ga, e1⟩
  rw [h1] at hv1 hv2
  simp only at hv1 hv2
  subst hv1
  simp only
  rcases h2 : scanSecond s.second ga with ⟨gb, e2⟩
  rw [h2] at hv2
  simp only at hv2
  subst hv2
  simp only
  have f1 := (scanFirst_frame E s.first { g with Inputs := some [], Hooks := [] }).1
  rw [h1] at f1
  have f2 := mapVals_eraseBuilt_of_eraseWiring (scanSecond_frame s.second ga).1
  rw [h2] at f2
  have f : mapVals eraseBuilt gb.Flow = mapVals eraseBuilt g.Flow := f2.trans f1
  apply orderLoop_all_placed
  · intro k n hk
    obtain ⟨n0, hn0, he⟩ := getNode_of_mapVals (g := { g with Inputs := some [], Hooks := [] })
      f hk
    rw [← (eraseBuilt_fields he).2.2.2.1]
    exact hrev k n0 hn0
  · rfl
  · intro hnil
    have hlen := length_eq_of_mapVals eraseBuilt f
    have hnil1 : gb.Flow = [] := hnil
    rw [hnil1] at hlen
    exact hfl (List.length_eq_zero.1 hlen.symm)

/-- C19 at the graph `notBuilt`, which a first `Build` of `notGraph` left without
error: whatever number of scans the ordering loop is allowed, a second `Build` has
not returned, because `rev` is 1 in every node and the loop places no node. -/
theorem Build_twice_diverges :
    Build demoEnv (demoSched ["out", "n", "in"]) 3 notGraph = some (.ok notBuilt) ∧
    ∀ fuel, Build demoEnv (demoSched ["out", "n", "in"]) fuel notBuilt = none := by
  refine ⟨notGraph_build, ?_⟩
  apply Build_again_none
  · intro k n hk
    have hmem := mem_of_mapGet hk
    have hall : ∀ p ∈ notBuilt.Flow, p.2.rev ≠ 0 := by decide
    exact hall (k, n) hmem
  · decide
  · decide
  · decide

/-- C20 at the graph `sendGraph`, one `send` node with a URL and an empty id:
`Build` fails, and the error is that of the parsing of the id as a UUID, not
`missing id in node 'w'`. -/
theorem Build_send_without_id :
    (∃ n, sendGraph.getNode "w" = some n ∧ n.Operator = "send" ∧ n.ID = "") ∧
    ∃ g1, Build demoEnv (demoSched ["w"]) 0 sendGraph
        = some (.error "error in 'w' sensor id: uuid: incorrect UUID length" g1) ∧
      "error in 'w' sensor id: uuid: incorrect UUID length" ≠ "missing id in node 'w'" :=
  ⟨⟨{ demoNode "send" [] "" "" "" with Values := ["http://localhost:2030"] },
      by decide, by decide, by decide⟩,
    { sendGraph with Inputs := some [], Hooks := [] },
    by decide, by decide⟩

theorem select_first_range_witness :
    rawSelect.Condition = ["0:.1"] ++ ".1:.3" :: [".3:.6", ".6:1"] ∧
    (∀ c, c ∈ ["0:.1"] → passedOver decEnv (milli 250) c) ∧
    inRange decEnv (milli 250) ".1:.3" ∧
    Fn decEnv .select rawSelect [.float (milli 250)]
      = (rawSelect.Values.get? ["0:.1"].length).map
          (fun v => { rawSelect with ComputedValue := .str v }) :=
  have hpre : ∀ c, c ∈ ["0:.1"] → passedOver decEnv (milli 250) c := by
    intro c hc
    simp only [List.mem_singleton] at hc
    subst hc
    exact Or.inr ⟨"0", ".1", some 0, milli 100, by decide, by rfl, by rfl, by decide⟩
  have hin : inRange decEnv (milli 250) ".1:.3" :=
    ⟨".1", ".3", milli 100, milli 300, by decide, by rfl, by rfl, by decide⟩
  ⟨rfl, hpre, hin,
    (select_first_range decEnv rawSelect (milli 250) []).2.1 ["0:.1"] ".1:.3" [".3:.6", ".6:1"]
      rfl hpre hin⟩

/-! ## Frames of the calls on a built graph -/

theorem sendLoop_frame {E : Env F} {t : Time} {input : List (String × String)}
    {data : List (String × Value F)} {g : FlowGraph F} {must : Bool} {g1 : FlowGraph F}
    {b : Bool} (h : (sendLoop E t input data g must).state = some (g1, b)) :
    mapVals eraseState g1.Flow = mapVals eraseState g.Flow ∧ g1.Inputs = g.Inputs ∧
      g1.Outputs = g.Outputs ∧ g1.Nodes = g.Nodes ∧ g1.Hooks = g.Hooks ∧ g1.rev = g.rev := by
  induction data generalizing g must with
  | nil =>
    simp only [sendLoop, Result.state, Option.some.injEq, Prod.mk.injEq] at h
    obtain ⟨rfl, _⟩ := h
    exact ⟨rfl, rfl, rfl, rfl, rfl, rfl⟩
  | cons p rest ih =>
    obtain ⟨name, value⟩ := p
    simp only [sendLoop] at h
    cases hk : mapGet input name with
    | none =>
      rw [hk] at h
      exact ih h
    | some key =>
      rw [hk] at h
      simp only at h
      cases hn : g.getNode key with
      | none =>
        rw [hn] at h
        simp [Result.state] at h
      | some node =>
        rw [hn] at h
        simp only at h
        by_cases hrej : (t.Before node.lastChanged || t == node.lastChanged) = true
        · rw [if_pos hrej] at h
          exact ih h
        · rw [if_neg hrej] at h
          cases hc : coerce E name node.Typ value with
          | error e =>
            rw [hc] at h
            simp only [Result.state, Option.some.injEq, Prod.mk.injEq] at h
            obtain ⟨rfl, _⟩ := h
            exact ⟨rfl, rfl, rfl, rfl, rfl, rfl⟩
          | ok v =>
            rw [hc] at h
            simp only at h
            obtain ⟨f1, f2, f3, f4, f5, f6⟩ := ih h
            refine ⟨f1.trans ?_, f2, f3, f4, f5, f6⟩
            exact mapVals_mapReplace eraseState g.Flow key _ node hn (by simp [eraseState])

theorem sendLoop_nodes {E : Env F} {t : Time} {input : List (String × String)}
    {data : List (String × Value F)} {g : FlowGraph F} {must : Bool} {g1 : FlowGraph F}
    {b : Bool} (h : (sendLoop E t input data g must).state = some (g1, b)) :
    ∀ k n1, g1.getNode k = some n1 →
      g.getNode k = some n1 ∨ (n1.rev = g.rev ∧ n1.lastChanged = t) := by
  induction data generalizing g must with
  | nil =>
    simp only [sendLoop, Result.state, Option.some.injEq, Prod.mk.injEq] at h
    obtain ⟨rfl, _⟩ := h
    intro k n1 hk
    exact Or.inl hk
  | cons p rest ih =>
    obtain ⟨name, value⟩ := p
    simp only [sendLoop] at h
    cases hk : mapGet input name with
    | none =>
      rw [hk] at h
      exact ih h
    | some key =>
      rw [hk] at h
      simp only at h
      cases hn : g.getNode key with
      | none =>
        rw [hn] at h
        simp [Result.state] at h
      | some node =>
        rw [hn] at h
        simp only at h
        by_cases hrej : (t.Before node.lastChanged || t == node.lastChanged) = true
        · rw [if_pos hrej] at h
          exact ih h
        · rw [if_neg hrej] at h
          cases hc : coerce E name node.Typ value with
          | error e =>
            rw [hc] at h
            simp only [Result.state, Option.some.injEq, Prod.mk.injEq] at h
            obtain ⟨rfl, _⟩ := h
            intro k n1 hk
            exact Or.inl hk
          | ok v =>
            rw [hc] at h
            simp only at h
            intro k n1 hk1
            rcases ih h k n1 hk1 with h1 | h1
            · have hn1 : mapGet g.Flow key = some node := hn
              simp only [FlowGraph.getNode, FlowGraph.setNode, mapGet_mapReplace] at h1
              by_cases hkk : k = key
              · right
                rw [if_pos hkk, hn1] at h1
                simp only [Option.map_some', Option.some.injEq] at h1
                subst h1
                exact ⟨rfl, rfl⟩
              · left
                rw [if_neg hkk] at h1
                exact h1
            · exact Or.inr h1

theorem SendInput_built {E : Env F} {s : Sched} {fuel : Nat} {g : FlowGraph F}
    {inp : List (String × List (String × String))} (hi : g.Inputs = some inp)
    (aid sid : String) (t : Time) (data : List (String × Value F)) :
    SendInput E s fuel g aid sid t data =
      match mapGet inp sid with
      | none => some (.ok (g, false))
      | some input =>
        some (sendLoop E t input data { g with rev := (g.rev + 1) % 2 ^ 64 } false) := by
  unfold SendInput lazyBuild
  simp only [hi, Option.getD_some]

/-- C28: `SendInput` does not read its account id: on every graph, for every sensor
id, time and payload, the calls with two account ids give the same outcome, that is
the same pair `(mustRecompute, error)` and the same graph. -/
theorem SendInput_account (E : Env F) (s : Sched) (fuel : Nat) (g : FlowGraph F)
    (aid1 aid2 sid : String) (createdAt : Time) (data : List (String × Value F)) :
    SendInput E s fuel g aid1 sid createdAt data = SendInput E s fuel g aid2 sid createdAt data :=
  rfl

/-- C23: on a built graph (`Inputs` is not nil), `SendInput` returns and the graph
it leaves, with or without an error, has the `Inputs`, `Outputs`, `Nodes` and `Hooks`
it had, over the same nodes under the same keys; `WantInput` leaves the graph as it
was; so does every state of `Compute`, after the whole loop and after each of its
steps; and `Output` only reads `Outputs`. -/
theorem calls_frame (E : Env F) (s : Sched) (fuel : Nat) (g : FlowGraph F)
    (inp : List (String × List (String × String))) (hi : g.Inputs = some inp) :
    (∀ aid sid createdAt data, ∃ r, SendInput E s fuel g aid sid createdAt data = some r ∧
      ∀ g1 b, r.state = some (g1, b) → SameDerived g g1) ∧
    (∀ id, ∃ b, WantInput E s fuel g id = some (some (g, b))) ∧
    (∀ g1, Compute E g = some g1 → SameDerived g g1) ∧
    (∀ i g1, computeList E (g.Nodes.take i) g = some g1 → SameDerived g g1) ∧
    Output g = g.Outputs := by
  have hcl : ∀ ks g1, computeList E ks g = some g1 → SameDerived g g1 := by
    intro ks g1 h
    obtain ⟨f1, f2, f3, f4, f5, _⟩ := computeList_frame h
    exact ⟨f3, f4, f2, f5, mapVals_eraseState_of_eraseValue f1⟩
  refine ⟨?_, ?_, fun g1 h => hcl _ g1 h, fun i g1 h => hcl _ g1 h, rfl⟩
  · intro aid sid t data
    rw [SendInput_built hi]
    cases hs : mapGet inp sid with
    | none =>
      refine ⟨_, rfl, ?_⟩
      intro g1 b h
      simp only [Result.state, Option.some.injEq, Prod.mk.injEq] at h
      obtain ⟨rfl, _⟩ := h
      exact ⟨rfl, rfl, rfl, rfl, rfl⟩
    | some input =>
      refine ⟨_, rfl, ?_⟩
      intro g1 b h
      obtain ⟨f1, f2, f3, f4, f5, _⟩ := sendLoop_frame h
      exact ⟨f2, f3, f4, f5, f1⟩
  · intro id
    unfold WantInput lazyBuild
    simp only [hi]
    exact ⟨_, rfl⟩

theorem calls_frame_witness :
    notBuilt.Inputs = some [("s1", [("x", "in")])] ∧
    ∃ r, SendInput demoEnv (demoSched []) 0 notBuilt "acc" "s1" timeUTC [("x", .bool true)]
        = some r ∧
      ∀ g1 b, r.state = some (g1, b) → SameDerived notBuilt g1 :=
  ⟨rfl, (calls_frame demoEnv (demoSched []) 0 notBuilt [("s1", [("x", "in")])] rfl).1
    "acc" "s1" timeUTC [("x", .bool true)]⟩
/-! ## The revision of the graph -/

/-- C27, amended: on a built graph `SendInput` returns, and the graph it leaves,
with or without an error, has `rev` one more than before (modulo `2 ^ 64`) exactly
when the sensor id is a key of `Inputs`, whether or not a node is updated, and the
same `rev` otherwise, so that `rev` does not decrease short of the wrap-around; every
node of that graph is the node it was before the call or has `rev` equal to
the new `rev` of the graph and `lastChanged` equal to the time of the message; and
`Compute` leaves `rev` as it was. -/
theorem SendInput_rev (E : Env F) (s : Sched) (fuel : Nat) (g : FlowGraph F)
    (inp : List (String × List (String × String))) (hi : g.Inputs = some inp)
    (aid sid : String) (createdAt : Time) (data : List (String × Value F)) :
    (∃ r, SendInput E s fuel g aid sid createdAt data = some r ∧
      ∀ g1 b, r.state = some (g1, b) →
        g1.rev = (if (mapGet inp sid).isSome then (g.rev + 1) % 2 ^ 64 else g.rev) ∧
        (g.rev + 1 < 2 ^ 64 → g.rev ≤ g1.rev) ∧
        ∀ k n1, g1.getNode k = some n1 →
          g.getNode k = some n1 ∨ (n1.rev = g1.rev ∧ n1.lastChanged = createdAt)) ∧
    ∀ g2, Compute E g = some g2 → g2.rev = g.rev := by
  refine ⟨?_, fun g2 h => (computeList_frame h).2.2.2.2.2⟩
  rw [SendInput_built hi]
  cases hs : mapGet inp sid with
  | none =>
    refine ⟨_, rfl, ?_⟩
    intro g1 b h
    simp only [Result.state, Option.some.injEq, Prod.mk.injEq] at h
    obtain ⟨rfl, _⟩ := h
    exact ⟨by simp, fun _ => le_refl _, fun k n1 hk => Or.inl hk⟩
  | some input =>
    refine ⟨_, rfl, ?_⟩
    intro g1 b h
    have hr := (sendLoop_frame h).2.2.2.2.2
    have hn := sendLoop_nodes h
    simp only at hr
    refine ⟨by simp [hr], ?_, ?_⟩
    · intro hlt
      rw [hr, Nat.mod_eq_of_lt hlt]
      exact Nat.le_succ _
    · intro k n1 hk
      rcases hn k n1 hk with h1 | h1
      · exact Or.inl h1
      · right
        rw [hr]
        exact h1

theorem SendInput_rev_witness :
    notBuilt.Inputs = some [("s1", [("x", "in")])] ∧
    ((∃ r, SendInput demoEnv (demoSched []) 0 notBuilt "acc" "s1" timeUTC [("x", .bool true)]
        = some r ∧
      ∀ g1 b, r.state = some (g1, b) →
        g1.rev = (if (mapGet [("s1", [("x", "in")])] "s1").isSome
          then (notBuilt.rev + 1) % 2 ^ 64 else notBuilt.rev) ∧
        (notBuilt.rev + 1 < 2 ^ 64 → notBuilt.rev ≤ g1.rev) ∧
        ∀ k n1, g1.getNode k = some n1 →
          notBuilt.getNode k = some n1 ∨ (n1.rev = g1.rev ∧ n1.lastChanged = timeUTC)) ∧
    ∀ g2, Compute demoEnv notBuilt = some g2 → g2.rev = notBuilt.rev) :=
  ⟨rfl, SendInput_rev demoEnv (demoSched []) 0 notBuilt [("s1", [("x", "in")])] rfl
    "acc" "s1" timeUTC [("x", .bool true)]⟩

/-- C27 as stated fails: the built graph `notBuilt` has `rev` 0 and reads the field
`x` of the sensor `s1`; a message of that sensor that carries only a field `y`
updates no node, the flow is left as it was and `mustRecompute` is false, and yet
the graph is left with `rev` 1. -/
theorem SendInput_rev_counterexample :
    notBuilt.rev = 0 ∧
    ∃ g1, SendInput demoEnv (demoSched []) 0 notBuilt "acc" "s1" timeUTC [("y", .bool true)]
        = some (.ok (g1, false)) ∧
      g1.Flow = notBuilt.Flow ∧ g1.rev = 1 :=
  ⟨rfl, { notBuilt with rev := 1 }, by decide, rfl, rfl⟩

/-! ## What `Build` derives -/

theorem buildFirst_step (E : Env F) {g g1 : FlowGraph F} {k : String} {node : FlowNode F}
    (h : buildFirst E g k node = (g1, none)) :
    g1.Outputs = g.Outputs ++ (if node.Operator = "output" then [k] else []) ∧
    (node.Operator = "input" →
      g1.Flow = mapReplace g.Flow k { node with ComputedValue := seedValue E node.Typ } ∧
      g1.Inputs = some (mapSet (g.Inputs.getD []) node.ID
        (mapSet ((mapGet (g.Inputs.getD []) node.ID).getD []) node.Name k))) ∧
    (node.Operator ≠ "input" → g1.Flow = g.Flow ∧ g1.Inputs = g.Inputs) := by
  have hm := buildFirst_ok E h
  unfold missingID at hm
  unfold buildFirst at h
  rw [if_neg hm] at h
  by_cases hi : node.Operator = "input"
  · have ho : ¬ node.Operator = "output" := by rw [hi]; decide
    simp only [ho, if_false] at h
    rw [if_pos hi] at h
    simp only [Prod.mk.injEq, and_true] at h
    subst h
    rw [if_neg ho, List.append_nil]
    exact ⟨rfl, fun _ => ⟨rfl, rfl⟩, fun hne => absurd hi hne⟩
  · simp only [hi, if_false] at h
    refine ⟨?_, fun hh => absurd hh hi, fun _ => ?_⟩
    · by_cases ho : node.Operator = "output"
      · have hs : ("output" = "send") = False := eq_false (by decide)
        simp only [ho, hs, if_true, if_false, Prod.mk.injEq, and_true] at h
        subst h
        rw [if_pos ho]
      · simp only [ho, if_false] at h
        simp only [ho, if_false, List.append_nil]
        split_ifs at h
        · split at h
          · simp at h
          · split at h
            · simp at h
            · split at h
              · simp at h
              · simp only [Prod.mk.injEq, and_true] at h
                subst h
                rfl
        · simp only [Prod.mk.injEq, and_true] at h
          subst h
          rfl
    · by_cases ho : node.Operator = "output"
      · have hs : ("output" = "send") = False := eq_false (by decide)
        simp only [ho, hs, if_true, if_false, Prod.mk.injEq, and_true] at h
        subst h
        exact ⟨rfl, rfl⟩
      · simp only [ho, if_false] at h
        split_ifs at h
        · split at h
          · simp at h
          · split at h
            · simp at h
            · split at h
              · simp at h
              · simp only [Prod.mk.injEq, and_true] at h
                subst h
                exact ⟨rfl, rfl⟩
        · simp only [Prod.mk.injEq, and_true] at h
          subst h
          exact ⟨rfl, rfl⟩

theorem isOutputKey_congr {f : FlowNode F → FlowNode F}
    (hf : ∀ n m : FlowNode F, f n = f m → n.Operator = m.Operator)
    {fl fl1 : List (String × FlowNode F)} (h : mapVals f fl1 = mapVals f fl) (k : String) :
    isOutputKey fl1 k = isOutputKey fl k := by
  have hm := mapGet_of_mapVals f h k
  unfold isOutputKey
  cases h1 : mapGet fl1 k with
  | none =>
    rw [h1] at hm
    cases h0 : mapGet fl k with
    | none => rfl
    | some n => rw [h0] at hm; simp at hm
  | some n1 =>
    rw [h1] at hm
    cases h0 : mapGet fl k with
    | none => rw [h0] at hm; simp at hm
    | some n =>
      rw [h0] at hm
      simp only [Option.map_some', Option.some.injEq] at hm
      simp only [hf n1 n hm]

theorem isOutputKey_iff (fl : List (String × FlowNode F)) (k : String) :
    isOutputKey fl k = true ↔ ∃ n, mapGet fl k = some n ∧ n.Operator = "output" := by
  unfold isOutputKey
  cases mapGet fl k with
  | none => simp
  | some n => simp

theorem scanFirst_outputs (E : Env F) {ks : List String} {g g1 : FlowGraph F}
    (h : scanFirst E ks g = (g1, none)) :
    g1.Outputs = g.Outputs ++ ks.filter (isOutputKey g.Flow) := by
  induction ks generalizing g with
  | nil =>
    simp only [scanFirst, Prod.mk.injEq, and_true] at h
    subst h
    simp
  | cons k ks ih =>
    have hnil : k ∉ g.NilKeys := by
      intro hn0
      rw [scanFirst_cons_nil E hn0] at h
      simp at h
    rw [scanFirst_cons E hnil] at h
    cases hk : g.getNode k with
    | none =>
      rw [hk] at h
      have hk1 : mapGet g.Flow k = none := hk
      rw [ih h, List.filter_cons]
      simp [isOutputKey, hk1]
    | some node =>
      rw [hk] at h
      simp only at h
      have hk1 : mapGet g.Flow k = some node := hk
      have hfr := (buildFirst_frame E hk).1
      rcases hb : buildFirst E g k node with ⟨g2, e⟩
      rw [hb] at h hfr
      cases e with
      | some e => simp at h
      | none =>
        simp only at h
        have hcongr : isOutputKey g2.Flow = isOutputKey g.Flow :=
          funext (isOutputKey_congr (fun n m e => (eraseBuilt_fields e).2.1) hfr)
        rw [ih h, (buildFirst_step E hb).1, hcongr, List.filter_cons]
        by_cases ho : node.Operator = "output"
        · simp [isOutputKey, hk1, ho]
        · simp [isOutputKey, hk1, ho]

theorem Build_frame {E : Env F} {s : Sched} {fuel : Nat} {g g1 : FlowGraph F} (hf : Fresh g)
    (h : Build E s fuel g = some (.ok g1)) :
    ∃ gb : FlowGraph F, mapVals eraseBuilt gb.Flow = mapVals eraseBuilt g.Flow ∧
      mapVals eraseRev g1.Flow = mapVals eraseRev gb.Flow ∧
      g1.Outputs = g.Outputs ++ s.first.filter (isOutputKey g.Flow) := by
  obtain ⟨ga, gb, h1, h2, h3⟩ := Build_ok_split h
  have f1 := (scanFirst_frame E s.first { g with Inputs := some [], Hooks := [] }).1
  rw [h1] at f1
  have fs := scanSecond_frame s.second ga
  rw [h2] at fs
  have f2 := mapVals_eraseBuilt_of_eraseWiring fs.1
  obtain ⟨_, _, f3, _, f4, _⟩ := orderLoop_ok (placed_start (rev_zero_after_scans hf h1 h2)) h3
  refine ⟨gb, f2.trans f1, f3, ?_⟩
  rw [f4]
  have h5 : gb.Outputs = ga.Outputs := fs.2.2.1
  have h6 := scanFirst_outputs E h1
  exact h5.trans h6

/-- C25, amended: in the graph left by a `Build` that returns no error on a freshly
decoded graph (every `rev` zero), `Nodes` is a rearrangement of the keys of `Flow`:
it has no key twice, as many entries as the flow has nodes, and the key of every
node once, so that the loop of `Compute` runs the operator of every node once; and
`Outputs` is what it was before `Build`, followed by the keys of the nodes whose
operator is `output`, each once and no other. -/
theorem Build_nodes_outputs (E : Env F) (s : Sched) (fuel : Nat) (g g1 : FlowGraph F)
    (hf : Fresh g) (hv : s.Valid g) (h : Build E s fuel g = some (.ok g1)) :
    g1.Nodes.Perm (mapKeys g1.Flow) ∧ g1.Nodes.Nodup ∧ g1.Nodes.length = g1.Flow.length ∧
    (∀ k n, g1.getNode k = some n → g1.Nodes.count k = 1) ∧
    mapKeys g1.Flow = mapKeys g.Flow ∧
    ∃ outs, g1.Outputs = g.Outputs ++ outs ∧ outs.Nodup ∧
      ∀ k, k ∈ outs ↔ ∃ n, g1.getNode k = some n ∧ n.Operator = "output" := by
  obtain ⟨hp, hl⟩ := Build_placed hf h
  have hsub : g1.Nodes ⊆ mapKeys g1.Flow := by
    intro x hx
    obtain ⟨m, hm, _⟩ := hp.rev_of_mem x hx
    exact mem_mapKeys_of_mapGet hm
  have hlen : (mapKeys g1.Flow).length ≤ g1.Nodes.length := by
    simp only [mapKeys, List.length_map]
    exact Nat.le_of_not_lt hl
  have hperm := (List.subperm_of_subset hp.nodup hsub).perm_of_length_le hlen
  obtain ⟨gb, fb, fr, hout⟩ := Build_frame hf h
  have hkeys : mapKeys g1.Flow = mapKeys g.Flow :=
    (mapKeys_eq_of_mapVals eraseRev fr).trans (mapKeys_eq_of_mapVals eraseBuilt fb)
  have hnd : (mapKeys g.Flow).Nodup := by
    rw [← hkeys]
    exact hperm.nodup_iff.1 hp.nodup
  have hfirst : s.first.Nodup := by
    have hv1 := hv.1
    rw [keys_of_nilKeys (Build_ok_nilKeys hv h)] at hv1
    exact hv1.nodup_iff.2 hnd
  have hcongr : ∀ k, isOutputKey g.Flow k = isOutputKey g1.Flow k := by
    intro k
    rw [isOutputKey_congr (fun n m e => (eraseRev_fields e).1) fr k,
      isOutputKey_congr (fun n m e => (eraseBuilt_fields e).2.1) fb k]
  refine ⟨hperm, hp.nodup, ?_, ?_, hkeys, s.first.filter (isOutputKey g.Flow), hout,
    hfirst.filter _, ?_⟩
  · have := hperm.length_eq
    simpa [mapKeys] using this
  · intro k n hk
    exact List.count_eq_one_of_mem hp.nodup (hperm.mem_iff.2 (mem_mapKeys_of_mapGet hk))
  · intro k
    rw [List.mem_filter, hcongr k, isOutputKey_iff]
    constructor
    · rintro ⟨_, hk⟩
      exact hk
    · rintro ⟨n, hk, hop⟩
      refine ⟨?_, n, hk, hop⟩
      have : k ∈ mapKeys g1.Flow := mem_mapKeys_of_mapGet hk
      rw [hkeys] at this
      exact hv.1.mem_iff.2 (mem_keys_of_mapKeys this)

theorem Build_nodes_outputs_witness :
    Fresh notGraph ∧ (demoSched ["out", "n", "in"]).Valid notGraph ∧
    Build demoEnv (demoSched ["out", "n", "in"]) 3 notGraph = some (.ok notBuilt) ∧
    notBuilt.Nodes.Perm (mapKeys notBuilt.Flow) ∧ notBuilt.Nodes.Nodup ∧
    notBuilt.Nodes.length = notBuilt.Flow.length ∧
    (∀ k n, notBuilt.getNode k = some n → notBuilt.Nodes.count k = 1) ∧
    mapKeys notBuilt.Flow = mapKeys notGraph.Flow ∧
    ∃ outs, notBuilt.Outputs = notGraph.Outputs ++ outs ∧ outs.Nodup ∧
      ∀ k, k ∈ outs ↔ ∃ n, notBuilt.getNode k = some n ∧ n.Operator = "output" :=
  ⟨notGraph_fresh, notGraph_valid, notGraph_build,
    Build_nodes_outputs demoEnv (demoSched ["out", "n", "in"]) 3 notGraph notBuilt
      notGraph_fresh notGraph_valid notGraph_build⟩

theorem ghostGraph_build :
    Build demoEnv (demoSched ["out", "n", "in"]) 3 ghostGraph
      = some (.ok { notBuilt with Outputs := ["ghost", "out"] }) := by
  decide

/-- C25 as stated fails: `ghostGraph` is the graph `out = output (not in)` decoded
from a JSON text that also has a member `Outputs` with one node, which is no node of
the flow and is written here as the key `ghost`.  Every `rev` is zero and `Build`
returns no error, but it appends to `Outputs` without emptying it first: `Outputs`
is left with two entries, the first of which is not a node of the flow, while the
flow has one node of operator `output`. -/
theorem Build_nodes_outputs_counterexample :
    Fresh ghostGraph ∧ (demoSched ["out", "n", "in"]).Valid ghostGraph ∧
    ∃ g1, Build demoEnv (demoSched ["out", "n", "in"]) 3 ghostGraph = some (.ok g1) ∧
      g1.Outputs = ["ghost", "out"] ∧ g1.getNode "ghost" = none ∧
      ¬ ∀ k, k ∈ g1.Outputs ↔ ∃ n, g1.getNode k = some n ∧ n.Operator = "output" := by
  refine ⟨by unfold Fresh ghostGraph notGraph demoGraph; decide,
    ⟨List.Perm.refl _, List.Perm.refl _, fun _ => List.Perm.refl _⟩,
    { notBuilt with Outputs := ["ghost", "out"] }, ghostGraph_build, rfl, by decide, ?_⟩
  intro hall
  obtain ⟨n, hn, _⟩ := (hall "ghost").1 (by decide)
  have hnone : ({ notBuilt with Outputs := ["ghost", "out"] } : FlowGraph Int).getNode "ghost"
      = none := by decide
  rw [hnone] at hn
  cases hn

theorem eraseWiring_fields {n m : FlowNode F} (h : eraseWiring n = eraseWiring m) :
    n.Operator = m.Operator ∧ n.ID = m.ID ∧ n.Name = m.Name ∧ n.Typ = m.Typ ∧
      n.ComputedValue = m.ComputedValue := by
  have h1 : (eraseWiring n).Operator = (eraseWiring m).Operator := by rw [h]
  have h2 : (eraseWiring n).ID = (eraseWiring m).ID := by rw [h]
  have h3 : (eraseWiring n).Name = (eraseWiring m).Name := by rw [h]
  have h4 : (eraseWiring n).Typ = (eraseWiring m).Typ := by rw [h]
  have h5 : (eraseWiring n).ComputedValue = (eraseWiring m).ComputedValue := by rw [h]
  exact ⟨h1, h2, h3, h4, h5⟩

theorem mapGet_congr {f : FlowNode F → FlowNode F} {fl fl1 : List (String × FlowNode F)}
    (h : mapVals f fl1 = mapVals f fl) {k : String} {n1 : FlowNode F}
    (hk : mapGet fl1 k = some n1) : ∃ n, mapGet fl k = some n ∧ f n = f n1 := by
  have hm := mapGet_of_mapVals f h k
  rw [hk] at hm
  cases h0 : mapGet fl k with
  | none => rw [h0] at hm; simp at hm
  | some n =>
    rw [h0] at hm
    simp only [Option.map_some', Option.some.injEq] at hm
    exact ⟨n, rfl, hm.symm⟩

theorem InputsSound.congrSound {f : FlowNode F → FlowNode F}
    (hf : ∀ n m : FlowNode F, f n = f m → n.Operator = m.Operator ∧ n.ID = m.ID ∧ n.Name = m.Name)
    {fl fl1 : List (String × FlowNode F)} (h : mapVals f fl1 = mapVals f fl)
    {inputs : List (String × List (String × String))} (hs : InputsSound fl inputs) :
    InputsSound fl1 inputs := by
  intro id input name k1 h1 h2
  obtain ⟨n, hn, hop, hid, hname⟩ := hs id input name k1 h1 h2
  obtain ⟨n1, hn1, he⟩ := mapGet_congr h.symm hn
  obtain ⟨e1, e2, e3⟩ := hf _ _ he
  exact ⟨n1, hn1, e1.trans hop, e2.trans hid, e3.trans hname⟩

theorem Registered.congrRegistered {f : FlowNode F → FlowNode F}
    (hf : ∀ n m : FlowNode F, f n = f m → n.Operator = m.Operator ∧ n.ID = m.ID ∧ n.Name = m.Name)
    {fl fl1 : List (String × FlowNode F)} (h : mapVals f fl1 = mapVals f fl)
    {inputs : List (String × List (String × String))} {k : String}
    (hs : Registered fl inputs k) : Registered fl1 inputs k := by
  intro n1 hn1 hop
  obtain ⟨n, hn, he⟩ := mapGet_congr h hn1
  obtain ⟨e1, e2, e3⟩ := hf _ _ he
  obtain ⟨input, k1, h1, h2⟩ := hs n hn (e1.trans hop)
  rw [e2] at h1
  rw [e3] at h2
  exact ⟨input, k1, h1, h2⟩

theorem Seeded.congrSeeded {E : Env F} {f : FlowNode F → FlowNode F}
    (hf : ∀ n m : FlowNode F, f n = f m →
      n.Operator = m.Operator ∧ n.Typ = m.Typ ∧ n.ComputedValue = m.ComputedValue)
    {fl fl1 : List (String × FlowNode F)} (h : mapVals f fl1 = mapVals f fl) {k : String}
    (hs : Seeded E fl k) : Seeded E fl1 k := by
  intro n1 hn1 hop
  obtain ⟨n, hn, he⟩ := mapGet_congr h hn1
  obtain ⟨e1, e2, e3⟩ := hf _ _ he
  rw [← e2, ← e3]
  exact hs n hn (e1.trans hop)

theorem InputsSound.insertSound {fl : List (String × FlowNode F)}
    {inputs : List (String × List (String × String))} (hs : InputsSound fl inputs)
    {k : String} {node : FlowNode F} (hk : mapGet fl k = some node)
    (hop : node.Operator = "input") :
    InputsSound fl (mapSet inputs node.ID
      (mapSet ((mapGet inputs node.ID).getD []) node.Name k)) := by
  intro id input name k1 h1 h2
  rw [mapGet_mapSet] at h1
  by_cases hid : id = node.ID
  · rw [if_pos hid] at h1
    simp only [Option.some.injEq] at h1
    subst h1
    rw [mapGet_mapSet] at h2
    by_cases hname : name = node.Name
    · rw [if_pos hname] at h2
      simp only [Option.some.injEq] at h2
      subst h2
      exact ⟨node, hk, hop, hid.symm, hname.symm⟩
    · rw [if_neg hname] at h2
      cases hold : mapGet inputs node.ID with
      | none => rw [hold] at h2; simp [mapGet] at h2
      | some old =>
        rw [hold] at h2
        simp only [Option.getD_some] at h2
        obtain ⟨n1, a, b, c, d⟩ := hs node.ID old name k1 hold h2
        exact ⟨n1, a, b, c.trans hid.symm, d⟩
  · rw [if_neg hid] at h1
    exact hs id input name k1 h1 h2

theorem Registered.insertRegistered {fl : List (String × FlowNode F)}
    {inputs : List (String × List (String × String))} {k0 : String}
    (hs : Registered fl inputs k0) (k : String) (node : FlowNode F) :
    Registered fl (mapSet inputs node.ID
      (mapSet ((mapGet inputs node.ID).getD []) node.Name k)) k0 := by
  intro n hn hop
  obtain ⟨input, k1, h1, h2⟩ := hs n hn hop
  by_cases hid : n.ID = node.ID
  · refine ⟨_, ?_, by rw [mapGet_mapSet, if_pos hid], ?_⟩
    · exact if n.Name = node.Name then k else k1
    · rw [mapGet_mapSet]
      by_cases hname : n.Name = node.Name
      · rw [if_pos hname, if_pos hname]
      · rw [if_neg hname, if_neg hname, ← hid, h1]
        exact h2
  · exact ⟨input, k1, by rw [mapGet_mapSet, if_neg hid]; exact h1, h2⟩

theorem Registered.self {fl : List (String × FlowNode F)}
    (inputs : List (String × List (String × String))) {k : String} {node : FlowNode F}
    (hk : mapGet fl k = some node) :
    Registered fl (mapSet inputs node.ID
      (mapSet ((mapGet inputs node.ID).getD []) node.Name k)) k := by
  intro n hn _
  rw [hk] at hn
  cases hn
  exact ⟨_, k, by rw [mapGet_mapSet, if_pos rfl], by rw [mapGet_mapSet, if_pos rfl]⟩

theorem buildFirst_inputs (E : Env F) {g g1 : FlowGraph F} {k : String} {node : FlowNode F}
    (hk : g.getNode k = some node) (h : buildFirst E g k node = (g1, none))
    (hs : InputsSound g.Flow (g.Inputs.getD [])) (hsome : g.Inputs.isSome = true) :
    InputsSound g1.Flow (g1.Inputs.getD []) ∧ g1.Inputs.isSome = true ∧
    (∀ k0, Registered g.Flow (g.Inputs.getD []) k0 →
      Registered g1.Flow (g1.Inputs.getD []) k0) ∧
    Registered g1.Flow (g1.Inputs.getD []) k ∧
    (∀ k0, Seeded E g.Flow k0 → Seeded E g1.Flow k0) ∧ Seeded E g1.Flow k := by
  have hk1 : mapGet g.Flow k = some node := hk
  have hfr := (buildFirst_frame E hk).1
  rw [h] at hfr
  simp only at hfr
  have hf : ∀ n m : FlowNode F, eraseBuilt n = eraseBuilt m →
      n.Operator = m.Operator ∧ n.ID = m.ID ∧ n.Name = m.Name :=
    fun n m e => ⟨(eraseBuilt_fields e).2.1, (eraseBuilt_fields e).1, (eraseBuilt_fields e).2.2.2.2.1⟩
  obtain ⟨_, hin, hnot⟩ := buildFirst_step E h
  by_cases hi : node.Operator = "input"
  · obtain ⟨hfl, hinp⟩ := hin hi
    have hseed : ∀ k0, (k0 = k ∨ Seeded E g.Flow k0) → Seeded E g1.Flow k0 := by
      intro k0 h0 n hn hop
      rw [hfl, mapGet_mapReplace] at hn
      by_cases hkk : k0 = k
      · rw [if_pos hkk, hk1] at hn
        simp only [Option.map_some', Option.some.injEq] at hn
        subst hn
        rfl
      · rw [if_neg hkk] at hn
        rcases h0 with h0 | h0
        · exact absurd h0 hkk
        · exact h0 n hn hop
    rw [hinp]
    simp only [Option.getD_some, Option.isSome_some, true_and]
    exact ⟨(hs.insertSound hk1 hi).congrSound hf hfr,
      fun k0 h0 => (h0.insertRegistered k node).congrRegistered hf hfr,
      (Registered.self _ hk1).congrRegistered hf hfr, fun k0 h0 => hseed k0 (Or.inr h0),
      hseed k (Or.inl rfl)⟩
  · obtain ⟨hfl, hinp⟩ := hnot hi
    rw [hfl, hinp]
    refine ⟨hs, hsome, fun k0 h0 => h0, ?_, fun k0 h0 => h0, ?_⟩
    · intro n hn hop
      rw [hk1] at hn
      cases hn
      exact absurd hop hi
    · intro n hn hop
      rw [hk1] at hn
      cases hn
      exact absurd hop hi

theorem scanFirst_inputs (E : Env F) {ks : List String} {g g1 : FlowGraph F}
    (h : scanFirst E ks g = (g1, none))
    (hs : InputsSound g.Flow (g.Inputs.getD [])) (hsome : g.Inputs.isSome = true) :
    InputsSound g1.Flow (g1.Inputs.getD []) ∧ g1.Inputs.isSome = true ∧
    (∀ k0, Registered g.Flow (g.Inputs.getD []) k0 →
      Registered g1.Flow (g1.Inputs.getD []) k0) ∧
    (∀ k, k ∈ ks → Registered g1.Flow (g1.Inputs.getD []) k) ∧
    (∀ k0, Seeded E g.Flow k0 → Seeded E g1.Flow k0) ∧
    ∀ k, k ∈ ks → Seeded E g1.Flow k := by
  induction ks generalizing g with
  | nil =>
    simp only [scanFirst, Prod.mk.injEq, and_true] at h
    subst h
    exact ⟨hs, hsome, fun _ h0 => h0, fun k hk => by simp at hk, fun _ h0 => h0,
      fun k hk => by simp at hk⟩
  | cons k ks ih =>
    have hnil : k ∉ g.NilKeys := by
      intro hn0
      rw [scanFirst_cons_nil E hn0] at h
      simp at h
    rw [scanFirst_cons E hnil] at h
    cases hk : g.getNode k with
    | none =>
      rw [hk] at h
      have hk1 : mapGet g.Flow k = none := hk
      obtain ⟨a, b, c, d, e, f⟩ := ih h hs hsome
      refine ⟨a, b, c, ?_, e, ?_⟩
      · intro k0 h0
        rcases List.mem_cons.1 h0 with h0 | h0
        · subst h0
          apply c
          intro n hn
          rw [hk1] at hn
          cases hn
        · exact d k0 h0
      · intro k0 h0
        rcases List.mem_cons.1 h0 with h0 | h0
        · subst h0
          apply e
          intro n hn
          rw [hk1] at hn
          cases hn
        · exact f k0 h0
    | some node =>
      rw [hk] at h
      simp only at h
      rcases hb : buildFirst E g k node with ⟨g2, e⟩
      rw [hb] at h
      cases e with
      | some e => simp at h
      | none =>
        simp only at h
        obtain ⟨a2, b2, c2, d2, e2, f2⟩ := buildFirst_inputs E hk hb hs hsome
        obtain ⟨a, b, c, d, e, f⟩ := ih h a2 b2
        refine ⟨a, b, fun k0 h0 => c k0 (c2 k0 h0), ?_, fun k0 h0 => e k0 (e2 k0 h0), ?_⟩
        · intro k0 h0
          rcases List.mem_cons.1 h0 with h0 | h0
          · subst h0
            exact c _ d2
          · exact d k0 h0
        · intro k0 h0
          rcases List.mem_cons.1 h0 with h0 | h0
          · subst h0
            exact e _ f2
          · exact f k0 h0

theorem seedValue_eq (E : Env F) (typ : String) :
    seedValue E typ = if toLower typ = "float" then .float E.zero
      else if toLower typ = "bool" then .bool false else .str "" := by
  unfold seedValue
  by_cases h1 : toLower typ = "enume"
  · have a : ¬ toLower typ = "float" := by rw [h1]; decide
    have b : ¬ toLower typ = "bool" := by rw [h1]; decide
    rw [if_pos h1, if_neg a, if_neg b]
  · rw [if_neg h1]
    by_cases h2 : toLower typ = "string"
    · have a : ¬ toLower typ = "float" := by rw [h2]; decide
      have b : ¬ toLower typ = "bool" := by rw [h2]; decide
      rw [if_pos h2, if_neg a, if_neg b]
    · rw [if_neg h2]
      by_cases h3 : toLower typ = "bool"
      · have a : ¬ toLower typ = "float" := by rw [h3]; decide
        rw [if_pos h3, if_neg a, if_pos h3]
      · rw [if_neg h3, if_neg h3]

theorem orderLoop_frame {pass : Nat → List String} {fuel i : Nat} {g g1 : FlowGraph F}
    (h : orderLoop pass fuel i g = some (.ok g1)) :
    mapVals eraseRev g1.Flow = mapVals eraseRev g.Flow ∧ g1.Inputs = g.Inputs := by
  induction fuel generalizing i g with
  | zero =>
    simp only [orderLoop] at h
    by_cases hl : g.Nodes.length < g.Flow.length
    · simp [hl] at h
    · simp only [hl, if_false, Option.some.injEq, Result.ok.injEq] at h
      subst h
      exact ⟨rfl, rfl⟩
  | succ fuel ih =>
    simp only [orderLoop] at h
    by_cases hl : g.Nodes.length < g.Flow.length
    · simp only [hl, if_true] at h
      cases hs : orderScan (pass i) g with
      | none => rw [hs] at h; simp at h
      | some g2 =>
        rw [hs] at h
        obtain ⟨c1, c2⟩ := ih h
        obtain ⟨d1, d2, _⟩ := orderScan_frame hs
        exact ⟨c1.trans d1, c2.trans d2⟩
    · simp only [hl, if_false, Option.some.injEq, Result.ok.injEq] at h
      subst h
      exact ⟨rfl, rfl⟩

/-- What `Build` leaves of the first loop: the entries of `Inputs` are input nodes
with the id and the name of the entry, every input node visited has an entry and
the seed of its type. -/
theorem Build_inputs_seeded {E : Env F} {s : Sched} {fuel : Nat} {g g1 : FlowGraph F}
    (h : Build E s fuel g = some (.ok g1)) :
    ∃ inputs, g1.Inputs = some inputs ∧ InputsSound g1.Flow inputs ∧
      (∀ k, k ∈ s.first → Registered g1.Flow inputs k ∧ Seeded E g1.Flow k) ∧
      mapKeys g1.Flow = mapKeys g.Flow := by
  obtain ⟨ga, gb, h1, h2, h3⟩ := Build_ok_split h
  have hstart : InputsSound ({ g with Inputs := some [], Hooks := [] } : FlowGraph F).Flow
      (({ g with Inputs := some [], Hooks := [] } : FlowGraph F).Inputs.getD []) := by
    intro id input name k1 hh
    simp [mapGet] at hh
  obtain ⟨a, b, _, d, _, f⟩ := scanFirst_inputs E h1 hstart rfl
  have f1 := (scanFirst_frame E s.first { g with Inputs := some [], Hooks := [] }).1
  rw [h1] at f1
  have fs := scanSecond_frame s.second ga
  rw [h2] at fs
  obtain ⟨f2, i2, _⟩ := fs
  obtain ⟨f3, i3⟩ := orderLoop_frame h3
  have hw : ∀ n m : FlowNode F, eraseWiring n = eraseWiring m →
      n.Operator = m.Operator ∧ n.ID = m.ID ∧ n.Name = m.Name :=
    fun n m e => ⟨(eraseWiring_fields e).1, (eraseWiring_fields e).2.1,
      (eraseWiring_fields e).2.2.1⟩
  have hr : ∀ n m : FlowNode F, eraseRev n = eraseRev m →
      n.Operator = m.Operator ∧ n.ID = m.ID ∧ n.Name = m.Name :=
    fun n m e => ⟨(eraseRev_fields e).1, (eraseRev_fields e).2.2.2.2.2.1,
      (eraseRev_fields e).2.2.2.2.2.2.1⟩
  have hw2 : ∀ n m : FlowNode F, eraseWiring n = eraseWiring m →
      n.Operator = m.Operator ∧ n.Typ = m.Typ ∧ n.ComputedValue = m.ComputedValue :=
    fun n m e => ⟨(eraseWiring_fields e).1, (eraseWiring_fields e).2.2.2.1,
      (eraseWiring_fields e).2.2.2.2⟩
  have hr2 : ∀ n m : FlowNode F, eraseRev n = eraseRev m →
      n.Operator = m.Operator ∧ n.Typ = m.Typ ∧ n.ComputedValue = m.ComputedValue :=
    fun n m e => ⟨(eraseRev_fields e).1, (eraseRev_fields e).2.2.2.2.2.2.2,
      (eraseRev_fields e).2.2.2.2.1⟩
  have hin : g1.Inputs = ga.Inputs := i3.trans i2
  cases hga : ga.Inputs with
  | none => rw [hga] at b; cases b
  | some inputs =>
    rw [hga] at a d
    simp only [Option.getD_some] at a d
    refine ⟨inputs, hin.trans hga, (a.congrSound hw f2).congrSound hr f3, ?_, ?_⟩
    · intro k hk
      exact ⟨((d k hk).congrRegistered hw f2).congrRegistered hr f3,
        ((f k hk).congrSeeded hw2 f2).congrSeeded hr2 f3⟩
    · exact (mapKeys_eq_of_mapVals eraseRev f3).trans
        ((mapKeys_eq_of_mapVals eraseWiring f2).trans (mapKeys_eq_of_mapVals eraseBuilt f1))

/-- C26, amended: in the graph left by a `Build` that returns no error, `Inputs` is
not nil; for every node whose operator is `input`, the entry of `Inputs` under its id
and its name is the key of a node whose operator is `input` and that has that id and
that name, and it is the key of the node itself when no other input node has that id
and that name; every entry of `Inputs` is such a key; and the `ComputedValue` of the
node is the float zero when its declared type in lower case is `float`, the boolean
false when it is `bool`, and the empty string otherwise. -/
theorem Build_inputs (E : Env F) (s : Sched) (fuel : Nat) (g g1 : FlowGraph F)
    (hv : s.Valid g) (h : Build E s fuel g = some (.ok g1)) :
    ∃ inputs, g1.Inputs = some inputs ∧
      (∀ k n, g1.getNode k = some n → n.Operator = "input" →
        (∃ input k1 n1, mapGet inputs n.ID = some input ∧ mapGet input n.Name = some k1 ∧
          g1.getNode k1 = some n1 ∧ n1.Operator = "input" ∧ n1.ID = n.ID ∧
          n1.Name = n.Name ∧
          ((∀ k2 n2, g1.getNode k2 = some n2 → n2.Operator = "input" → n2.ID = n.ID →
            n2.Name = n.Name → k2 = k) → k1 = k)) ∧
        n.ComputedValue = (if toLower n.Typ = "float" then .float E.zero
          else if toLower n.Typ = "bool" then .bool false else .str "")) ∧
      ∀ id input name k1, mapGet inputs id = some input → mapGet input name = some k1 →
        ∃ n1, g1.getNode k1 = some n1 ∧ n1.Operator = "input" ∧ n1.ID = id ∧
          n1.Name = name := by
  obtain ⟨inputs, hin, hsound, hall, hkeys⟩ := Build_inputs_seeded h
  refine ⟨inputs, hin, ?_, hsound⟩
  intro k n hk hop
  have hmem : k ∈ s.first := by
    have : k ∈ mapKeys g1.Flow := mem_mapKeys_of_mapGet hk
    rw [hkeys] at this
    exact hv.1.mem_iff.2 (mem_keys_of_mapKeys this)
  obtain ⟨hreg, hseed⟩ := hall k hmem
  obtain ⟨input, k1, e1, e2⟩ := hreg n hk hop
  obtain ⟨n1, a, b, c, d⟩ := hsound n.ID input n.Name k1 e1 e2
  refine ⟨⟨input, k1, n1, e1, e2, a, b, c, d, fun hu => hu k1 n1 a b c d⟩, ?_⟩
  rw [hseed n hk hop]
  exact seedValue_eq E n.Typ

theorem capitalGraph_build :
    Build demoEnv (demoSched ["in"]) 1 capitalGraph = some (.ok capitalBuilt) := by
  decide

theorem Build_inputs_witness :
    (demoSched ["out", "n", "in"]).Valid notGraph ∧
    Build demoEnv (demoSched ["out", "n", "in"]) 3 notGraph = some (.ok notBuilt) ∧
    ∃ inputs, notBuilt.Inputs = some inputs ∧
      (∀ k n, notBuilt.getNode k = some n → n.Operator = "input" →
        (∃ input k1 n1, mapGet inputs n.ID = some input ∧ mapGet input n.Name = some k1 ∧
          notBuilt.getNode k1 = some n1 ∧ n1.Operator = "input" ∧ n1.ID = n.ID ∧
          n1.Name = n.Name ∧
          ((∀ k2 n2, notBuilt.getNode k2 = some n2 → n2.Operator = "input" → n2.ID = n.ID →
            n2.Name = n.Name → k2 = k) → k1 = k)) ∧
        n.ComputedValue = (if toLower n.Typ = "float" then .float demoEnv.zero
          else if toLower n.Typ = "bool" then .bool false else .str "")) ∧
      ∀ id input name k1, mapGet inputs id = some input → mapGet input name = some k1 →
        ∃ n1, notBuilt.getNode k1 = some n1 ∧ n1.Operator = "input" ∧ n1.ID = id ∧
          n1.Name = name :=
  ⟨notGraph_valid, notGraph_build,
    Build_inputs demoEnv (demoSched ["out", "n", "in"]) 3 notGraph notBuilt
      notGraph_valid notGraph_build⟩

/-- C26 as stated fails: the input node of `capitalGraph` declares the type `Float`,
which is none of the names `float`, `bool`, `string` and `enum`, and `Build` returns
no error and seeds its `ComputedValue` with the float zero, not with the empty
string. -/
theorem Build_inputs_counterexample :
    Build demoEnv (demoSched ["in"]) 1 capitalGraph = some (.ok capitalBuilt) ∧
    ∃ n, capitalBuilt.getNode "in" = some n ∧ n.Operator = "input" ∧ n.Typ = "Float" ∧
      n.Typ ≠ "float" ∧ n.Typ ≠ "bool" ∧ n.Typ ≠ "string" ∧ n.Typ ≠ "enum" ∧
      n.ComputedValue = .float 0 ∧ n.ComputedValue ≠ .str "" :=
  ⟨capitalGraph_build, _, rfl, by decide⟩

/-! ## The dynamic type of the values -/

/-- C24 at a failing input: the graph `out = output (not in)` with `in` an input
node of declared type `float` passes `Build` without error, `SendInput` of the float
`x = 2` returns `(true, nil)`, and the `Compute` that follows panics: the operator
`not` of the node `n` reads its one input, the float `2`, with the type assertion
to `bool`. So does a `Compute` right after `Build`, on the seed `0.0`. -/
theorem Compute_type_panic :
    Build demoEnv (demoSched ["out", "n", "in"]) 3 floatGraph = some (.ok floatBuilt) ∧
    SendInput demoEnv (demoSched []) 0 floatBuilt "acc" "s1" timeUTC [("x", .float 2)]
      = some (.ok (floatSent, true)) ∧
    Compute demoEnv floatSent = none ∧
    (∃ n, floatSent.getNode "n" = some n ∧ n.Operation.Fn = some .not ∧
      deref floatSent n.ComputedInputs = some [.float 2] ∧
      Fn demoEnv .not n [.float 2] = none) ∧
    Compute demoEnv floatBuilt = none :=
  ⟨by decide, by decide, by decide, ⟨_, rfl, rfl, by decide, by decide⟩, by decide⟩

theorem coerce_typed {E : Env F} {name typ : String} {value v : Value F}
    (h : coerce E name typ value = .ok v) :
    (typ = "float" → ∃ x, v = .float x) ∧ (typ = "bool" → ∃ b, v = .bool b) ∧
      (typ = "string" ∨ typ = "enum" → ∃ w, v = .str w) := by
  unfold coerce at h
  by_cases h1 : typ = "string"
  · rw [if_pos h1] at h
    have a : ¬ typ = "float" := by rw [h1]; decide
    have b : ¬ typ = "bool" := by rw [h1]; decide
    refine ⟨fun c => absurd c a, fun c => absurd c b, fun _ => ?_⟩
    cases value <;> simp at h
    exact ⟨_, h.symm⟩
  · rw [if_neg h1] at h
    by_cases h2 : typ = "enum"
    · rw [if_pos h2] at h
      have a : ¬ typ = "float" := by rw [h2]; decide
      have b : ¬ typ = "bool" := by rw [h2]; decide
      refine ⟨fun c => absurd c a, fun c => absurd c b, fun _ => ?_⟩
      cases value <;> simp at h
      exact ⟨_, h.symm⟩
    · rw [if_neg h2] at h
      by_cases h3 : typ = "float"
      · rw [if_pos h3] at h
        have b : ¬ typ = "bool" := by rw [h3]; decide
        refine ⟨fun _ => ?_, fun c => absurd c b, fun c => ?_⟩
        · cases value with
          | str w =>
            simp only at h
            cases hp : E.parseFloat w with
            | error e => rw [hp] at h; simp at h
            | ok x =>
              rw [hp] at h
              simp only [Except.ok.injEq] at h
              exact ⟨x, h.symm⟩
          | int n =>
            simp only [Except.ok.injEq] at h
            exact ⟨_, h.symm⟩
          | float x =>
            simp only [Except.ok.injEq] at h
            exact ⟨x, h.symm⟩
          | nil => simp at h
          | bool _ => simp at h
          | slice _ => simp at h
          | dict _ => simp at h
        · rcases c with c | c
          · exact absurd c h1
          · exact absurd c h2
      · rw [if_neg h3] at h
        refine ⟨fun c => absurd c h3, fun hb => ?_, fun c => ?_⟩
        · rw [if_pos hb] at h
          cases value with
          | str w =>
            simp only at h
            cases hp : parseBool w with
            | none => rw [hp] at h; simp at h
            | some b =>
              rw [hp] at h
              simp only [Except.ok.injEq] at h
              exact ⟨b, h.symm⟩
          | bool b =>
            simp only [Except.ok.injEq] at h
            exact ⟨b, h.symm⟩
          | nil => simp at h
          | int _ => simp at h
          | float _ => simp at h
          | slice _ => simp at h
          | dict _ => simp at h
        · rcases c with c | c
          · exact absurd c h1
          · exact absurd c h2

theorem sendLoop_preserves {E : Env F} {P : FlowNode F → Prop}
    (hP : ∀ (node : FlowNode F) name value v (t : Time) (rev : Nat), P node →
      coerce E name node.Typ value = .ok v →
      P { node with ComputedValue := v, lastChanged := t, rev := rev })
    {t : Time} {input : List (String × String)}
    {data : List (String × Value F)} {g : FlowGraph F} {must : Bool} {g1 : FlowGraph F}
    {b : Bool} (h : (sendLoop E t input data g must).state = some (g1, b))
    (hg : ∀ k n, g.getNode k = some n → P n) : ∀ k n, g1.getNode k = some n → P n := by
  induction data generalizing g must with
  | nil =>
    simp only [sendLoop, Result.state, Option.some.injEq, Prod.mk.injEq] at h
    obtain ⟨rfl, _⟩ := h
    exact hg
  | cons p rest ih =>
    obtain ⟨name, value⟩ := p
    simp only [sendLoop] at h
    cases hk : mapGet input name with
    | none =>
      rw [hk] at h
      exact ih h hg
    | some key =>
      rw [hk] at h
      simp only at h
      cases hn : g.getNode key with
      | none =>
        rw [hn] at h
        simp [Result.state] at h
      | some node =>
        rw [hn] at h
        simp only at h
        by_cases hrej : (t.Before node.lastChanged || t == node.lastChanged) = true
        · rw [if_pos hrej] at h
          exact ih h hg
        · rw [if_neg hrej] at h
          cases hc : coerce E name node.Typ value with
          | error e =>
            rw [hc] at h
            simp only [Result.state, Option.some.injEq, Prod.mk.injEq] at h
            obtain ⟨rfl, _⟩ := h
            exact hg
          | ok v =>
            rw [hc] at h
            simp only at h
            apply ih h
            intro k n hkn
            have hn1 : mapGet g.Flow key = some node := hn
            simp only [FlowGraph.getNode, FlowGraph.setNode, mapGet_mapReplace] at hkn
            by_cases hkk : k = key
            · rw [if_pos hkk, hn1] at hkn
              simp only [Option.map_some', Option.some.injEq] at hkn
              subst hkn
              exact hP node name value v t g.rev (hg key node hn) hc
            · rw [if_neg hkk] at hkn
              exact hg k n hkn

theorem computeList_preserves {E : Env F} {P : FlowNode F → Prop}
    (hP : ∀ (node n1 : FlowNode F) code vals, P node → node.Operation.Fn = some code →
      Fn E code node vals = some n1 → P n1)
    {ks : List String} {g g1 : FlowGraph F} (h : computeList E ks g = some g1)
    (hg : ∀ k n, g.getNode k = some n → P n) : ∀ k n, g1.getNode k = some n → P n := by
  induction ks generalizing g with
  | nil =>
    simp only [computeList, Option.some.injEq] at h
    subst h
    exact hg
  | cons k0 ks ih =>
    simp only [computeList] at h
    cases hc : computeNode E g k0 with
    | none => rw [hc] at h; cases h
    | some g2 =>
      rw [hc] at h
      simp only at h
      apply ih h
      obtain ⟨node, code, vals, n1, hk0, hcode, _, hfn, hg2⟩ := computeNode_spec hc
      subst hg2
      intro k n hkn
      have hn1 : mapGet g.Flow k0 = some node := hk0
      simp only [FlowGraph.getNode, FlowGraph.setNode, mapGet_mapReplace] at hkn
      by_cases hkk : k = k0
      · rw [if_pos hkk, hn1] at hkn
        simp only [Option.map_some', Option.some.injEq] at hkn
        subst hkn
        exact hP node _ code vals (hg k0 node hk0) hcode hfn
      · rw [if_neg hkk] at hkn
        exact hg k n hkn

theorem InputTyped.send {E : Env F} (node : FlowNode F) (name : String) (value v : Value F)
    (t : Time) (rev : Nat) (h : InputTyped node) (hc : coerce E name node.Typ value = .ok v) :
    InputTyped { node with ComputedValue := v, lastChanged := t, rev := rev } := by
  intro hop
  exact ⟨(h hop).1, coerce_typed hc⟩

theorem InputTyped.compute {E : Env F} (node n1 : FlowNode F) (code : OpCode)
    (vals : List (Value F)) (h : InputTyped node) (hcode : node.Operation.Fn = some code)
    (hfn : Fn E code node vals = some n1) : InputTyped n1 := by
  intro hop
  have hfr := eraseValue_fields (Fn_frame E hfn)
  have hop0 : node.Operator = "input" := hfr.1.symm.trans hop
  obtain ⟨h1, h2⟩ := h hop0
  rw [h1] at hcode
  simp only [Option.some.injEq] at hcode
  subst hcode
  simp only [Fn, Option.some.injEq] at hfn
  subst hfn
  exact ⟨h1, h2⟩

theorem runCall_typed {E : Env F} {s : Sched} {fuel : Nat} {g g1 : FlowGraph F} {c : Call F}
    (h : runCall E s fuel g c = some g1) (hi : g.Inputs.isSome = true)
    (hg : ∀ k n, g.getNode k = some n → InputTyped n) :
    g1.Inputs.isSome = true ∧ ∀ k n, g1.getNode k = some n → InputTyped n := by
  cases c with
  | send aid sid t data =>
    cases hinp : g.Inputs with
    | none => rw [hinp] at hi; cases hi
    | some inp =>
      simp only [runCall, SendInput_built hinp] at h
      cases hs : mapGet inp sid with
      | none =>
        rw [hs] at h
        simp only [Result.state, Option.map_some', Option.some.injEq] at h
        subst h
        exact ⟨hi, hg⟩
      | some input =>
        rw [hs] at h
        simp only at h
        cases hst : (sendLoop E t input data { g with rev := (g.rev + 1) % 2 ^ 64 } false).state with
        | none => rw [hst] at h; cases h
        | some p =>
          obtain ⟨g2, b⟩ := p
          rw [hst] at h
          simp only [Option.map_some', Option.some.injEq] at h
          subst h
          refine ⟨?_, sendLoop_preserves InputTyped.send hst hg⟩
          rw [(sendLoop_frame hst).2.1]
          exact hi
  | compute =>
    simp only [runCall] at h
    refine ⟨?_, computeList_preserves InputTyped.compute h hg⟩
    rw [(computeList_frame h).2.2.1]
    exact hi

theorem runCalls_typed {E : Env F} {s : Sched} {fuel : Nat} {calls : List (Call F)}
    {g g1 : FlowGraph F} (h : runCalls E s fuel g calls = some g1)
    (hi : g.Inputs.isSome = true) (hg : ∀ k n, g.getNode k = some n → InputTyped n) :
    ∀ k n, g1.getNode k = some n → InputTyped n := by
  induction calls generalizing g with
  | nil =>
    simp only [runCalls, Option.some.injEq] at h
    subst h
    exact hg
  | cons c cs ih =>
    simp only [runCalls] at h
    cases hc : runCall E s fuel g c with
    | none => rw [hc] at h; cases h
    | some g2 =>
      rw [hc] at h
      obtain ⟨a, b⟩ := runCall_typed hc hi hg
      exact ih h a b

theorem seedValue_typed (E : Env F) (n : FlowNode F)
    (h : n.ComputedValue = seedValue E n.Typ) : typeOK n := by
  rw [seedValue_eq] at h
  refine ⟨fun ht => ?_, fun ht => ?_, fun ht => ?_⟩
  · rw [ht] at h
    exact ⟨E.zero, h.trans (if_pos (by decide))⟩
  · rw [ht] at h
    refine ⟨false, h.trans ?_⟩
    rw [if_neg (by decide), if_pos (by decide)]
  · refine ⟨"", h.trans ?_⟩
    rcases ht with ht | ht
    · rw [ht, if_neg (by decide), if_neg (by decide)]
    · rw [ht, if_neg (by decide), if_neg (by decide)]

/-- C29: after a `Build` that returns no error and any sequence of calls of
`SendInput`, whether they return an error or not, and of `Compute`, the
`ComputedValue` of every node whose operator is `input` has the dynamic type of its
declared type: a `float64` when it is `float`, a `bool` when it is `bool`, a
`string` when it is `string` or `enum`. -/
theorem inputs_typed (E : Env F) (s : Sched) (fuel : Nat) (g gb : FlowGraph F)
    (hv : s.Valid g) (hb : Build E s fuel g = some (.ok gb)) (calls : List (Call F))
    (g1 : FlowGraph F) (hr : runCalls E s fuel gb calls = some g1) :
    ∀ k n, g1.getNode k = some n → n.Operator = "input" → typeOK n := by
  obtain ⟨inputs, hin, _, hall, hkeys⟩ := Build_inputs_seeded hb
  have hg : ∀ k n, gb.getNode k = some n → InputTyped n := by
    intro k n hk hop
    have hmem : k ∈ s.first := by
      have : k ∈ mapKeys gb.Flow := mem_mapKeys_of_mapGet hk
      rw [hkeys] at this
      exact hv.1.mem_iff.2 (mem_keys_of_mapKeys this)
    have hw := (Build_wired hv hb hk).1.2
    rw [hop] at hw
    have hfn : n.Operation.Fn = some .input := by
      have : some n.Operation = some ⟨"input", some .input, 0, 0⟩ := hw.symm.trans (by decide)
      simp only [Option.some.injEq] at this
      rw [this]
    exact ⟨hfn, seedValue_typed E n ((hall k hmem).2 n hk hop)⟩
  intro k n hk hop
  exact (runCalls_typed hr (by rw [hin]; rfl) hg k n hk hop).2

theorem inputs_typed_witness :
    (demoSched ["out", "n", "in"]).Valid notGraph ∧
    Build demoEnv (demoSched ["out", "n", "in"]) 3 notGraph = some (.ok notBuilt) ∧
    runCalls demoEnv (demoSched ["out", "n", "in"]) 3 notBuilt typedCalls = some typedRun ∧
    ∀ k n, typedRun.getNode k = some n → n.Operator = "input" → typeOK n :=
  ⟨notGraph_valid, notGraph_build, by decide,
    inputs_typed demoEnv (demoSched ["out", "n", "in"]) 3 notGraph notBuilt notGraph_valid
      notGraph_build typedCalls typedRun (by decide)⟩

/-! ## Two orders of one flow -/

theorem computeNode_eq {E : Env F} {g : FlowGraph F} {k : String} {node n1 : FlowNode F}
    {code : OpCode} {vals : List (Value F)} (hk : g.getNode k = some node)
    (hc : node.Operation.Fn = some code) (hd : deref g node.ComputedInputs = some vals)
    (hf : Fn E code node vals = some n1) : computeNode E g k = some (g.setNode k n1) := by
  unfold computeNode
  rw [hk]
  simp only [hc, hd, hf, Option.map_some']

theorem computeList_order {E : Env F} {g1 g2 r1 : FlowGraph F} (hb1 : Built g1)
    (hb2 : Built g2) (hfl : g2.Flow = g1.Flow) (hp : g2.Nodes.Perm g1.Nodes)
    (hc : Compute E g1 = some r1) (post pre : List String) (s : FlowGraph F)
    (hn : g2.Nodes = pre ++ post)
    (hpre : ∀ k, k ∈ pre → s.getNode k = r1.getNode k)
    (hrest : ∀ k, k ∉ pre → s.getNode k = g2.getNode k) :
    ∃ s1, computeList E post s = some s1 ∧
      (∀ k, k ∈ g2.Nodes → s1.getNode k = r1.getNode k) ∧
      ∀ k, k ∉ g2.Nodes → s1.getNode k = g2.getNode k := by
  induction post generalizing pre s with
  | nil =>
    rw [List.append_nil] at hn
    refine ⟨s, rfl, ?_, ?_⟩
    · intro k hk
      rw [hn] at hk
      exact hpre k hk
    · intro k hk
      rw [hn] at hk
      exact hrest k hk
  | cons k rest ih =>
    have hget : ∀ key, g2.getNode key = g1.getNode key := by
      intro key
      unfold FlowGraph.getNode
      rw [hfl]
    have hkmem : k ∈ g2.Nodes := by rw [hn]; simp
    have hknot : k ∉ pre := by
      have hnd := hb2.nodup
      rw [hn] at hnd
      have := (List.nodup_append.1 hnd).2.2
      intro hk
      exact this hk (List.mem_cons_self _ _)
    obtain ⟨nr, hnr⟩ := computeList_mem_getNode hc k (hp.mem_iff.1 hkmem)
    obtain ⟨n0, hn0⟩ := Compute_getNode_back hc hnr
    obtain ⟨code, vals, n1, hcode, hd, hf, hr1⟩ := Compute_node hb1 hc hn0
    have hn2 : g2.getNode k = some n0 := (hget k).trans hn0
    have hs0 : s.getNode k = some n0 := (hrest k hknot).trans hn2
    have hw := (hb2.wired k n0 hn2).1.1
    have hd2 : deref s n0.ComputedInputs = some vals := by
      rw [hw, ← hd]
      apply deref_congr
      intro key hkey
      exact hpre key (hb2.inputs_mem_pre hn hn2 key hkey)
    have hstep := computeNode_eq hs0 hcode hd2 hf
    have hs0f : mapGet s.Flow k = some n0 := hs0
    obtain ⟨s1, h1, h2, h3⟩ := ih (pre ++ [k]) (s.setNode k n1) (by rw [hn]; simp)
      (by
        intro key hkey
        simp only [FlowGraph.getNode, FlowGraph.setNode, mapGet_mapReplace]
        by_cases hkk : key = k
        · rw [if_pos hkk, hs0f, hkk]
          exact hr1.symm
        · rw [if_neg hkk]
          rcases List.mem_append.1 hkey with hkey | hkey
          · exact hpre key hkey
          · simp only [List.mem_singleton] at hkey
            exact absurd hkey hkk)
      (by
        intro key hkey
        simp only [FlowGraph.getNode, FlowGraph.setNode, mapGet_mapReplace]
        have hkk : key ≠ k := by
          intro e
          apply hkey
          rw [e]
          simp
        rw [if_neg hkk]
        apply hrest
        intro hp1
        apply hkey
        simp [hp1])
    refine ⟨s1, ?_, h2, h3⟩
    simp only [computeList, hstep]
    exact h1

theorem Compute_order_some {E : Env F} {g1 g2 r1 : FlowGraph F} (hb1 : Built g1)
    (hb2 : Built g2) (hfl : g2.Flow = g1.Flow) (hp : g2.Nodes.Perm g1.Nodes)
    (hc : Compute E g1 = some r1) :
    ∃ r2, Compute E g2 = some r2 ∧ ∀ k, r2.getNode k = r1.getNode k := by
  obtain ⟨s1, h1, h2, h3⟩ := computeList_order hb1 hb2 hfl hp hc g2.Nodes [] g2 rfl
    (fun k hk => by simp at hk) (fun k _ => rfl)
  refine ⟨s1, h1, ?_⟩
  intro k
  by_cases hk : k ∈ g2.Nodes
  · exact h2 k hk
  · rw [h3 k hk]
    have hk1 : k ∉ g1.Nodes := fun h => hk (hp.mem_iff.2 h)
    rw [computeList_getNode_not_mem hc hk1]
    unfold FlowGraph.getNode
    rw [hfl]

/-- C22: for two built graphs with the same flow, that is the same nodes with the
same values, whose `Nodes` are two orders of the same keys, both with the inputs of
every node before the node, `Compute` panics on both or on none, and when it does
not it leaves the same node under every key, so the same `ComputedValue` and the
same `changed`. -/
theorem Compute_order (E : Env F) (g1 g2 : FlowGraph F) (hb1 : Built g1) (hb2 : Built g2)
    (hfl : g2.Flow = g1.Flow) (hp : g2.Nodes.Perm g1.Nodes) :
    (Compute E g1 = none ↔ Compute E g2 = none) ∧
    ∀ r1 r2, Compute E g1 = some r1 → Compute E g2 = some r2 →
      ∀ k, r2.getNode k = r1.getNode k := by
  constructor
  · constructor
    · intro h1
      cases h2 : Compute E g2 with
      | none => rfl
      | some r2 =>
        obtain ⟨r, hr, _⟩ := Compute_order_some hb2 hb1 hfl.symm hp.symm h2
        rw [h1] at hr
        cases hr
    · intro h2
      cases h1 : Compute E g1 with
      | none => rfl
      | some r1 =>
        obtain ⟨r, hr, _⟩ := Compute_order_some hb1 hb2 hfl hp h1
        rw [h2] at hr
        cases hr
  · intro r1 r2 h1 h2
    obtain ⟨r, hr, hk⟩ := Compute_order_some hb1 hb2 hfl hp h1
    rw [h2] at hr
    cases hr
    exact hk

theorem twoGraph_fresh : Fresh twoGraph := by
  unfold Fresh twoGraph demoGraph
  decide

theorem twoGraph_built (ks : List String) (hp : ks.Perm (mapKeys twoGraph.Flow))
    (fields : List (String × String)) (nodes : List String)
    (h : Build demoEnv (demoSched ks) 4 twoGraph = some (.ok (twoBuilt fields nodes))) :
    Built (twoBuilt fields nodes) :=
  Build_built twoGraph_fresh ⟨hp, hp, fun _ => hp⟩ h

theorem Compute_order_witness :
    Built (twoBuilt [("x", "a"), ("y", "b")] ["a", "b", "c", "out"]) ∧
    Built (twoBuilt [("y", "b"), ("x", "a")] ["b", "a", "c", "out"]) ∧
    (twoBuilt [("y", "b"), ("x", "a")] ["b", "a", "c", "out"]).Flow
      = (twoBuilt [("x", "a"), ("y", "b")] ["a", "b", "c", "out"]).Flow ∧
    (twoBuilt [("y", "b"), ("x", "a")] ["b", "a", "c", "out"]).Nodes.Perm
      (twoBuilt [("x", "a"), ("y", "b")] ["a", "b", "c", "out"]).Nodes ∧
    ((Compute demoEnv (twoBuilt [("x", "a"), ("y", "b")] ["a", "b", "c", "out"]) = none ↔
      Compute demoEnv (twoBuilt [("y", "b"), ("x", "a")] ["b", "a", "c", "out"]) = none) ∧
    ∀ r1 r2, Compute demoEnv (twoBuilt [("x", "a"), ("y", "b")] ["a", "b", "c", "out"]) = some r1 →
      Compute demoEnv (twoBuilt [("y", "b"), ("x", "a")] ["b", "a", "c", "out"]) = some r2 →
      ∀ k, r2.getNode k = r1.getNode k) :=
  ⟨twoGraph_built ["a", "b", "c", "out"] (List.Perm.refl _) _ _ (by decide),
    twoGraph_built ["b", "a", "c", "out"] (List.Perm.swap _ _ _) _ _ (by decide),
    rfl, List.Perm.swap _ _ _,
    Compute_order demoEnv (twoBuilt [("x", "a"), ("y", "b")] ["a", "b", "c", "out"])
      (twoBuilt [("y", "b"), ("x", "a")] ["b", "a", "c", "out"])
      (twoGraph_built ["a", "b", "c", "out"] (List.Perm.refl _) _ _ (by decide))
      (twoGraph_built ["b", "a", "c", "out"] (List.Perm.swap _ _ _) _ _ (by decide))
      rfl (List.Perm.swap _ _ _)⟩
/-! ## The Supervisor -/

theorem mapGet_mapDelete {β : Type} (m : List (String × β)) (k : String) :
    mapGet (mapDelete m k) k = none := by
  induction m with
  | nil => rfl
  | cons p rest ih =>
    obtain ⟨a, b⟩ := p
    unfold mapDelete at ih ⊢
    by_cases hak : a = k
    · simp only [List.filter_cons, hak, ne_eq, not_true_eq_false, decide_False]
      exact ih
    · simp only [List.filter_cons, hak, ne_eq, not_false_eq_true, decide_True, if_true, mapGet,
        if_false]
      exact ih

theorem stopWorkflow_spec (h : handler) (wid : String) :
    mapGet (stopWorkflow h wid).1.workflows wid = none ∧
      (stopWorkflow h wid).1.workerName = h.workerName := by
  unfold stopWorkflow
  cases hw : mapGet h.workflows wid with
  | none => exact ⟨hw, rfl⟩
  | some w => exact ⟨mapGet_mapDelete _ _, rfl⟩

theorem handleDelivery_name (h : handler) (d : Delivery) :
    (handleDelivery h d).workerName = h.workerName := by
  unfold handleDelivery
  split
  · split_ifs
    · exact (stopWorkflow_spec h _).2
    · split
      · rfl
      · unfold startWorkflow
        split_ifs <;> rfl
    · exact (stopWorkflow_spec h _).2
    · rfl
  · rfl

theorem handleDelivery_start {h : handler} {d : Delivery} {W aid wid : String}
    {rest : List String} (hrk : splitDot d.RoutingKey = W :: aid :: wid :: "start" :: rest)
    (hne : h.workerName ≠ W) : holds wid (handleDelivery h d) = false := by
  unfold handleDelivery holds
  rw [hrk]
  simp only [if_true]
  rw [if_pos (fun e => hne e.symm), (stopWorkflow_spec h wid).1]
  rfl

theorem filter_length_le_one {α : Type} (l : List α) (name : α → String) (p : α → Bool)
    (W : String) (hnd : (l.map name).Nodup) (hp : ∀ a, a ∈ l → p a = true → name a = W) :
    (l.filter p).length ≤ 1 := by
  induction l with
  | nil => simp
  | cons a rest ih =>
    simp only [List.map_cons, List.nodup_cons] at hnd
    have ihr := ih hnd.2 (fun b hb => hp b (List.mem_cons_of_mem _ hb))
    by_cases ha : p a = true
    · have hnone : rest.filter p = [] := by
        rw [List.filter_eq_nil_iff]
        intro b hb hpb
        apply hnd.1
        have e1 := hp a (List.mem_cons_self _ _) ha
        have e2 := hp b (List.mem_cons_of_mem _ hb) hpb
        rw [e1, ← e2]
        exact List.mem_map_of_mem name hb
      simp [List.filter_cons, ha, hnone]
    · simp only [List.filter_cons, ha]
      exact ihr

/-- C21: let every worker of a fleet, each in any state, handle a `start` command
whose routing key names the worker `W` and the workflow `wid`.  Then no worker with
another name has `wid` in its table `workflows`, and, the names of the workers being
pairwise distinct, at most one worker has. -/
theorem start_handoff (ws : List handler) (d : Delivery) (W aid wid : String)
    (rest : List String) (hrk : splitDot d.RoutingKey = W :: aid :: wid :: "start" :: rest)
    (hnames : (ws.map handler.workerName).Nodup) :
    (∀ h, h ∈ ws.map (fun h => handleDelivery h d) → h.workerName ≠ W →
      mapGet h.workflows wid = none) ∧
    ((ws.map (fun h => handleDelivery h d)).filter (holds wid)).length ≤ 1 := by
  have hone : ∀ h, h ∈ ws.map (fun h => handleDelivery h d) → h.workerName ≠ W →
      holds wid h = false := by
    intro h hmem hne
    obtain ⟨h0, _, rfl⟩ := List.mem_map.1 hmem
    rw [handleDelivery_name] at hne
    exact handleDelivery_start hrk hne
  constructor
  · intro h hmem hne
    have := hone h hmem hne
    unfold holds at this
    cases hg : mapGet h.workflows wid with
    | none => rfl
    | some w => rw [hg] at this; cases this
  · apply filter_length_le_one _ handler.workerName (holds wid) W
    · have : (ws.map (fun h => handleDelivery h d)).map handler.workerName
          = ws.map handler.workerName := by
        rw [List.map_map]
        apply List.map_congr_left
        intro h _
        exact handleDelivery_name h d
      rw [this]
      exact hnames
    · intro h hmem hp
      by_contra hne
      rw [hone h hmem hne] at hp
      cases hp

theorem start_handoff_witness :
    splitDot startCommand.RoutingKey = "w1" :: "acc" :: "wf" :: "start" :: [] ∧
    ([⟨"w1", [], [], 0⟩, ⟨"w2", [("wf", 0)], [("wf", 0)], 1⟩].map handler.workerName).Nodup ∧
    ((∀ h, h ∈ ([⟨"w1", [], [], 0⟩, ⟨"w2", [("wf", 0)], [("wf", 0)], 1⟩] : List handler).map
        (fun h => handleDelivery h startCommand) → h.workerName ≠ "w1" →
      mapGet h.workflows "wf" = none) ∧
    ((([⟨"w1", [], [], 0⟩, ⟨"w2", [("wf", 0)], [("wf", 0)], 1⟩] : List handler).map
        (fun h => handleDelivery h startCommand)).filter (holds "wf")).length ≤ 1) :=
  ⟨by decide, by decide,
    start_handoff [⟨"w1", [], [], 0⟩, ⟨"w2", [("wf", 0)], [("wf", 0)], 1⟩] startCommand
      "w1" "acc" "wf" [] (by decide) (by decide)⟩

/-- C30 at a failing input: a worker `w1` that runs nothing handles twice the command
that starts the workflow `wf` on it.  The second `startWorkflow` puts its runtime in
the table over the first one, which is not stopped: the runtimes 0 and 1 of `wf` are
both live, the table records the runtime 1 only, and a `stop` command that follows
ends the runtime 1 and leaves the runtime 0 live with an empty table. -/
theorem start_twice_leaks :
    handleIncomingCommand (newHandler "w1") [startCommand, startCommand]
      = ⟨"w1", [("wf", 1)], [("wf", 0), ("wf", 1)], 2⟩ ∧
    ¬ Recorded (handleIncomingCommand (newHandler "w1") [startCommand, startCommand]) ∧
    handleIncomingCommand (newHandler "w1")
        [startCommand, startCommand, ⟨".acc.wf.stop", none⟩]
      = ⟨"w1", [], [("wf", 0)], 2⟩ := by
  refine ⟨by decide, ?_, by decide⟩
  intro h
  have := h ("wf", 0) (by decide)
  revert this
  decide

/-! ## A nil entry in the flow -/

theorem scanFirst_nil_panic (E : Env F) {l : List String} {g : FlowGraph F}
    (hclean : ∀ k n, g.getNode k = some n → ¬ missingID n ∧ n.Operator ≠ "send")
    (hex : ∃ k, k ∈ l ∧ k ∈ g.NilKeys) : ∃ g1, scanFirst E l g = (g1, some .panic) := by
  induction l generalizing g with
  | nil =>
    obtain ⟨k, hk, _⟩ := hex
    simp at hk
  | cons k0 ks ih =>
    by_cases hnil : k0 ∈ g.NilKeys
    · exact ⟨g, scanFirst_cons_nil E hnil⟩
    rw [scanFirst_cons E hnil]
    have hex1 : ∃ k, k ∈ ks ∧ k ∈ g.NilKeys := by
      obtain ⟨k, hk, hn⟩ := hex
      rcases List.mem_cons.1 hk with hk | hk
      · rw [hk] at hn
        exact absurd hn hnil
      · exact ⟨k, hk, hn⟩
    cases h0 : g.getNode k0 with
    | none => exact ih hclean hex1
    | some node0 =>
      simp only
      have hb1 := buildFirst_nilKeys E g k0 node0
      have hfr := (buildFirst_frame E h0).1
      rcases hb : buildFirst E g k0 node0 with ⟨g2, e2⟩
      rw [hb] at hb1 hfr
      cases e2 with
      | some e2 =>
        exfalso
        obtain ⟨hm, hs⟩ := hclean k0 node0 h0
        rcases buildFirst_error E hb with ⟨hm1, _⟩ | hs1
        · exact hm hm1
        · exact hs hs1
      | none =>
        simp only
        apply ih
        · intro k n hk
          obtain ⟨n0, hn0, he⟩ := getNode_of_mapVals hfr hk
          obtain ⟨hid, hop, _⟩ := eraseBuilt_fields he
          obtain ⟨hm, hs⟩ := hclean k n0 hn0
          unfold missingID at hm ⊢
          rw [← hid, ← hop]
          exact ⟨hm, hs⟩
        · obtain ⟨k, hk, hn⟩ := hex1
          exact ⟨k, hk, by rw [hb1]; exact hn⟩

/-- On a flow with a nil entry in which no node fails the test of line 425 and no
node has the operator `send`, `Build` panics, in whatever order the loop of line 424
visits the keys: no node makes that loop return before it reaches the nil entry. -/
theorem Build_nil_panic (E : Env F) (s : Sched) (fuel : Nat) (g : FlowGraph F)
    (hv : s.Valid g) {k0 : String} (hk0 : k0 ∈ g.NilKeys)
    (hclean : ∀ k n, g.getNode k = some n → ¬ missingID n ∧ n.Operator ≠ "send") :
    Build E s fuel g = some .panic := by
  have hmem : k0 ∈ s.first := hv.1.mem_iff.2 (List.mem_append_right _ hk0)
  obtain ⟨g1, h1⟩ := scanFirst_nil_panic E (l := s.first)
    (g := { g with Inputs := some [], Hooks := [] }) hclean ⟨k0, hmem, hk0⟩
  unfold Build
  rw [h1]

/-- C7 at two failing inputs.  On the flow `{a: null, out: {operator: output}}`,
whose output node has no id, a `Build` that visits `a` first panics at line 425 and
returns no error.  On `hookGraph`, which has an output node without id and no node
of operator `send`, a `Build` that visits the key `w` first returns
`missing id in node 'w'`, and `w` is not the key of an input or output node: line
425 tests the operator name `webhook`. -/
theorem Build_missing_id_diverges :
    (nilOutput.getNode "out" = some (demoNode "output" [] "" "" "") ∧
      nilOutput.NilKeys = ["a"] ∧
      ∀ second pass fuel,
        Build demoEnv ⟨["a", "out"], second, pass⟩ fuel nilOutput = some .panic) ∧
    hookGraph.getNode "out" = some (demoNode "output" ["w"] "" "r" "bool") ∧
    (∀ k1 n1, hookGraph.getNode k1 = some n1 → n1.Operator ≠ "send") ∧
    ∃ e g1, Build demoEnv (demoSched ["w", "out"]) 0 hookGraph = some (.error e g1) ∧
      ¬ ∃ k1 n1, hookGraph.getNode k1 = some n1 ∧
        (n1.Operator = "input" ∨ n1.Operator = "output") ∧ n1.ID = "" ∧
        e = "missing id in node '" ++ k1 ++ "'" := by
  refine ⟨⟨by decide, rfl, fun _ _ _ => rfl⟩, by decide, ?_, "missing id in node 'w'",
    { hookGraph with Inputs := some [], Hooks := [] }, by decide, ?_⟩
  · intro k1 n1 h
    rcases hookGraph_keys k1 n1 h with ⟨_, rfl⟩ | ⟨_, rfl⟩ <;> decide
  · rintro ⟨k1, n1, h, hop, _, he⟩
    rcases hookGraph_keys k1 n1 h with ⟨_, rfl⟩ | ⟨rfl, rfl⟩
    · revert hop; decide
    · revert he; decide

/-- C8 at a failing input: on the flow `{a: null, b: {operator: bogus}}` the operator
of `b` is not in the registry, and `Build` returns no error: in both orders of the
loop of line 424 the node `b` raises nothing there, the loop reaches the nil entry
`a` and panics at line 425, before the loop of line 468 that checks the operators. -/
theorem Build_nil_bogus :
    nilBogus.getNode "b" = some (demoNode "bogus" [] "" "" "") ∧
    Operations "bogus" = none ∧ nilBogus.NilKeys = ["a"] ∧
    (∀ second pass fuel,
      Build demoEnv ⟨["a", "b"], second, pass⟩ fuel nilBogus = some .panic) ∧
    ∀ second pass fuel,
      Build demoEnv ⟨["b", "a"], second, pass⟩ fuel nilBogus = some .panic :=
  ⟨by decide, by decide, rfl, fun _ _ _ => rfl, fun _ _ _ => rfl⟩

/-- C9 at a failing input: on the flow `{a: null, b: {operator: not, inputs: [gone]}}`
the node `b` lists the input `gone`, which is no key of the flow, and `Build` returns
no error: in both orders of the loop of line 424 it panics at line 425 on the nil
entry `a`, before the loop of line 470 that resolves the inputs. -/
theorem Build_nil_dangling :
    nilDangling.getNode "b" = some (demoNode "not" ["gone"] "" "" "") ∧
    nilDangling.getNode "gone" = none ∧ nilDangling.NilKeys = ["a"] ∧
    (∀ second pass fuel,
      Build demoEnv ⟨["a", "b"], second, pass⟩ fuel nilDangling = some .panic) ∧
    ∀ second pass fuel,
      Build demoEnv ⟨["b", "a"], second, pass⟩ fuel nilDangling = some .panic :=
  ⟨by decide, by decide, rfl, fun _ _ _ => rfl, fun _ _ _ => rfl⟩

/-! ## The payloads published -/

/-- C12, amended: the runtime publishes a payload for an id exactly when an output
node of that id has changed; there is one payload for each such id; and in that
payload the field `created_at` carries the time of the emission, whatever the output
nodes are named, every other field `name` carries the value of the last output node
of that id and that name, changed or not, the field `id` carries the id unless an
output node of that id has the name `id`, and there is no other field. -/
theorem published_payloads (now : String) (outs : List (FlowNode F)) (id : String) :
    ((∃ p, mapGet (published now outs) id = some p) ↔
      ∃ n, n ∈ outs ∧ n.ID = id ∧ n.changed = true) ∧
    (mapKeys (published now outs)).Nodup ∧
    ∀ p, mapGet (published now outs) id = some p → ∀ name,
      mapGet p name = if name = "created_at" then some (.str now)
        else lastValue id name outs (if name = "id" then some (.str id) else none) := by
  obtain ⟨h1, h2, h3⟩ := emission_payloads outs id
  unfold published stamp
  refine ⟨?_, ?_, ?_⟩
  · rw [← h1, mapGet_mapVals]
    cases mapGet (emission outs) id with
    | none => simp
    | some q => simp
  · rw [mapKeys_mapVals]
    exact h2
  · intro p hp name
    rw [mapGet_mapVals] at hp
    cases hq : mapGet (emission outs) id with
    | none => rw [hq] at hp; cases hp
    | some q =>
      rw [hq] at hp
      simp only [Option.map_some', Option.some.injEq] at hp
      subst hp
      rw [mapGet_mapSet]
      by_cases hn : name = "created_at"
      · rw [if_pos hn, if_pos hn]
      · rw [if_neg hn, if_neg hn]
        exact h3 q hq name

theorem published_payloads_witness :
    mapGet (published "now" stampOutputs) "o1"
      = some [("id", .str "o1"), ("r", .float 1), ("created_at", .str "now")] ∧
    mapGet [("id", Value.str "o1"), ("r", Value.float (1 : Int)), ("created_at", .str "now")]
        "created_at"
      = (if "created_at" = "created_at" then some (.str "now")
        else lastValue "o1" "created_at" stampOutputs
          (if "created_at" = "id" then some (.str "o1") else none)) :=
  ⟨by decide,
    (published_payloads "now" stampOutputs "o1").2.2
      [("id", .str "o1"), ("r", .float 1), ("created_at", .str "now")] (by decide)
      "created_at"⟩

/-- C12 as stated fails on `clashOutputs`, two output nodes of the id `o1` and the
name `r` of which the first has changed: one payload is published for `o1`, and its
field `r` carries the value 2 of the second node, so the value 1 of the first is
not in the payload. -/
theorem published_counterexample :
    ∃ p, mapGet (published "now" clashOutputs) "o1" = some p ∧
      ∃ n, n ∈ clashOutputs ∧ n.ID = "o1" ∧ mapGet p n.Name ≠ some n.ComputedValue :=
  ⟨[("id", .str "o1"), ("r", .float 2), ("created_at", .str "now")], by decide,
    { demoNode "output" ["a"] "o1" "r" "float" with changed := true, ComputedValue := .float 1 },
    by decide, by decide, by decide⟩

end Workflow
